import Mathlib

/-!
Verification of the Quiddler best-play solver (optimizer pipeline).

This file gives a shallow embedding of the solver's core functions —
`buildTrie`, `countRack`, `generateWordCandidates`, `chooseBestPlay` and the
scoring helpers they use — and proves or refutes the frozen claims about them.

Modelling conventions:
* JavaScript objects used as count maps (string key → number) are embedded as
  insertion-ordered association lists `List (String × Int)`.  `Object.entries`
  iteration is iteration over the list; `obj[k] || 0` is `getCount`;
  `obj[k] = (obj[k] || 0) + 1` and `obj[k] -= sign*c` are `adjust`.
  (JS additionally reorders integer-like keys first; no claim or input here
  uses integer-like keys, and rack keys are letters/digraphs.)
* JS numbers are embedded as `Int`; the sentinels `Infinity`/`-Infinity`
  appearing in `chooseBestPlay` are embedded by the three-point extension
  `XInt` below.  (`obj[k] -= c` on an *absent* key yields `NaN` in JS; that
  branch is unreachable under the solver's `fits` discipline and is embedded
  as a plain insertion, documented at `adjust`.)
* In-place mutation with explicit restore (the backtracking in both DFS
  searches) is embedded by threading an explicit state record through the
  recursion; the restore steps are written exactly as in the source
  (decrement after recursion, `pop`, etc.), not as "reinstall the old state".
-/

set_option maxHeartbeats 1000000

/-- Insertion-ordered association list standing for a JS object used as a
count map (string key → number). -/
abbrev CountMap := List (String × Int)

/-- Embedding of `obj[k] || dflt` (first matching key wins; JS objects have
unique keys, so this is exact). -/
def lookupOr (m : CountMap) (k : String) (dflt : Int) : Int :=
  match m with
  | [] => dflt
  | e :: rest => if e.1 = k then e.2 else lookupOr rest k dflt

/-- Embedding of `obj[k] || 0`. -/
def getCount (m : CountMap) (k : String) : Int :=
  lookupOr m k 0

/-- Embedding of `obj[k] = (obj[k] || 0) + d` resp. `obj[k] -= -d`: add `d` to
the entry at `k`, inserting the key (with value `d`) if absent.  On the absent
path the JS `-=` forms produce `NaN`; the solver only reaches them through
`countRack`'s `(obj[k] || 0) + 1` (where insertion is the real JS behaviour)
or guarded by `fits`, which with positive usage counts forces the key to be
present. -/
def adjust (m : CountMap) (k : String) (d : Int) : CountMap :=
  match m with
  | [] => [(k, d)]
  | e :: rest => if e.1 = k then (e.1, e.2 + d) :: rest else e :: adjust rest k d

/-- Key is present in the map. -/
def hasKey (m : CountMap) (k : String) : Bool :=
  match m with
  | [] => false
  | e :: rest => if e.1 = k then true else hasKey rest k

/-- Embedding of JS `.toLowerCase()` (character-wise; the solver's tokens and
dictionary words are ASCII letters, where this matches).  Implemented on the
character list so that concrete instances reduce in the kernel. -/
def jsToLower (s : String) : String :=
  String.mk (s.data.map Char.toLower)

/-- Embedding of JS `.trim()` on the character list. -/
def jsTrim (s : String) : String :=
  String.mk (((s.data.dropWhile Char.isWhitespace).reverse.dropWhile Char.isWhitespace).reverse)

/-- Lexicographic `<=` on strings via their character lists (JS string
comparison, which is what the default array sort in `usageKey` uses). -/
def charsLeb : List Char → List Char → Bool
  | [], _ => true
  | _ :: _, [] => false
  | a :: as, b :: bs => if a < b then true else if b < a then false else charsLeb as bs

/-- String comparison for the embedded JS default sort. -/
def strLeb (a b : String) : Bool := charsLeb a.data b.data

/-- Card point values from `card_scores.js` (the single source of truth for
scoring; values are all positive, so `cardScores[t] || d` only takes the
default on absent keys). -/
def cardScores : CountMap :=
  [("a",2),("b",8),("c",8),("d",5),("e",2),("f",6),("g",6),("h",7),("i",2),
   ("j",13),("k",8),("l",3),("m",5),("n",5),("o",2),("p",6),("q",15),("r",5),
   ("s",3),("t",3),("u",4),("v",11),("w",10),("x",12),("y",4),("z",14),
   ("cl",10),("er",7),("in",7),("qu",9),("th",9)]

/-- Embedding of `cardScores[t] || 0` (used by `remainingValue` and
`bestDiscardInfo`). -/
def cardScore (t : String) : Int :=
  lookupOr cardScores t 0

/-- Embedding of `card.replace(/[()]/g, '').toLowerCase()` from
`calculateScore` in scoring.js. -/
def scoreKey (t : String) : String :=
  String.mk ((t.data.filter (fun c => !(c == '(' || c == ')'))).map Char.toLower)

/-- Embedding of `calculateScore` from scoring.js: sum of
`cardScores[key] || 1` over the card tokens. -/
def calculateScore (cards : List String) : Int :=
  (cards.map (fun card => lookupOr cardScores (scoreKey card) 1)).sum

/-- Embedding of `toCardToken` from scoring.js (wrap multi-letter tokens in
parentheses). -/
def toCardToken (token : String) : String :=
  let t := jsTrim token
  if 1 < t.length then "(" ++ t ++ ")" else t

/-- Embedding of `joinTokensForDisplay` from scoring.js. -/
def joinTokensForDisplay (tokens : List String) : String :=
  String.join (tokens.map toCardToken)

/-- Digraph tile keys derived from `cardScores` (card_scores.js `DIGRAPHS`). -/
def DIGRAPHS : List String :=
  (cardScores.map Prod.fst).filter (fun w => 1 < w.length)

/-- Rack counts split into singles vs digraph tiles (`countRack`'s result
shape, also the `usage` shape of a candidate). -/
structure RackCounts where
  singleCounts : CountMap
  digraphCounts : CountMap
deriving DecidableEq, Repr

/-- Loop body of `countRack`: lowercase the raw token and count it — under
`digraphCounts` when the digraph set has it, otherwise whole under
`singleCounts`. -/
def countRackStep (digraphSet : List String) (rc : RackCounts) (raw : String) : RackCounts :=
  let tile := jsToLower raw
  if digraphSet.contains tile then
    { rc with digraphCounts := adjust rc.digraphCounts tile 1 }
  else
    { rc with singleCounts := adjust rc.singleCounts tile 1 }

/-- Embedding of `countRack` from the solver. -/
def countRack (tiles : List String) (digraphSet : List String) : RackCounts :=
  tiles.foldl (countRackStep digraphSet) { singleCounts := [], digraphCounts := [] }

/-- Prefix-trie node: children keyed by single characters plus an end-of-word
flag (`buildTrie`'s node shape `{ children, end }`). -/
inductive Trie where
  | node (children : List (Char × Trie)) (isEnd : Bool)

/-- Children of a trie node. -/
def Trie.children : Trie → List (Char × Trie)
  | .node cs _ => cs

/-- End-of-word flag of a trie node. -/
def Trie.isEnd : Trie → Bool
  | .node _ e => e

/-- First child with the given character key (JS `node.children[ch]`). -/
def lookupChild (cs : List (Char × Trie)) (c : Char) : Option Trie :=
  match cs with
  | [] => none
  | e :: rest => if e.1 = c then some e.2 else lookupChild rest c

/-- Child lookup on a node. -/
def Trie.child? (t : Trie) (c : Char) : Option Trie :=
  lookupChild t.children c

/-- Update the child at `c` (or append it), preserving insertion order — the
net effect of `node.children[ch] ??= {...}` followed by in-place mutation of
that child. -/
def setChildren (cs : List (Char × Trie)) (c : Char) (sub : Trie) : List (Char × Trie) :=
  match cs with
  | [] => [(c, sub)]
  | e :: rest => if e.1 = c then (e.1, sub) :: rest else e :: setChildren rest c sub

/-- Insertion of one (already lowercased) word into the trie: walk/create a
child chain while fuel (`maxDepth` budget) remains, and set the end flag on
the node where the walk stops iff `mark` (i.e. `w.length <= maxDepth`). -/
def insertTrie (t : Trie) (cs : List Char) (fuel : Nat) (mark : Bool) : Trie :=
  match cs, fuel with
  | [], _ => if mark then Trie.node t.children true else t
  | _ :: _, 0 => if mark then Trie.node t.children true else t
  | c :: rest, f + 1 =>
    let sub := (t.child? c).getD (Trie.node [] false)
    Trie.node (setChildren t.children c (insertTrie sub rest f mark)) t.isEnd

/-- Embedding of `buildTrie(words, maxDepth)`: insert each lowercased word up
to `maxDepth`, marking the final node iff the word's full length fits. -/
def buildTrie (words : List String) (maxDepth : Nat) : Trie :=
  words.foldl
    (fun root wRaw =>
      let w := jsToLower wRaw
      insertTrie root w.data maxDepth (decide (w.length ≤ maxDepth)))
    (Trie.node [] false)

/-- Node reached by following a character path from `t`, if any. -/
def Trie.findNode? : Trie → List Char → Option Trie
  | t, [] => some t
  | t, c :: cs =>
    match t.child? c with
    | some sub => sub.findNode? cs
    | none => none

/-- End flag of the node at a path (false when the path is absent). -/
def Trie.endAt (t : Trie) (p : List Char) : Bool :=
  match t.findNode? p with
  | some n => n.isEnd
  | none => false

/-- Whether the trie has a node at the given path. -/
def Trie.hasNodeAt (t : Trie) (p : List Char) : Bool :=
  (t.findNode? p).isSome

/-- Candidate word record produced by `generateWordCandidates`:
display word, score, exact tile usage and plain-letter length. -/
structure Cand where
  word : String
  score : Int
  usage : RackCounts
  length : Nat
deriving DecidableEq, Repr

/-- Loop body of `usageFromTokens`: a 1-character token is counted under
`singleCounts`, any other token under `digraphCounts`. -/
def usageStep (u : RackCounts) (t : String) : RackCounts :=
  if t.length = 1 then { u with singleCounts := adjust u.singleCounts t 1 }
  else { u with digraphCounts := adjust u.digraphCounts t 1 }

/-- Embedding of `usageFromTokens`. -/
def usageFromTokens (tokens : List String) : RackCounts :=
  tokens.foldl usageStep { singleCounts := [], digraphCounts := [] }

/-- JS default array sort compares `String([k, v])`, i.e. the string
`k ++ "," ++ String(v)`, lexicographically. -/
def entrySortKey (e : String × Int) : String :=
  e.1 ++ "," ++ toString e.2

/-- Stable insertion used to embed the JS `Object.entries(...).sort()` call
of `usageKey` (ascending by `entrySortKey`). -/
def insertEntry (e : String × Int) : CountMap → CountMap
  | [] => [e]
  | x :: xs => if strLeb (entrySortKey x) (entrySortKey e) then x :: insertEntry e xs else e :: x :: xs

/-- Entries sorted as by the JS default sort in `usageKey`. -/
def sortEntries (m : CountMap) : CountMap :=
  m.foldl (fun acc e => insertEntry e acc) []

/-- Embedding of one half of `usageKey`:
`Object.entries(m).sort().map(([k,v]) => k+v).join('')`. -/
def usagePart (m : CountMap) : String :=
  String.join ((sortEntries m).map (fun e => e.1 ++ toString e.2))

/-- Embedding of `usageKey`. -/
def usageKey (u : RackCounts) : String :=
  usagePart u.singleCounts ++ "|" ++ usagePart u.digraphCounts

/-- The predicate of `pushResult`'s first guard:
`usedTokens.length === 1 && usedTokens[0].length > 1`. -/
def loneDigraph (tokens : List String) : Bool :=
  match tokens with
  | [t] => 1 < t.length
  | _ => false

/-- Per-plain-word bucket: usage-signature key → candidate, insertion
ordered (a JS `Map`). -/
abbrev Bucket := List (String × Cand)

/-- The `perWord` map: plain word → bucket, insertion ordered (a JS `Map`
of `Map`s). -/
abbrev PerWord := List (String × Bucket)

/-- Embedding of `perWord.get(plainWord)` (first matching key). -/
def bucketFind? (pw : PerWord) (plain : String) : Option Bucket :=
  match pw with
  | [] => none
  | e :: rest => if e.1 = plain then some e.2 else bucketFind? rest plain

/-- Embedding of `bucket.has(key)`. -/
def bucketHas (b : Bucket) (key : String) : Bool :=
  match b with
  | [] => false
  | e :: rest => if e.1 = key then true else bucketHas rest key

/-- Replace the bucket stored under `plain` (the in-place mutation of a bucket
obtained from `perWord.get`). -/
def setBucket (pw : PerWord) (plain : String) (b : Bucket) : PerWord :=
  match pw with
  | [] => [(plain, b)]
  | e :: rest => if e.1 = plain then (e.1, b) :: rest else e :: setBucket rest plain b

/-- Mutable state threaded through the generator DFS: the rack-count copies
being consumed, the `path` and `usedTokens` stacks, and the `perWord`
result map. -/
structure GenState where
  singles : CountMap
  digraphs : CountMap
  path : List Char
  usedTokens : List String
  perWord : PerWord
deriving Repr

/-- The `commonGate && !commonGate(plainWord)` guard of `pushResult`. -/
def gateRejects (gate : Option (String → Bool)) (plain : String) : Bool :=
  match gate with
  | some g => !(g plain)
  | none => false

/-- Embedding of `pushResult`: skip lone-digraph words and gate-rejected
words, then record the candidate in its per-plain-word bucket unless the
usage signature is already present (first one found wins). -/
def pushResult (gate : Option (String → Bool)) (s : GenState) : GenState :=
  let plainWord := String.mk s.path
  if loneDigraph s.usedTokens then s
  else if gateRejects gate plainWord then s
  else
    let usage := usageFromTokens s.usedTokens
    let key := usageKey usage
    let displayWord := joinTokensForDisplay s.usedTokens
    match bucketFind? s.perWord plainWord with
    | none =>
      let score := calculateScore s.usedTokens
      let cand : Cand := { word := displayWord, score := score, usage := usage,
                           length := plainWord.length }
      { s with perWord := s.perWord ++ [(plainWord, [(key, cand)])] }
    | some bucket =>
      if bucketHas bucket key then s
      else
        let score := calculateScore s.usedTokens
        let cand : Cand := { word := displayWord, score := score, usage := usage,
                             length := plainWord.length }
        { s with perWord := setBucket s.perWord plainWord (bucket ++ [(key, cand)]) }

/-- JS `node.children[L]` with a string key: children are created with
single-character keys only, so the lookup succeeds exactly when `L` is one
character matching a child; the matched character is returned for the
`path.push(L)` step. -/
def Trie.childStr? (t : Trie) (L : String) : Option (Char × Trie) :=
  match L.data with
  | [c] =>
    match t.child? c with
    | some sub => some (c, sub)
    | none => none
  | _ => none

theorem lookupChild_sizeOf {cs : List (Char × Trie)} {c : Char} {sub : Trie}
    (h : lookupChild cs c = some sub) : sizeOf sub < sizeOf cs := by
  induction cs with
  | nil => simp [lookupChild] at h
  | cons e rest ih =>
    obtain ⟨ec, et⟩ := e
    unfold lookupChild at h
    by_cases hc : ec = c
    · simp [hc] at h
      subst h
      simp
      omega
    · simp [hc] at h
      have := ih h
      simp
      omega

theorem child_sizeOf {t : Trie} {c : Char} {sub : Trie}
    (h : t.child? c = some sub) : sizeOf sub < sizeOf t := by
  cases t with
  | node cs e =>
    have h2 : lookupChild cs c = some sub := h
    have := lookupChild_sizeOf h2
    simp
    omega

theorem childStr_sizeOf {t : Trie} {L : String} {pr : Char × Trie}
    (h : t.childStr? L = some pr) : sizeOf pr.2 < sizeOf t := by
  obtain ⟨c, sub⟩ := pr
  show sizeOf sub < sizeOf t
  unfold Trie.childStr? at h
  rcases hd : L.data with _ | ⟨a, tl⟩
  · rw [hd] at h
    exact absurd h (by simp)
  · rcases tl with _ | ⟨b, rest⟩
    · rw [hd] at h
      have h3 : (match t.child? a with
          | some sub => some (a, sub)
          | none => none) = some (c, sub) := h
      rcases hc : t.child? a with _ | sub2 <;> rw [hc] at h3 <;> simp at h3
      rcases h3 with ⟨h1, h2⟩
      subst h2
      exact child_sizeOf hc
    · rw [hd] at h
      exact absurd h (by simp)

/-- One iteration of the generator's single-letter loop (`recur` is the DFS
at the next trie level): for an entry `[L, c]` with `c > 0` and a matching
trie child, consume the tile, extend path and tokens, recurse, then restore
(decrement/recurse/pop/increment exactly as in the source). -/
def genSingleStep (recur : Trie → GenState → GenState) (node : Trie)
    (acc : GenState) (e : String × Int) : GenState :=
  if 0 < e.2 then
    match node.childStr? e.1 with
    | some pr =>
      let sIn : GenState :=
        { acc with singles := adjust acc.singles e.1 (-1),
                   path := acc.path ++ [pr.1],
                   usedTokens := acc.usedTokens ++ [e.1] }
      let sRec := recur pr.2 sIn
      { sRec with usedTokens := sRec.usedTokens.dropLast,
                  path := sRec.path.dropLast,
                  singles := adjust sRec.singles e.1 1 }
    | none => acc
  else acc

/-- One iteration of the generator's digraph loop: for an entry `[DG, c]`
with `c > 0` and a two-level child chain matching the digraph's first two
characters, consume the digraph tile (one atomic usage item advancing the
trie by two letters), recurse, then restore. -/
def genDigraphStep (recur : Trie → GenState → GenState) (node : Trie)
    (acc : GenState) (e : String × Int) : GenState :=
  if 0 < e.2 then
    match e.1.data with
    | a :: b :: _ =>
      match node.child? a with
      | some n1 =>
        match n1.child? b with
        | some n2 =>
          let sIn : GenState :=
            { acc with digraphs := adjust acc.digraphs e.1 (-1),
                       path := acc.path ++ [a, b],
                       usedTokens := acc.usedTokens ++ [e.1] }
          let sRec := recur n2 sIn
          { sRec with usedTokens := sRec.usedTokens.dropLast,
                      path := sRec.path.dropLast.dropLast,
                      digraphs := adjust sRec.digraphs e.1 1 }
        | none => acc
      | none => acc
    | _ => acc
  else acc

mutual

/-- Computable size of a trie (used as the structural fuel bound for the
generator DFS: any root-to-node chain is shorter than the root's size). -/
def Trie.size : Trie → Nat
  | .node cs _ => 1 + childrenSize cs

/-- Total size of a child list. -/
def childrenSize : List (Char × Trie) → Nat
  | [] => 0
  | e :: rest => e.2.size + childrenSize rest

end

/-- Embedding of the generator's `dfs(node, singleCounts, digraphCounts)`:
record a result at end-of-word nodes once the path is long enough, then run
every single-letter entry and every digraph entry of the (threaded) counts
through the two loops.  The `Object.entries` snapshots are the count lists
at the points where the two loops start.  The extra `fuel` argument only
makes the recursion structural (so that concrete runs reduce): each level
consumes one unit while moving to a strict subtrie, so any `fuel` of at
least `sizeOf node` — as `generateWordCandidates` passes — never reaches
the `0` branch. -/
def genDfs (gate : Option (String → Bool)) (minLen : Nat) : Nat → Trie → GenState → GenState
  | 0, _, s => s
  | fuel + 1, node, s =>
    let s0 := if node.isEnd && decide (minLen ≤ s.path.length) then pushResult gate s else s
    let s1 := s0.singles.foldl (genSingleStep (genDfs gate minLen fuel) node) s0
    s1.digraphs.foldl (genDigraphStep (genDfs gate minLen fuel) node) s1

/-- Embedding of `generateWordCandidates(trie, rackCounts, minLen, opts)`:
run the DFS on shallow copies of the rack counts and flatten the per-word
buckets into the output list. -/
def generateWordCandidates (trie : Trie) (rackCounts : RackCounts) (minLen : Nat)
    (gate : Option (String → Bool)) : List Cand :=
  let sF := genDfs gate minLen trie.size trie
    { singles := rackCounts.singleCounts, digraphs := rackCounts.digraphCounts,
      path := [], usedTokens := [], perWord := [] }
  (sF.perWord.map (fun b => b.2.map (fun e => e.2))).flatten

/-- The per-plain-word bucket map built by `generateWordCandidates` before
flattening (exposed for the deduplication claims). -/
def generateWordBuckets (trie : Trie) (rackCounts : RackCounts) (minLen : Nat)
    (gate : Option (String → Bool)) : PerWord :=
  (genDfs gate minLen trie.size trie
    { singles := rackCounts.singleCounts, digraphs := rackCounts.digraphCounts,
      path := [], usedTokens := [], perWord := [] }).perWord

/-- JS number sentinel domain for `chooseBestPlay`: an integer, `-Infinity`
(`bot`) or `Infinity` (`top`).  `NaN` never arises in the embedded code. -/
inductive XInt where
  | bot
  | fin (z : Int)
  | top
deriving DecidableEq, Repr

/-- Strict `<` on the sentinel domain, as JS compares numbers with
infinities. -/
def XInt.ltb : XInt → XInt → Bool
  | .bot, .bot => false
  | .bot, .fin _ => true
  | .bot, .top => true
  | .fin _, .bot => false
  | .fin a, .fin b => decide (a < b)
  | .fin _, .top => true
  | .top, _ => false

/-- Non-strict `<=` on the sentinel domain. -/
def XInt.leb (a b : XInt) : Bool := !(XInt.ltb b a)

/-- The mutable `cur` record of `chooseBestPlay`'s search. -/
structure CurRec where
  baseScore : Int
  words : List Cand
  longest : Nat
  count : Nat
deriving DecidableEq, Repr

/-- The `best` record of `chooseBestPlay` (initially the sentinel record with
`totalScore = -Infinity` and `leftoverValue = Infinity`). -/
structure BestRec where
  baseScore : XInt
  words : List (String × Int)
  longest : Nat
  count : Nat
  leftoverValue : XInt
  totalScore : XInt
  bonusLongest : Int
  bonusMost : Int
  discardTile : Option String
  unusedTiles : List String
deriving DecidableEq, Repr

/-- Parameters of `chooseBestPlay` (defaults in the source:
`currentLongest = currentMost = Infinity`, `noDiscard = false`,
`longestBonus = mostBonus = 10`). -/
structure ChooseParams where
  currentLongest : XInt
  currentMost : XInt
  noDiscard : Bool
  longestBonus : Int
  mostBonus : Int
deriving DecidableEq, Repr

/-- Mutable state threaded through `chooseBestPlay`'s search: the remaining
count copies, the `cur` accumulator and the `best` record. -/
structure CPState where
  remS : CountMap
  remD : CountMap
  cur : CurRec
  best : BestRec
deriving DecidableEq, Repr

/-- The initial `best` sentinel record of `chooseBestPlay`. -/
def initBest : BestRec :=
  { baseScore := XInt.bot, words := [], longest := 0, count := 0,
    leftoverValue := XInt.top, totalScore := XInt.bot,
    bonusLongest := 0, bonusMost := 0, discardTile := none, unusedTiles := [] }

/-- Embedding of `remainingValue()`: sum of `(cardScores[t] || 0) * c` over
both remaining-count maps. -/
def remainingValue (remS remD : CountMap) : Int :=
  (remS.map (fun e => cardScore e.1 * e.2)).sum + (remD.map (fun e => cardScore e.1 * e.2)).sum

/-- Embedding of `totalRemainingCount()`. -/
def totalRemainingCount (remS remD : CountMap) : Int :=
  (remS.map Prod.snd).sum + (remD.map Prod.snd).sum

/-- Tiles listed from one count map: each key repeated `c` times (`for i < c`
pushes nothing when `c <= 0`). -/
def tilesOf (m : CountMap) : List String :=
  match m with
  | [] => []
  | e :: rest => List.replicate e.2.toNat e.1 ++ tilesOf rest

/-- Embedding of `listRemainingTiles()`: singles first, then digraphs, in
map order. -/
def listRemainingTiles (remS remD : CountMap) : List String :=
  tilesOf remS ++ tilesOf remD

/-- One loop of `bestDiscardInfo`: keep the first strict maximum
(`v > bestVal`) among entries with positive count. -/
def discardFold (m : CountMap) (acc : Option String × XInt) : Option String × XInt :=
  match m with
  | [] => acc
  | (t, c) :: rest =>
    let acc2 :=
      if 0 < c then
        let v := cardScore t
        if XInt.ltb acc.2 (XInt.fin v) then (some t, XInt.fin v) else acc
      else acc
    discardFold rest acc2

/-- Embedding of `bestDiscardInfo()`: best tile over singles then digraphs;
the returned value is `0` when no tile was found (`bestVal === -Infinity`).
The accumulator value is `-Infinity` or a finite card value, never
`Infinity`, so the `top` fallback below is unreachable. -/
def bestDiscardInfo (remS remD : CountMap) : Option String × Int :=
  let r := discardFold remD (discardFold remS (none, XInt.bot))
  (r.1, match r.2 with
        | XInt.bot => 0
        | XInt.fin v => v
        | XInt.top => 0)

/-- Embedding of `fits(u)`: every usage entry is available in sufficient
quantity (`(rem[k] || 0) < c` never holds). -/
def fits (u : RackCounts) (remS remD : CountMap) : Bool :=
  u.singleCounts.all (fun e => decide (e.2 ≤ getCount remS e.1)) &&
  u.digraphCounts.all (fun e => decide (e.2 ≤ getCount remD e.1))

/-- Embedding of `apply(u, sign)`: `rem[k] -= sign * c` over both maps. -/
def applyUsage (u : RackCounts) (sign : Int) (remS remD : CountMap) : CountMap × CountMap :=
  (u.singleCounts.foldl (fun m e => adjust m e.1 (-(sign * e.2))) remS,
   u.digraphCounts.foldl (fun m e => adjust m e.1 (-(sign * e.2))) remD)

/-- The penalty / discard-tile / unused-tiles computation of `evalCurrent`
(the part between the skip guard and the bonus computation). -/
def evalPenalty (noDiscard : Bool) (remS remD : CountMap) : Int × Option String × List String :=
  let remVal := remainingValue remS remD
  if noDiscard then
    (remVal, none, listRemainingTiles remS remD)
  else
    let bd := bestDiscardInfo remS remD
    let leftovers := listRemainingTiles remS remD
    let unusedTiles :=
      match bd.1 with
      | some bt => leftovers.erase bt
      | none => leftovers
    (remVal - bd.2, bd.1, unusedTiles)

/-- The bonus and total computation of `evalCurrent`: strict-threshold
bonuses and `max(baseScore - penalty, 0) + bonuses`. -/
def evalTotal (p : ChooseParams) (cur : CurRec) (penalty : Int) : Int × Int × Int :=
  let bl := if XInt.ltb p.currentLongest (XInt.fin cur.longest) then p.longestBonus else 0
  let bm := if XInt.ltb p.currentMost (XInt.fin cur.count) then p.mostBonus else 0
  (bl, bm, max (cur.baseScore - penalty) 0 + bl + bm)

/-- Embedding of `evalCurrent()`: skip when discard is allowed but no tile
remains; otherwise compute penalty/discard/unused, strict bonuses and the
floored total, and replace `best` on a strict improvement. -/
def evalCurrent (p : ChooseParams) (s : CPState) : CPState :=
  let remCount := totalRemainingCount s.remS s.remD
  if !p.noDiscard && remCount == 0 then s
  else
    let pdu := evalPenalty p.noDiscard s.remS s.remD
    let bt := evalTotal p s.cur pdu.1
    if XInt.ltb s.best.totalScore (XInt.fin bt.2.2) then
      { s with best :=
          { baseScore := XInt.fin s.cur.baseScore,
            words := s.cur.words.map (fun w => (w.word, w.score)),
            longest := s.cur.longest,
            count := s.cur.count,
            leftoverValue := XInt.fin pdu.1,
            totalScore := XInt.fin bt.2.2,
            bonusLongest := bt.1,
            bonusMost := bt.2.1,
            discardTile := pdu.2.1,
            unusedTiles := pdu.2.2 } }
    else s

/-- Embedding of `dfs(i)` of `chooseBestPlay`: upper-bound pruning, then
include (when the candidate fits) with full restore, then exclude. -/
def cpDfs (p : ChooseParams) (cands : List Cand) (s : CPState) : CPState :=
  let ub := s.cur.baseScore + remainingValue s.remS s.remD + p.longestBonus + p.mostBonus
  if XInt.leb (XInt.fin ub) s.best.totalScore then s
  else
    match cands with
    | [] => evalCurrent p s
    | w :: rest =>
      let s1 :=
        if fits w.usage s.remS s.remD then
          let ap := applyUsage w.usage 1 s.remS s.remD
          let prevLongest := s.cur.longest
          let sIn : CPState :=
            { s with remS := ap.1, remD := ap.2,
                     cur := { baseScore := s.cur.baseScore + w.score,
                              words := s.cur.words ++ [w],
                              longest := max s.cur.longest w.length,
                              count := s.cur.count + 1 } }
          let sRec := cpDfs p rest sIn
          let ap2 := applyUsage w.usage (-1) sRec.remS sRec.remD
          { sRec with remS := ap2.1, remD := ap2.2,
                      cur := { baseScore := sRec.cur.baseScore - w.score,
                               words := sRec.cur.words.dropLast,
                               longest := prevLongest,
                               count := sRec.cur.count - 1 } }
        else s
      cpDfs p rest s1

/-- The reference exhaustive include/exclude search: `cpDfs` with the
upper-bound pruning removed and everything else identical. -/
def cpDfsNoPrune (p : ChooseParams) (cands : List Cand) (s : CPState) : CPState :=
  match cands with
  | [] => evalCurrent p s
  | w :: rest =>
    let s1 :=
      if fits w.usage s.remS s.remD then
        let ap := applyUsage w.usage 1 s.remS s.remD
        let prevLongest := s.cur.longest
        let sIn : CPState :=
          { s with remS := ap.1, remD := ap.2,
                   cur := { baseScore := s.cur.baseScore + w.score,
                            words := s.cur.words ++ [w],
                            longest := max s.cur.longest w.length,
                            count := s.cur.count + 1 } }
        let sRec := cpDfsNoPrune p rest sIn
        let ap2 := applyUsage w.usage (-1) sRec.remS sRec.remD
        { sRec with remS := ap2.1, remD := ap2.2,
                    cur := { baseScore := sRec.cur.baseScore - w.score,
                             words := sRec.cur.words.dropLast,
                             longest := prevLongest,
                             count := sRec.cur.count - 1 } }
      else s
    cpDfsNoPrune p rest s1

/-- The sort comparator of `chooseBestPlay` expressed as a "may precede"
relation: score-per-letter descending, then score descending, then length
descending (ratios compared exactly by cross-multiplication; for the
solver's score/length ranges the JS floating-point comparison agrees). -/
def candBefore (a b : Cand) : Bool :=
  let lhs := a.score * max 1 (b.length : Int)
  let rhs := b.score * max 1 (a.length : Int)
  if lhs ≠ rhs then decide (rhs < lhs)
  else if a.score ≠ b.score then decide (b.score < a.score)
  else decide (b.length ≤ a.length)

/-- Stable insertion for the embedded sort. -/
def insertCand (a : Cand) : List Cand → List Cand
  | [] => [a]
  | b :: bs => if candBefore b a then b :: insertCand a bs else a :: b :: bs

/-- Embedding of `candidates.sort(...)` as a stable sort by `candBefore`
(JS engines' `Array.prototype.sort` is stable). -/
def sortCands (l : List Cand) : List Cand :=
  l.foldl (fun acc a => insertCand a acc) []

/-- The result object returned by `chooseBestPlay`. -/
structure PlayResult where
  words : List (String × Int)
  baseScore : XInt
  leftoverValue : XInt
  bonusLongest : Int
  bonusMost : Int
  totalScore : XInt
  longestWordLength : Nat
  wordCount : Nat
  discardTile : Option String
  unusedTiles : List String
deriving DecidableEq, Repr

/-- Initial search state of `chooseBestPlay` over given rack counts (the
`remSingles`/`remDigraphs` shallow copies plus fresh `cur` and `best`). -/
def initCPState (rackCounts : RackCounts) : CPState :=
  { remS := rackCounts.singleCounts, remD := rackCounts.digraphCounts,
    cur := { baseScore := 0, words := [], longest := 0, count := 0 },
    best := initBest }

/-- Package the final `best` record as the returned result object. -/
def packResult (b : BestRec) : PlayResult :=
  { words := b.words, baseScore := b.baseScore, leftoverValue := b.leftoverValue,
    bonusLongest := b.bonusLongest, bonusMost := b.bonusMost, totalScore := b.totalScore,
    longestWordLength := b.longest, wordCount := b.count,
    discardTile := b.discardTile, unusedTiles := b.unusedTiles }

/-- Embedding of `chooseBestPlay(candidates, rackCounts, params)`. -/
def chooseBestPlay (cands : List Cand) (rackCounts : RackCounts) (p : ChooseParams) : PlayResult :=
  let sorted := sortCands cands
  packResult (cpDfs p sorted (initCPState rackCounts)).best

/-- Reference variant of `chooseBestPlay` built on the exhaustive
include/exclude search without pruning. -/
def chooseBestPlayRef (cands : List Cand) (rackCounts : RackCounts) (p : ChooseParams) : PlayResult :=
  let sorted := sortCands cands
  packResult (cpDfsNoPrune p sorted (initCPState rackCounts)).best

/-- Keys of a count map are pairwise distinct — structurally true of every
JS object; stated explicitly because the embedding uses association lists. -/
def keysNodup (m : CountMap) : Prop := (m.map Prod.fst).Nodup

/-- All counts of a map are nonnegative. -/
def nonnegCounts (m : CountMap) : Prop := ∀ e ∈ m, 0 ≤ e.2

/-- All counts of a map are positive (as produced by `usageFromTokens` and
`countRack`). -/
def posCounts (m : CountMap) : Prop := ∀ e ∈ m, 0 < e.2

/-- Both maps of a `RackCounts` have JS-object key discipline. -/
def wfCounts (rc : RackCounts) : Prop := keysNodup rc.singleCounts ∧ keysNodup rc.digraphCounts

/-- A well-formed usage signature: unique keys and positive counts, as
`usageFromTokens` produces. -/
def usageOK (u : RackCounts) : Prop :=
  wfCounts u ∧ posCounts u.singleCounts ∧ posCounts u.digraphCounts

/-- Total card value of a usage signature under `cardScores[t] || 0` — the
same value function `remainingValue` uses. -/
def usageValue (u : RackCounts) : Int :=
  remainingValue u.singleCounts u.digraphCounts

/-- A candidate whose score respects the tile values: well-formed usage and
`0 ≤ score ≤ usageValue` (true of every generator-produced candidate whose
tokens are priced tiles, since its score is the sum of its tokens' card
values). -/
def candOK (w : Cand) : Prop :=
  usageOK w.usage ∧ 0 ≤ w.score ∧ w.score ≤ usageValue w.usage

/-- Multiset of tiles described by a count map. -/
def msOf (m : CountMap) : Multiset String := (tilesOf m : List String)

/-- Multiset of tiles consumed by a usage signature. -/
def usageMS (u : RackCounts) : Multiset String :=
  msOf u.singleCounts + msOf u.digraphCounts

/-- Multiset of all tiles consumed by a list of chosen candidates. -/
def wordsMS (ws : List Cand) : Multiset String :=
  (ws.map (fun w => usageMS w.usage)).sum

/-- Multiset contribution of an optional discard tile. -/
def discardMS : Option String → Multiset String
  | none => 0
  | some t => {t}

/-- Multiset of all tiles of a rack. -/
def rackMS (rc : RackCounts) : Multiset String :=
  msOf rc.singleCounts + msOf rc.digraphCounts

/-- Totals of all leaves the include/exclude search evaluates (skipped
leaves excluded) from a given mid-search core state — the specification
object used to relate the pruned and unpruned searches. -/
def leafTotals (p : ChooseParams) (cands : List Cand) (remS remD : CountMap)
    (cur : CurRec) : List Int :=
  match cands with
  | [] =>
    if !p.noDiscard && totalRemainingCount remS remD == 0 then []
    else [(evalTotal p cur (evalPenalty p.noDiscard remS remD).1).2.2]
  | w :: rest =>
    (if fits w.usage remS remD then
      let ap := applyUsage w.usage 1 remS remD
      leafTotals p rest ap.1 ap.2
        { baseScore := cur.baseScore + w.score, words := cur.words ++ [w],
          longest := max cur.longest w.length, count := cur.count + 1 }
     else []) ++ leafTotals p rest remS remD cur

/-- The resource-conservation invariant of the selection search over a rack
multiset `R`: well-formed nonnegative remaining maps, conservation of tiles
between the words chosen so far and the remaining maps, and the best record
(once set) partitioning the rack into chosen-word usages, the discard tile
and the unused tiles. -/
def searchInv (R : Multiset String) (s : CPState) : Prop :=
  keysNodup s.remS ∧ keysNodup s.remD ∧
  (∀ a, 0 ≤ getCount s.remS a) ∧ (∀ a, 0 ≤ getCount s.remD a) ∧
  wordsMS s.cur.words + msOf s.remS + msOf s.remD = R ∧
  (s.best = initBest ∨
    ∃ S : List Cand, s.best.words = S.map (fun w => (w.word, w.score)) ∧
      wordsMS S + discardMS s.best.discardTile
        + ((s.best.unusedTiles : List String) : Multiset String) = R)

/-- The admissibility invariant of the pruning argument: well-formed
nonnegative remaining maps and a nonnegative accumulated base score. -/
def boundInv (s : CPState) : Prop :=
  keysNodup s.remS ∧ keysNodup s.remD ∧
  (∀ a, 0 ≤ getCount s.remS a) ∧ (∀ a, 0 ≤ getCount s.remD a) ∧
  0 ≤ s.cur.baseScore

/-! ## Count-map lemmas -/

theorem getCount_adjust (m : CountMap) (k : String) (d : Int) (a : String) :
    getCount (adjust m k d) a = getCount m a + (if a = k then d else 0) := by
  induction m with
  | nil =>
    by_cases h : a = k
    · subst h; simp [adjust, getCount, lookupOr]
    · have h2 : ¬(k = a) := fun hh => h hh.symm
      simp [adjust, getCount, lookupOr, h, h2]
  | cons e rest ih =>
    obtain ⟨ek, ev⟩ := e
    by_cases he : ek = k
    · subst he
      by_cases ha : ek = a
      · simp [adjust, getCount, lookupOr, ha]
      · have ha2 : ¬(a = ek) := fun hh => ha hh.symm
        simp [adjust, getCount, lookupOr, ha, ha2]
    · by_cases ha : ek = a
      · have hak : ¬(a = k) := fun hh => he (by rw [ha, hh])
        simp [adjust, getCount, lookupOr, he, ha, hak]
      · simpa [adjust, getCount, lookupOr, he, ha] using ih

theorem hasKey_adjust (m : CountMap) (k : String) (d : Int) (a : String) :
    hasKey (adjust m k d) a = (hasKey m a || decide (a = k)) := by
  induction m with
  | nil =>
    by_cases h : a = k
    · subst h; simp [adjust, hasKey]
    · have h2 : ¬(k = a) := fun hh => h hh.symm
      simp [adjust, hasKey, h, h2]
  | cons e rest ih =>
    obtain ⟨ek, ev⟩ := e
    by_cases he : ek = k
    · subst he
      by_cases ha : ek = a
      · simp [adjust, hasKey, ha]
      · have ha2 : ¬(a = ek) := fun hh => ha hh.symm
        simp [adjust, hasKey, ha, ha2]
    · by_cases ha : ek = a
      · subst ha
        simp [adjust, hasKey, he]
      · simpa [adjust, hasKey, he, ha] using ih

theorem getCount_eq_zero_of_not_hasKey {m : CountMap} {k : String}
    (h : hasKey m k = false) : getCount m k = 0 := by
  induction m with
  | nil => rfl
  | cons e rest ih =>
    by_cases he : e.1 = k
    · simp [hasKey, he] at h
    · simp [hasKey, he] at h
      simpa [getCount, lookupOr, he] using ih h

theorem hasKey_of_getCount_ne {m : CountMap} {k : String}
    (h : getCount m k ≠ 0) : hasKey m k = true := by
  by_cases hh : hasKey m k = true
  · exact hh
  · exact absurd (getCount_eq_zero_of_not_hasKey (by simpa using hh)) h

theorem adjust_adjust (m : CountMap) (k : String) (d1 d2 : Int) :
    adjust (adjust m k d1) k d2 = adjust m k (d1 + d2) := by
  induction m with
  | nil => simp [adjust, add_assoc]
  | cons e rest ih =>
    by_cases he : e.1 = k
    · simp [adjust, he, add_assoc]
    · simp [adjust, he, ih]

theorem adjust_zero {m : CountMap} {k : String} (h : hasKey m k = true) :
    adjust m k 0 = m := by
  induction m with
  | nil => simp [hasKey] at h
  | cons e rest ih =>
    obtain ⟨ek, ev⟩ := e
    by_cases he : ek = k
    · subst he
      simp [adjust]
    · simp [hasKey, he] at h
      simp [adjust, he, ih h]

theorem adjust_comm {m : CountMap} {k k2 : String} (d d2 : Int)
    (hk : hasKey m k = true) (hne : k ≠ k2) :
    adjust (adjust m k d) k2 d2 = adjust (adjust m k2 d2) k d := by
  induction m with
  | nil => simp [hasKey] at hk
  | cons e rest ih =>
    obtain ⟨ek, ev⟩ := e
    by_cases he : ek = k
    · subst he
      simp [adjust, hne]
    · by_cases he2 : ek = k2
      · subst he2
        simp [adjust, he]
      · have hk2 : hasKey rest k = true := by simpa [hasKey, he] using hk
        simp [adjust, he, he2, ih hk2]

/-! ## Claim C6 (countRack) -/

theorem countRackStep_counts (ds : List String) (rc : RackCounts) (raw t : String) :
    getCount (countRackStep ds rc raw).singleCounts t =
      getCount rc.singleCounts t +
        (if (jsToLower raw) = t ∧ t ∉ ds then 1 else 0) ∧
    getCount (countRackStep ds rc raw).digraphCounts t =
      getCount rc.digraphCounts t +
        (if (jsToLower raw) = t ∧ t ∈ ds then 1 else 0) := by
  by_cases hc : (jsToLower raw) ∈ ds
  · have hs : countRackStep ds rc raw =
        { rc with digraphCounts := adjust rc.digraphCounts (jsToLower raw) 1 } := by
      simp [countRackStep, hc]
    rw [hs]
    by_cases ht : (jsToLower raw) = t
    · subst ht
      simp [hc, getCount_adjust]
    · have ht2 : ¬(t = (jsToLower raw)) := fun hh => ht hh.symm
      simp [ht, getCount_adjust, ht2]
  · have hs : countRackStep ds rc raw =
        { rc with singleCounts := adjust rc.singleCounts (jsToLower raw) 1 } := by
      simp [countRackStep, hc]
    rw [hs]
    by_cases ht : (jsToLower raw) = t
    · subst ht
      simp [hc, getCount_adjust]
    · have ht2 : ¬(t = (jsToLower raw)) := fun hh => ht hh.symm
      simp [ht, getCount_adjust, ht2]

theorem countRack_fold_counts (ds : List String) (tiles : List String) :
    ∀ (rc : RackCounts) (t : String),
      getCount (tiles.foldl (countRackStep ds) rc).singleCounts t =
        getCount rc.singleCounts t +
          (if t ∈ ds then 0
           else ((tiles.countP (fun raw => (jsToLower raw) == t)) : Int)) ∧
      getCount (tiles.foldl (countRackStep ds) rc).digraphCounts t =
        getCount rc.digraphCounts t +
          (if t ∈ ds then ((tiles.countP (fun raw => (jsToLower raw) == t)) : Int)
           else 0) := by
  induction tiles with
  | nil => intro rc t; simp
  | cons raw rest ih =>
    intro rc t
    have hstep := countRackStep_counts ds rc raw t
    have hrec := ih (countRackStep ds rc raw) t
    rw [List.foldl_cons]
    constructor
    · rw [hrec.1, hstep.1]
      by_cases hct : t ∈ ds
      · simp [hct]
      · simp only [hct]
        by_cases ht : (jsToLower raw) = t
        · simp [List.countP_cons, ht, hct]
          ring
        · simp [List.countP_cons, ht, hct]
    · rw [hrec.2, hstep.2]
      by_cases hct : t ∈ ds
      · simp only [hct]
        by_cases ht : (jsToLower raw) = t
        · simp [List.countP_cons, ht, hct]
          ring
        · simp [List.countP_cons, ht, hct]
      · simp [hct]

/-! ## Trie lemmas and claim C9 (buildTrie) -/

theorem endAt_nil (t : Trie) : t.endAt [] = t.isEnd := rfl

theorem endAt_cons (t : Trie) (c : Char) (ps : List Char) :
    t.endAt (c :: ps) =
      (match t.child? c with
       | some sub => sub.endAt ps
       | none => false) := by
  cases hc : t.child? c <;> simp [Trie.endAt, Trie.findNode?, hc]

theorem hasNodeAt_nil (t : Trie) : t.hasNodeAt [] = true := rfl

theorem hasNodeAt_cons (t : Trie) (c : Char) (ps : List Char) :
    t.hasNodeAt (c :: ps) =
      (match t.child? c with
       | some sub => sub.hasNodeAt ps
       | none => false) := by
  cases hc : t.child? c <;> simp [Trie.hasNodeAt, Trie.findNode?, hc]

theorem child_node (cs : List (Char × Trie)) (b : Bool) (c : Char) :
    (Trie.node cs b).child? c = lookupChild cs c := rfl

theorem endAt_markEnd (t : Trie) (p : List Char) :
    (Trie.node t.children true).endAt p = (t.endAt p || decide (p = [])) := by
  cases t with
  | node cs e =>
    cases p with
    | nil => simp [endAt_nil, Trie.isEnd]
    | cons c ps =>
      rw [endAt_cons, endAt_cons]
      simp [child_node, Trie.children]

theorem hasNodeAt_markEnd (t : Trie) (p : List Char) :
    (Trie.node t.children true).hasNodeAt p = t.hasNodeAt p := by
  cases t with
  | node cs e =>
    cases p with
    | nil => simp [hasNodeAt_nil]
    | cons c ps =>
      rw [hasNodeAt_cons, hasNodeAt_cons]
      simp [child_node, Trie.children]

theorem endAt_empty (p : List Char) : (Trie.node [] false).endAt p = false := by
  cases p with
  | nil => rfl
  | cons c ps => rw [endAt_cons]; simp [child_node, lookupChild]

theorem hasNodeAt_empty (p : List Char) :
    (Trie.node [] false).hasNodeAt p = decide (p = []) := by
  cases p with
  | nil => rfl
  | cons c ps => rw [hasNodeAt_cons]; simp [child_node, lookupChild]

theorem childOr_endAt (t : Trie) (c : Char) (ps : List Char) :
    ((t.child? c).getD (Trie.node [] false)).endAt ps = t.endAt (c :: ps) := by
  rw [endAt_cons]
  cases hc : t.child? c <;> simp [hc, endAt_empty]

theorem lookupChild_setChildren (cs : List (Char × Trie)) (c c2 : Char) (sub : Trie) :
    lookupChild (setChildren cs c sub) c2 = if c2 = c then some sub else lookupChild cs c2 := by
  induction cs with
  | nil =>
    by_cases h : c2 = c
    · subst h; simp [setChildren, lookupChild]
    · have h2 : ¬(c = c2) := fun hh => h hh.symm
      simp [setChildren, lookupChild, h, h2]
  | cons e rest ih =>
    obtain ⟨ec, et⟩ := e
    by_cases he : ec = c
    · subst he
      by_cases h2 : ec = c2
      · subst h2; simp [setChildren, lookupChild]
      · have h3 : ¬(c2 = ec) := fun hh => h2 hh.symm
        simp [setChildren, lookupChild, h2, h3]
    · by_cases h2 : ec = c2
      · subst h2
        have h3 : ¬(ec = c) := he
        simp [setChildren, lookupChild, h3]
      · simp [setChildren, lookupChild, he, h2, ih]

theorem insertTrie_endAt (cs : List Char) :
    ∀ (t : Trie) (f : Nat) (mark : Bool) (p : List Char),
      (insertTrie t cs f mark).endAt p = (t.endAt p || (mark && decide (p = cs.take f))) := by
  induction cs with
  | nil =>
    intro t f mark p
    cases mark with
    | false => simp [insertTrie]
    | true => simp [insertTrie, endAt_markEnd]
  | cons c rest ih =>
    intro t f mark p
    cases f with
    | zero =>
      cases mark with
      | false => simp [insertTrie]
      | true => simp [insertTrie, endAt_markEnd]
    | succ f =>
      show (Trie.node (setChildren t.children c
          (insertTrie ((t.child? c).getD (Trie.node [] false)) rest f mark)) t.isEnd).endAt p = _
      cases p with
      | nil =>
        simp [endAt_nil, Trie.isEnd]
      | cons c2 ps =>
        by_cases hcc : c2 = c
        · subst hcc
          have hlk := lookupChild_setChildren t.children c2 c2
            (insertTrie ((t.child? c2).getD (Trie.node [] false)) rest f mark)
          rw [if_pos rfl] at hlk
          rw [endAt_cons, child_node, hlk]
          show (insertTrie ((t.child? c2).getD (Trie.node [] false)) rest f mark).endAt ps = _
          rw [ih, childOr_endAt]
          have : (decide (c2 :: ps = (c2 :: rest).take (f + 1))) = decide (ps = rest.take f) := by
            simp [List.take]
          rw [this]
        · have hlk := lookupChild_setChildren t.children c c2
            (insertTrie ((t.child? c).getD (Trie.node [] false)) rest f mark)
          rw [if_neg hcc] at hlk
          rw [endAt_cons, child_node, hlk, ← child_node _ t.isEnd, ← endAt_cons]
          have h1 : Trie.node t.children t.isEnd = t := by cases t; rfl
          rw [h1]
          have : (decide (c2 :: ps = (c :: rest).take (f + 1))) = false := by
            simp [List.take, hcc]
          simp [this]
          intro _ h2 _
          exact absurd h2 hcc

theorem insertTrie_hasNodeAt (cs : List Char) :
    ∀ (t : Trie) (f : Nat) (mark : Bool) (p : List Char),
      (insertTrie t cs f mark).hasNodeAt p = true →
        t.hasNodeAt p = true ∨ p <+: cs.take f := by
  induction cs with
  | nil =>
    intro t f mark p h
    cases mark with
    | false => exact Or.inl (by simpa [insertTrie] using h)
    | true => exact Or.inl (by simpa [insertTrie, hasNodeAt_markEnd] using h)
  | cons c rest ih =>
    intro t f mark p h
    cases f with
    | zero =>
      cases mark with
      | false => exact Or.inl (by simpa [insertTrie] using h)
      | true => exact Or.inl (by simpa [insertTrie, hasNodeAt_markEnd] using h)
    | succ f =>
      rw [show insertTrie t (c :: rest) (f + 1) mark = Trie.node (setChildren t.children c
          (insertTrie ((t.child? c).getD (Trie.node [] false)) rest f mark)) t.isEnd from rfl] at h
      cases p with
      | nil => exact Or.inl rfl
      | cons c2 ps =>
        by_cases hcc : c2 = c
        · subst hcc
          have hlk := lookupChild_setChildren t.children c2 c2
            (insertTrie ((t.child? c2).getD (Trie.node [] false)) rest f mark)
          rw [if_pos rfl] at hlk
          rw [hasNodeAt_cons, child_node, hlk] at h
          have h2 : (insertTrie ((t.child? c2).getD (Trie.node [] false)) rest f mark).hasNodeAt ps
              = true := h
          rcases ih ((t.child? c2).getD (Trie.node [] false)) f mark ps h2 with h1 | h1
          · cases hc : t.child? c2 with
            | some sub =>
              rw [hc] at h1
              left
              rw [hasNodeAt_cons, hc]
              simpa using h1
            | none =>
              rw [hc] at h1
              simp only [Option.getD_none] at h1
              rw [hasNodeAt_empty] at h1
              right
              have hps : ps = [] := by simpa using h1
              subst hps
              simp [List.take]
          · right
            simp only [List.take]
            exact List.cons_prefix_cons.2 ⟨rfl, h1⟩
        · have hlk := lookupChild_setChildren t.children c c2
            (insertTrie ((t.child? c).getD (Trie.node [] false)) rest f mark)
          rw [if_neg hcc] at hlk
          rw [hasNodeAt_cons, child_node, hlk] at h
          left
          rw [hasNodeAt_cons]
          cases hc : t.child? c2 with
          | some sub =>
            have hl2 : lookupChild t.children c2 = some sub := hc
            rw [hl2] at h
            simpa using h
          | none =>
            have hl2 : lookupChild t.children c2 = none := hc
            rw [hl2] at h
            simp at h

/-- Claim C9: `buildTrie(words, maxDepth)` lowercases each word, creates a
child chain of at most `maxDepth` nodes for it, and sets the end flag on the
final reached node iff the word's full length is ≤ `maxDepth` (a truncated
word never marks an end); the empty word set yields a root with no children
and no end flag.  Stated as: (1) the empty build; (2) `buildTrie` folds the
per-word insertion of the lowercased word; (3) inserting a word changes end
flags exactly at the take-`maxDepth` path of its lowercased letters, and only
when the full length fits; (4) every node of the result was already present
or lies on that chain (so at most `maxDepth` new chained nodes). -/
theorem claim_C9 :
    (∀ d : Nat, buildTrie [] d = Trie.node [] false) ∧
    (∀ (words : List String) (d : Nat),
      buildTrie words d = words.foldl
        (fun root wRaw => insertTrie root (jsToLower wRaw).data d
          (decide ((jsToLower wRaw).length ≤ d))) (Trie.node [] false)) ∧
    (∀ (t : Trie) (w : String) (d : Nat) (p : List Char),
      (insertTrie t (jsToLower w).data d (decide ((jsToLower w).length ≤ d))).endAt p
        = (t.endAt p ||
           (decide ((jsToLower w).length ≤ d) && decide (p = (jsToLower w).data.take d)))) ∧
    (∀ (t : Trie) (w : String) (d : Nat) (p : List Char),
      (insertTrie t (jsToLower w).data d (decide ((jsToLower w).length ≤ d))).hasNodeAt p = true →
        t.hasNodeAt p = true ∨ p <+: (jsToLower w).data.take d) :=
  ⟨fun _ => rfl,
   fun _ _ => rfl,
   fun t w d p => insertTrie_endAt (jsToLower w).data t d (decide ((jsToLower w).length ≤ d)) p,
   fun t w d p => insertTrie_hasNodeAt (jsToLower w).data t d (decide ((jsToLower w).length ≤ d)) p⟩

/-- Witness for C9 at a concrete input: inserting "ab" with depth 2 into the
empty trie; the node at path `['a']` satisfies the chain bound. -/
theorem claim_C9_witness :
    (insertTrie (Trie.node [] false) ((jsToLower "ab")).data 2
        (decide ((jsToLower "ab").length ≤ 2))).hasNodeAt ['a'] = true ∧
    ((Trie.node [] false).hasNodeAt ['a'] = true ∨ ['a'] <+: ((jsToLower "ab")).data.take 2) :=
  ⟨by decide, claim_C9.2.2.2 (Trie.node [] false) "ab" 2 ['a'] (by decide)⟩

/-- Claim C6, amended: in `countRack` a token recognized as a digraph
increments that digraph's count by one; a token not recognized as a digraph
is counted once, whole (lowercased), as a `singleCounts` entry — it is *not*
split into its constituent letters. -/
theorem claim_C6_amended (tiles ds : List String) (t : String) :
    getCount (countRack tiles ds).digraphCounts t =
      (if t ∈ ds then ((tiles.countP (fun raw => (jsToLower raw) == t)) : Int) else 0) ∧
    getCount (countRack tiles ds).singleCounts t =
      (if t ∈ ds then 0 else ((tiles.countP (fun raw => (jsToLower raw) == t)) : Int)) := by
  have h := countRack_fold_counts ds tiles { singleCounts := [], digraphCounts := [] } t
  unfold countRack
  constructor
  · rw [h.2]; simp [getCount, lookupOr]
  · rw [h.1]; simp [getCount, lookupOr]

/-- Counterexample to claim C6 as stated: the non-digraph token "ab" is
counted once under the whole key "ab"; its constituent letters "a" and "b"
are *not* counted as single-letter tokens, contradicting the claimed
splitting behaviour. -/
theorem claim_C6_counterexample :
    (countRack ["ab"] DIGRAPHS).singleCounts = [("ab", 1)] ∧
    getCount (countRack ["ab"] DIGRAPHS).singleCounts "a" = 0 ∧
    getCount (countRack ["ab"] DIGRAPHS).singleCounts "b" = 0 := by
  refine ⟨?_, ?_, ?_⟩ <;> decide

/-! ## Fold/adjust machinery for the backtracking restores -/

theorem hasKey_self {m : CountMap} {e : String × Int} (h : e ∈ m) : hasKey m e.1 = true := by
  induction m with
  | nil => simp at h
  | cons x rest ih =>
    rcases List.mem_cons.1 h with h | h
    · subst h; simp [hasKey]
    · by_cases hx : x.1 = e.1 <;> simp [hasKey, hx, ih h]

theorem hasKey_foldAdjust (f : String × Int → Int) (es : List (String × Int)) :
    ∀ (m : CountMap) (a : String), hasKey m a = true →
      hasKey (es.foldl (fun acc e => adjust acc e.1 (f e)) m) a = true := by
  induction es with
  | nil => intro m a h; simpa using h
  | cons e rest ih =>
    intro m a h
    rw [List.foldl_cons]
    exact ih (adjust m e.1 (f e)) a (by rw [hasKey_adjust]; simp [h])

theorem fold_adjust_comm (f : String × Int → Int) (es : List (String × Int)) :
    ∀ (m : CountMap) (k : String) (d : Int), hasKey m k = true → (∀ e ∈ es, e.1 ≠ k) →
      adjust (es.foldl (fun acc e => adjust acc e.1 (f e)) m) k d
        = es.foldl (fun acc e => adjust acc e.1 (f e)) (adjust m k d) := by
  induction es with
  | nil => intro m k d _ _; rfl
  | cons e rest ih =>
    intro m k d hk hnk
    rw [List.foldl_cons, List.foldl_cons]
    have h1 : hasKey (adjust m e.1 (f e)) k = true := by rw [hasKey_adjust]; simp [hk]
    rw [ih (adjust m e.1 (f e)) k d h1 (fun x hx => hnk x (List.mem_cons_of_mem _ hx))]
    congr 1
    exact (adjust_comm d (f e) hk (Ne.symm (hnk e (List.mem_cons_self e rest)))).symm

theorem foldAdjust_cancel (f g : String × Int → Int) (hfg : ∀ e, f e + g e = 0)
    (es : List (String × Int)) :
    ∀ (m : CountMap), (es.map Prod.fst).Nodup → (∀ e ∈ es, hasKey m e.1 = true) →
      es.foldl (fun acc e => adjust acc e.1 (g e))
        (es.foldl (fun acc e => adjust acc e.1 (f e)) m) = m := by
  induction es with
  | nil => intro m _ _; rfl
  | cons e rest ih =>
    intro m hnd hpres
    have hnd1 : (e.1 :: rest.map Prod.fst).Nodup := by simpa using hnd
    have hnd2 := List.nodup_cons.1 hnd1
    rw [List.foldl_cons, List.foldl_cons]
    have hke : hasKey (adjust m e.1 (f e)) e.1 = true := by rw [hasKey_adjust]; simp
    have hnk : ∀ x ∈ rest, x.1 ≠ e.1 := by
      intro x hx hcon
      exact hnd2.1 (List.mem_map.2 ⟨x, hx, hcon⟩)
    rw [fold_adjust_comm f rest (adjust m e.1 (f e)) e.1 (g e) hke hnk]
    rw [adjust_adjust, hfg e, adjust_zero (hpres e (List.mem_cons_self e rest))]
    exact ih m hnd2.2 (fun x hx => hpres x (List.mem_cons_of_mem _ hx))

/-- A single adjust-down/adjust-up pair on a present key is the identity
(the `counts[L]--` / `counts[L]++` backtracking pattern). -/
theorem adjust_down_up {m : CountMap} {k : String} (d : Int) (h : hasKey m k = true) :
    adjust (adjust m k (-d)) k d = m := by
  rw [adjust_adjust]
  simpa using adjust_zero h

/-- `pushResult` never touches the counts or the path/token stacks — only
`perWord`. -/
theorem pushResult_frame (gate : Option (String → Bool)) (s : GenState) :
    (pushResult gate s).singles = s.singles ∧ (pushResult gate s).digraphs = s.digraphs ∧
    (pushResult gate s).path = s.path ∧ (pushResult gate s).usedTokens = s.usedTokens := by
  refine ⟨?_, ?_, ?_, ?_⟩ <;> (unfold pushResult; dsimp only; repeat' (first | split | dsimp only))

/-- One include/restore round of the generator's single-letter loop, composed
with any continuation that restores well-formed states: the
decrement/recurse/pop/increment pattern leaves counts, path and tokens
unchanged. -/
theorem gen_restore_step (F : GenState → GenState) (rest : CountMap)
    (hF : ∀ s2 : GenState, (∀ x ∈ rest, hasKey s2.singles x.1 = true) →
      (F s2).singles = s2.singles ∧ (F s2).digraphs = s2.digraphs ∧
      (F s2).path = s2.path ∧ (F s2).usedTokens = s2.usedTokens)
    {s sRec sPop : GenState} {L : String} {c1 : Char}
    (hPop : sPop = { sRec with usedTokens := sRec.usedTokens.dropLast, path := sRec.path.dropLast, singles := adjust sRec.singles L 1 })
    (h1 : sRec.singles = adjust s.singles L (-1))
    (h2 : sRec.digraphs = s.digraphs)
    (h3 : sRec.path = s.path ++ [c1])
    (h4 : sRec.usedTokens = s.usedTokens ++ [L])
    (hkey : hasKey s.singles L = true)
    (hrest : ∀ x ∈ rest, hasKey s.singles x.1 = true) :
    (F sPop).singles = s.singles ∧ (F sPop).digraphs = s.digraphs ∧
    (F sPop).path = s.path ∧ (F sPop).usedTokens = s.usedTokens := by
  have f1 : sPop.singles = s.singles := by
    rw [hPop]
    show adjust sRec.singles L 1 = s.singles
    rw [h1]
    exact adjust_down_up 1 hkey
  have f2 : sPop.digraphs = s.digraphs := by
    rw [hPop]
    exact h2
  have f3 : sPop.path = s.path := by
    rw [hPop]
    show sRec.path.dropLast = s.path
    rw [h3]
    exact List.dropLast_concat
  have f4 : sPop.usedTokens = s.usedTokens := by
    rw [hPop]
    show sRec.usedTokens.dropLast = s.usedTokens
    rw [h4]
    exact List.dropLast_concat
  obtain ⟨g1, g2, g3, g4⟩ := hF sPop (fun x hx => by rw [f1]; exact hrest x hx)
  exact ⟨g1.trans f1, g2.trans f2, g3.trans f3, g4.trans f4⟩

/-- Digraph-loop analogue of `gen_restore_step` (two path characters, one
token, the digraph count map). -/
theorem gen_restore_stepD (F : GenState → GenState) (rest : CountMap)
    (hF : ∀ s2 : GenState, (∀ x ∈ rest, hasKey s2.digraphs x.1 = true) →
      (F s2).singles = s2.singles ∧ (F s2).digraphs = s2.digraphs ∧
      (F s2).path = s2.path ∧ (F s2).usedTokens = s2.usedTokens)
    {s sRec sPop : GenState} {DG : String} {a b : Char}
    (hPop : sPop = { sRec with usedTokens := sRec.usedTokens.dropLast, path := sRec.path.dropLast.dropLast, digraphs := adjust sRec.digraphs DG 1 })
    (h1 : sRec.singles = s.singles)
    (h2 : sRec.digraphs = adjust s.digraphs DG (-1))
    (h3 : sRec.path = s.path ++ [a, b])
    (h4 : sRec.usedTokens = s.usedTokens ++ [DG])
    (hkey : hasKey s.digraphs DG = true)
    (hrest : ∀ x ∈ rest, hasKey s.digraphs x.1 = true) :
    (F sPop).singles = s.singles ∧ (F sPop).digraphs = s.digraphs ∧
    (F sPop).path = s.path ∧ (F sPop).usedTokens = s.usedTokens := by
  have f1 : sPop.singles = s.singles := by
    rw [hPop]
    exact h1
  have f2 : sPop.digraphs = s.digraphs := by
    rw [hPop]
    show adjust sRec.digraphs DG 1 = s.digraphs
    rw [h2]
    exact adjust_down_up 1 hkey
  have f3 : sPop.path = s.path := by
    rw [hPop]
    show sRec.path.dropLast.dropLast = s.path
    rw [h3]
    have hsplit : s.path ++ [a, b] = (s.path ++ [a]) ++ [b] := by simp
    rw [hsplit, List.dropLast_concat, List.dropLast_concat]
  have f4 : sPop.usedTokens = s.usedTokens := by
    rw [hPop]
    show sRec.usedTokens.dropLast = s.usedTokens
    rw [h4]
    exact List.dropLast_concat
  obtain ⟨g1, g2, g3, g4⟩ := hF sPop (fun x hx => by rw [f2]; exact hrest x hx)
  exact ⟨g1.trans f1, g2.trans f2, g3.trans f3, g4.trans f4⟩

/-- Backtracking restoration for the whole generator DFS: `genDfs` (and its
two loops, given that the iterated entries' keys are present in the counts,
as holds for the `Object.entries` snapshots) returns the counts, the path and
the token stack exactly as it received them — the decrement/restore pairs
cancel. -/
theorem gen_restore (fuel : Nat) :
    ∀ (gate : Option (String → Bool)) (minLen : Nat) (node : Trie) (s : GenState),
      (genDfs gate minLen fuel node s).singles = s.singles ∧
      (genDfs gate minLen fuel node s).digraphs = s.digraphs ∧
      (genDfs gate minLen fuel node s).path = s.path ∧
      (genDfs gate minLen fuel node s).usedTokens = s.usedTokens := by
  induction fuel with
  | zero =>
    intro gate minLen node s
    exact ⟨rfl, rfl, rfl, rfl⟩
  | succ fuel ih =>
    intro gate minLen node s
    have hloopS : ∀ (es : CountMap) (acc : GenState),
        (∀ e ∈ es, hasKey acc.singles e.1 = true) →
        (es.foldl (genSingleStep (genDfs gate minLen fuel) node) acc).singles = acc.singles ∧
        (es.foldl (genSingleStep (genDfs gate minLen fuel) node) acc).digraphs = acc.digraphs ∧
        (es.foldl (genSingleStep (genDfs gate minLen fuel) node) acc).path = acc.path ∧
        (es.foldl (genSingleStep (genDfs gate minLen fuel) node) acc).usedTokens
          = acc.usedTokens := by
      intro es
      induction es with
      | nil => intro acc _; exact ⟨rfl, rfl, rfl, rfl⟩
      | cons e rest ihes =>
        intro acc hpres
        have hpres2 : ∀ x ∈ rest, hasKey acc.singles x.1 = true :=
          fun x hx => hpres x (List.mem_cons_of_mem _ hx)
        have hkey : hasKey acc.singles e.1 = true := hpres e (List.mem_cons_self _ _)
        rw [List.foldl_cons]
        by_cases hc : (0:Int) < e.2
        · cases hcs : node.childStr? e.1 with
          | none =>
            rw [show genSingleStep (genDfs gate minLen fuel) node acc e = acc from by
              simp [genSingleStep, hc, hcs]]
            exact ihes acc hpres2
          | some pr =>
            have hstep : genSingleStep (genDfs gate minLen fuel) node acc e
                = { genDfs gate minLen fuel pr.2
                      { acc with singles := adjust acc.singles e.1 (-1),
                                 path := acc.path ++ [pr.1],
                                 usedTokens := acc.usedTokens ++ [e.1] } with
                    usedTokens := (genDfs gate minLen fuel pr.2
                      { acc with singles := adjust acc.singles e.1 (-1),
                                 path := acc.path ++ [pr.1],
                                 usedTokens := acc.usedTokens ++ [e.1] }).usedTokens.dropLast,
                    path := (genDfs gate minLen fuel pr.2
                      { acc with singles := adjust acc.singles e.1 (-1),
                                 path := acc.path ++ [pr.1],
                                 usedTokens := acc.usedTokens ++ [e.1] }).path.dropLast,
                    singles := adjust (genDfs gate minLen fuel pr.2
                      { acc with singles := adjust acc.singles e.1 (-1),
                                 path := acc.path ++ [pr.1],
                                 usedTokens := acc.usedTokens ++ [e.1] }).singles e.1 1 } := by
              simp [genSingleStep, hc, hcs]
            rw [hstep]
            obtain ⟨h1, h2, h3, h4⟩ := ih gate minLen pr.2
              { acc with singles := adjust acc.singles e.1 (-1), path := acc.path ++ [pr.1],
                         usedTokens := acc.usedTokens ++ [e.1] }
            exact gen_restore_step
              (fun s2 => List.foldl (genSingleStep (genDfs gate minLen fuel) node) s2 rest) rest
              ihes rfl h1 h2 h3 h4 hkey hpres2
        · rw [show genSingleStep (genDfs gate minLen fuel) node acc e = acc from by
            simp [genSingleStep, hc]]
          exact ihes acc hpres2
    have hloopD : ∀ (es : CountMap) (acc : GenState),
        (∀ e ∈ es, hasKey acc.digraphs e.1 = true) →
        (es.foldl (genDigraphStep (genDfs gate minLen fuel) node) acc).singles = acc.singles ∧
        (es.foldl (genDigraphStep (genDfs gate minLen fuel) node) acc).digraphs = acc.digraphs ∧
        (es.foldl (genDigraphStep (genDfs gate minLen fuel) node) acc).path = acc.path ∧
        (es.foldl (genDigraphStep (genDfs gate minLen fuel) node) acc).usedTokens
          = acc.usedTokens := by
      intro es
      induction es with
      | nil => intro acc _; exact ⟨rfl, rfl, rfl, rfl⟩
      | cons e rest ihes =>
        intro acc hpres
        have hpres2 : ∀ x ∈ rest, hasKey acc.digraphs x.1 = true :=
          fun x hx => hpres x (List.mem_cons_of_mem _ hx)
        have hkey : hasKey acc.digraphs e.1 = true := hpres e (List.mem_cons_self _ _)
        rw [List.foldl_cons]
        by_cases hc : (0:Int) < e.2
        · cases hdg : e.1.data with
          | nil =>
            rw [show genDigraphStep (genDfs gate minLen fuel) node acc e = acc from by
              simp [genDigraphStep, hc, hdg]]
            exact ihes acc hpres2
          | cons a tl =>
            cases tl with
            | nil =>
              rw [show genDigraphStep (genDfs gate minLen fuel) node acc e = acc from by
                simp [genDigraphStep, hc, hdg]]
              exact ihes acc hpres2
            | cons b tl2 =>
              cases hc1 : node.child? a with
              | none =>
                rw [show genDigraphStep (genDfs gate minLen fuel) node acc e = acc from by
                  simp [genDigraphStep, hc, hdg, hc1]]
                exact ihes acc hpres2
              | some n1 =>
                cases hc2 : n1.child? b with
                | none =>
                  rw [show genDigraphStep (genDfs gate minLen fuel) node acc e = acc from by
                    simp [genDigraphStep, hc, hdg, hc1, hc2]]
                  exact ihes acc hpres2
                | some n2 =>
                  have hstep : genDigraphStep (genDfs gate minLen fuel) node acc e
                      = { genDfs gate minLen fuel n2
                            { acc with digraphs := adjust acc.digraphs e.1 (-1),
                                       path := acc.path ++ [a, b],
                                       usedTokens := acc.usedTokens ++ [e.1] } with
                          usedTokens := (genDfs gate minLen fuel n2
                            { acc with digraphs := adjust acc.digraphs e.1 (-1),
                                       path := acc.path ++ [a, b],
                                       usedTokens := acc.usedTokens ++ [e.1] }).usedTokens.dropLast,
                          path := (genDfs gate minLen fuel n2
                            { acc with digraphs := adjust acc.digraphs e.1 (-1),
                                       path := acc.path ++ [a, b],
                                       usedTokens := acc.usedTokens ++ [e.1] }).path.dropLast.dropLast,
                          digraphs := adjust (genDfs gate minLen fuel n2
                            { acc with digraphs := adjust acc.digraphs e.1 (-1),
                                       path := acc.path ++ [a, b],
                                       usedTokens := acc.usedTokens ++ [e.1] }).digraphs e.1 1 } := by
                    simp [genDigraphStep, hc, hdg, hc1, hc2]
                  rw [hstep]
                  obtain ⟨h1, h2, h3, h4⟩ := ih gate minLen n2
                    { acc with digraphs := adjust acc.digraphs e.1 (-1), path := acc.path ++ [a, b],
                               usedTokens := acc.usedTokens ++ [e.1] }
                  exact gen_restore_stepD
                    (fun s2 => List.foldl (genDigraphStep (genDfs gate minLen fuel) node) s2 rest)
                    rest ihes rfl h1 h2 h3 h4 hkey hpres2
        · rw [show genDigraphStep (genDfs gate minLen fuel) node acc e = acc from by
            simp [genDigraphStep, hc]]
          exact ihes acc hpres2
    rw [genDfs]
    by_cases hP : (node.isEnd && decide (minLen ≤ s.path.length)) = true
    · simp only [if_pos hP]
      obtain ⟨p1, p2, p3, p4⟩ := pushResult_frame gate s
      obtain ⟨q1, q2, q3, q4⟩ := hloopS (pushResult gate s).singles (pushResult gate s)
        (fun e he => hasKey_self he)
      obtain ⟨r1, r2, r3, r4⟩ := hloopD
        ((pushResult gate s).singles.foldl (genSingleStep (genDfs gate minLen fuel) node)
          (pushResult gate s)).digraphs
        ((pushResult gate s).singles.foldl (genSingleStep (genDfs gate minLen fuel) node)
          (pushResult gate s))
        (fun e he => hasKey_self he)
      exact ⟨(r1.trans q1).trans p1, (r2.trans q2).trans p2,
             (r3.trans q3).trans p3, (r4.trans q4).trans p4⟩
    · simp only [if_neg hP]
      obtain ⟨q1, q2, q3, q4⟩ := hloopS s.singles s (fun e he => hasKey_self he)
      obtain ⟨r1, r2, r3, r4⟩ := hloopD
        (s.singles.foldl (genSingleStep (genDfs gate minLen fuel) node) s).digraphs
        (s.singles.foldl (genSingleStep (genDfs gate minLen fuel) node) s)
        (fun e he => hasKey_self he)
      exact ⟨r1.trans q1, r2.trans q2, r3.trans q3, r4.trans q4⟩

theorem childStr_data {t : Trie} {L : String} {pr : Char × Trie}
    (h : t.childStr? L = some pr) : L.data = [pr.1] := by
  unfold Trie.childStr? at h
  rcases hd : L.data with _ | ⟨a, tl⟩
  · rw [hd] at h
    exact absurd h (by simp)
  · rcases tl with _ | ⟨b, rest⟩
    · rw [hd] at h
      have h3 : (match t.child? a with
          | some sub => some (a, sub)
          | none => none) = some pr := h
      rcases hc : t.child? a with _ | sub2 <;> rw [hc] at h3 <;> simp at h3
      rw [← h3]
    · rw [hd] at h
      exact absurd h (by simp)

/-- Generic invariant preservation over the generator DFS: any state
predicate closed under `pushResult`, under pushing a single-letter or digraph
token, and under the pop/restore step, is preserved by the whole search. -/
theorem gen_state_inv (P : GenState → Prop)
    (hpush : ∀ (gate : Option (String → Bool)) (s : GenState), P s → P (pushResult gate s))
    (hincS : ∀ (s : GenState) (L : String) (c1 : Char) (m : CountMap), L.data = [c1] → P s →
      P { s with singles := m, path := s.path ++ [c1], usedTokens := s.usedTokens ++ [L] })
    (hincD : ∀ (s : GenState) (DG : String) (a b : Char) (tl : List Char) (m : CountMap),
      DG.data = a :: b :: tl → P s →
      P { s with digraphs := m, path := s.path ++ [a, b], usedTokens := s.usedTokens ++ [DG] })
    (hpopS : ∀ (s : GenState) (m : CountMap), P s →
      P { s with usedTokens := s.usedTokens.dropLast, path := s.path.dropLast, singles := m })
    (hpopD : ∀ (s : GenState) (m : CountMap), P s →
      P { s with usedTokens := s.usedTokens.dropLast, path := s.path.dropLast.dropLast,
                 digraphs := m }) :
    ∀ (fuel : Nat) (gate : Option (String → Bool)) (minLen : Nat) (node : Trie) (s : GenState),
      P s → P (genDfs gate minLen fuel node s) := by
  intro fuel
  induction fuel with
  | zero => intro gate minLen node s hs; exact hs
  | succ fuel ih =>
    intro gate minLen node s hs
    have hstepS : ∀ (acc : GenState) (e : String × Int), P acc →
        P (genSingleStep (genDfs gate minLen fuel) node acc e) := by
      intro acc e hacc
      unfold genSingleStep
      by_cases hc : (0:Int) < e.2
      · simp only [if_pos hc]
        cases hcs : node.childStr? e.1 with
        | none => simpa [hcs] using hacc
        | some pr =>
          simp only [hcs]
          exact hpopS _ _ (ih gate minLen pr.2 _
            (hincS acc e.1 pr.1 (adjust acc.singles e.1 (-1)) (childStr_data hcs) hacc))
      · simpa [hc] using hacc
    have hstepD : ∀ (acc : GenState) (e : String × Int), P acc →
        P (genDigraphStep (genDfs gate minLen fuel) node acc e) := by
      intro acc e hacc
      unfold genDigraphStep
      by_cases hc : (0:Int) < e.2
      · simp only [if_pos hc]
        cases hdg : e.1.data with
        | nil => simpa [hdg] using hacc
        | cons a tl =>
          cases tl with
          | nil => simpa [hdg] using hacc
          | cons b tl2 =>
            simp only [hdg]
            cases hc1 : node.child? a with
            | none => simpa [hc1] using hacc
            | some n1 =>
              simp only [hc1]
              cases hc2 : n1.child? b with
              | none => simpa [hc2] using hacc
              | some n2 =>
                simp only [hc2]
                exact hpopD _ _ (ih gate minLen n2 _
                  (hincD acc e.1 a b tl2 (adjust acc.digraphs e.1 (-1)) hdg hacc))
      · simpa [hc] using hacc
    have hfold : ∀ {α : Type} (step : GenState → α → GenState)
        (hstep : ∀ acc x, P acc → P (step acc x)) (es : List α) (acc : GenState),
        P acc → P (es.foldl step acc) := by
      intro α step hstep es
      induction es with
      | nil => intro acc h; exact h
      | cons e rest ihes => intro acc h; exact ihes _ (hstep acc e h)
    rw [genDfs]
    by_cases hP : (node.isEnd && decide (minLen ≤ s.path.length)) = true
    · simp only [if_pos hP]
      exact hfold _ hstepD _ _ (hfold _ hstepS _ _ (hpush gate s hs))
    · simp only [if_neg hP]
      exact hfold _ hstepD _ _ (hfold _ hstepS _ _ hs)

/-! ## Usage-signature lemmas and claims C7, C8 -/

theorem sum_adjust (m : CountMap) (k : String) (d : Int) :
    ((adjust m k d).map Prod.snd).sum = (m.map Prod.snd).sum + d := by
  induction m with
  | nil => simp [adjust]
  | cons e rest ih =>
    by_cases he : e.1 = k
    · simp [adjust, he]
      ring
    · simp [adjust, he, ih]
      ring

theorem usage_fold_total (ts : List String) :
    ∀ (u : RackCounts),
      totalRemainingCount (ts.foldl usageStep u).singleCounts
        (ts.foldl usageStep u).digraphCounts
      = totalRemainingCount u.singleCounts u.digraphCounts + ts.length := by
  induction ts with
  | nil => intro u; simp
  | cons t rest ih =>
    intro u
    rw [List.foldl_cons, ih]
    unfold usageStep totalRemainingCount
    by_cases ht : t.length = 1 <;> simp [ht, sum_adjust] <;> ring

theorem usageFromTokens_total (ts : List String) :
    totalRemainingCount (usageFromTokens ts).singleCounts (usageFromTokens ts).digraphCounts
      = ts.length := by
  unfold usageFromTokens
  rw [usage_fold_total]
  simp [totalRemainingCount]

theorem usageFromTokens_single {t : String} (h : t.length = 1) :
    usageFromTokens [t] = { singleCounts := [(t, 1)], digraphCounts := [] } := by
  simp [usageFromTokens, usageStep, h, adjust]

theorem bucketFind?_mem {pw : PerWord} {plain : String} {b : Bucket}
    (h : bucketFind? pw plain = some b) : (plain, b) ∈ pw := by
  induction pw with
  | nil => simp [bucketFind?] at h
  | cons pb rest ih =>
    by_cases he : pb.1 = plain
    · simp [bucketFind?, he] at h
      subst h
      have h2 : (plain, pb.2) = pb := by rw [← he]
      rw [h2]
      exact List.mem_cons_self _ _
    · simp [bucketFind?, he] at h
      exact List.mem_cons_of_mem _ (ih h)

theorem bucketFind?_none {pw : PerWord} {plain : String}
    (h : bucketFind? pw plain = none) : ∀ pb ∈ pw, pb.1 ≠ plain := by
  induction pw with
  | nil => intro pb hpb; simp at hpb
  | cons x rest ih =>
    intro pb hpb
    by_cases he : x.1 = plain
    · simp [bucketFind?, he] at h
    · simp [bucketFind?, he] at h
      rcases List.mem_cons.1 hpb with h2 | h2
      · subst h2; exact he
      · exact ih h pb h2

theorem mem_setBucket {pw : PerWord} {q : String} {nb : Bucket} {pb : String × Bucket}
    (h : pb ∈ setBucket pw q nb) : pb ∈ pw ∨ pb = (q, nb) := by
  induction pw with
  | nil =>
    simp [setBucket] at h
    right
    simp [h]
  | cons x rest ih =>
    by_cases he : x.1 = q
    · rw [show setBucket (x :: rest) q nb = (x.1, nb) :: rest from by simp [setBucket, he]] at h
      rcases List.mem_cons.1 h with h2 | h2
      · right; rw [h2, he]
      · left; exact List.mem_cons_of_mem _ h2
    · rw [show setBucket (x :: rest) q nb = x :: setBucket rest q nb from by
        simp [setBucket, he]] at h
      rcases List.mem_cons.1 h with h2 | h2
      · left; rw [h2]; exact List.mem_cons_self _ _
      · rcases ih h2 with h3 | h3
        · left; exact List.mem_cons_of_mem _ h3
        · right; exact h3

theorem setBucket_keys {pw : PerWord} {q : String} {nb b0 : Bucket}
    (h : bucketFind? pw q = some b0) :
    (setBucket pw q nb).map Prod.fst = pw.map Prod.fst := by
  induction pw with
  | nil => simp [bucketFind?] at h
  | cons x rest ih =>
    by_cases he : x.1 = q
    · simp [setBucket, he]
    · simp [bucketFind?, he] at h
      simp [setBucket, he, ih h]

theorem bucketHas_false {b : Bucket} {key : String} (h : bucketHas b key = false) :
    ∀ e ∈ b, e.1 ≠ key := by
  induction b with
  | nil => intro e he; simp at he
  | cons x rest ih =>
    intro e he
    by_cases hx : x.1 = key
    · simp [bucketHas, hx] at h
    · simp [bucketHas, hx] at h
      rcases List.mem_cons.1 he with h2 | h2
      · subst h2; exact hx
      · exact ih h e h2

/-- Where entries of `perWord` come from after a `pushResult`: either they
were already present under the same plain word, or they are the freshly
recorded candidate, whose fields are computed from the current path and
used tokens and which passed the lone-digraph guard. -/
theorem pushResult_mem (gate : Option (String → Bool)) (s : GenState)
    {pb : String × Bucket} (hb : pb ∈ (pushResult gate s).perWord)
    {e : String × Cand} (he : e ∈ pb.2) :
    (∃ pb0 : String × Bucket, pb0 ∈ s.perWord ∧ pb0.1 = pb.1 ∧ e ∈ pb0.2) ∨
    (loneDigraph s.usedTokens = false ∧
     e.2.usage = usageFromTokens s.usedTokens ∧
     e.1 = usageKey (usageFromTokens s.usedTokens) ∧
     e.2.word = joinTokensForDisplay s.usedTokens ∧
     e.2.score = calculateScore s.usedTokens ∧
     pb.1 = String.mk s.path) := by
  unfold pushResult at hb
  by_cases hl : loneDigraph s.usedTokens = true
  · rw [if_pos hl] at hb
    exact Or.inl ⟨pb, hb, rfl, he⟩
  · rw [if_neg hl] at hb
    have hl2 : loneDigraph s.usedTokens = false := by
      cases h : loneDigraph s.usedTokens
      · rfl
      · exact absurd h hl
    by_cases hg : gateRejects gate (String.mk s.path) = true
    · rw [if_pos hg] at hb
      exact Or.inl ⟨pb, hb, rfl, he⟩
    · rw [if_neg hg] at hb
      cases hf : bucketFind? s.perWord (String.mk s.path) with
      | none =>
        simp only [hf] at hb
        rcases List.mem_append.1 hb with h2 | h2
        · exact Or.inl ⟨pb, h2, rfl, he⟩
        · have h3 : pb = (String.mk s.path,
              [(usageKey (usageFromTokens s.usedTokens),
                ({ word := joinTokensForDisplay s.usedTokens,
                   score := calculateScore s.usedTokens,
                   usage := usageFromTokens s.usedTokens,
                   length := (String.mk s.path).length } : Cand))]) := by
            simpa using h2
          rw [h3] at he
          have h4 : e = (usageKey (usageFromTokens s.usedTokens),
              ({ word := joinTokensForDisplay s.usedTokens,
                 score := calculateScore s.usedTokens,
                 usage := usageFromTokens s.usedTokens,
                 length := (String.mk s.path).length } : Cand)) := by
            simpa using he
          right
          rw [h3, h4]
          exact ⟨hl2, rfl, rfl, rfl, rfl, rfl⟩
      | some bucket0 =>
        simp only [hf] at hb
        by_cases hh : bucketHas bucket0 (usageKey (usageFromTokens s.usedTokens)) = true
        · rw [if_pos hh] at hb
          exact Or.inl ⟨pb, hb, rfl, he⟩
        · rw [if_neg hh] at hb
          rcases mem_setBucket hb with h2 | h2
          · exact Or.inl ⟨pb, h2, rfl, he⟩
          · rw [h2] at he
            rcases List.mem_append.1 he with h3 | h3
            · exact Or.inl ⟨(String.mk s.path, bucket0), bucketFind?_mem hf, by rw [h2], h3⟩
            · have h4 : e = (usageKey (usageFromTokens s.usedTokens),
                  ({ word := joinTokensForDisplay s.usedTokens,
                     score := calculateScore s.usedTokens,
                     usage := usageFromTokens s.usedTokens,
                     length := (String.mk s.path).length } : Cand)) := by
                simpa using h3
              right
              rw [h2, h4]
              exact ⟨hl2, rfl, rfl, rfl, rfl, rfl⟩

/-- The `perWord` structure invariant is preserved by `pushResult`: plain
words stay pairwise distinct, each bucket's signature keys stay pairwise
distinct, and every stored key is the usage signature of its candidate. -/
theorem pushResult_P8 (gate : Option (String → Bool)) (s : GenState)
    (h : (s.perWord.map Prod.fst).Nodup ∧
         ∀ pb ∈ s.perWord, (pb.2.map Prod.fst).Nodup ∧
           ∀ e ∈ pb.2, e.1 = usageKey e.2.usage) :
    ((pushResult gate s).perWord.map Prod.fst).Nodup ∧
    ∀ pb ∈ (pushResult gate s).perWord,
      (pb.2.map Prod.fst).Nodup ∧ ∀ e ∈ pb.2, e.1 = usageKey e.2.usage := by
  unfold pushResult
  by_cases hl : loneDigraph s.usedTokens = true
  · rw [if_pos hl]; exact h
  · rw [if_neg hl]
    by_cases hg : gateRejects gate (String.mk s.path) = true
    · rw [if_pos hg]; exact h
    · rw [if_neg hg]
      cases hf : bucketFind? s.perWord (String.mk s.path) with
      | none =>
        simp only [hf]
        constructor
        · have hnotin : String.mk s.path ∉ s.perWord.map Prod.fst := by
            intro hmem
            rcases List.mem_map.1 hmem with ⟨pb, hpb, hfst⟩
            exact bucketFind?_none hf pb hpb hfst
          simp [List.nodup_append, h.1, hnotin]
        · intro pb hpb
          rcases List.mem_append.1 hpb with h2 | h2
          · exact h.2 pb h2
          · have h3 : pb = (String.mk s.path,
                [(usageKey (usageFromTokens s.usedTokens),
                  ({ word := joinTokensForDisplay s.usedTokens,
                     score := calculateScore s.usedTokens,
                     usage := usageFromTokens s.usedTokens,
                     length := (String.mk s.path).length } : Cand))]) := by
              simpa using h2
            rw [h3]
            refine ⟨by simp, ?_⟩
            intro e he
            have h4 : e = (usageKey (usageFromTokens s.usedTokens),
                ({ word := joinTokensForDisplay s.usedTokens,
                   score := calculateScore s.usedTokens,
                   usage := usageFromTokens s.usedTokens,
                   length := (String.mk s.path).length } : Cand)) := by
              simpa using he
            rw [h4]
      | some bucket0 =>
        simp only [hf]
        by_cases hh : bucketHas bucket0 (usageKey (usageFromTokens s.usedTokens)) = true
        · rw [if_pos hh]; exact h
        · rw [if_neg hh]
          have hh2 : bucketHas bucket0 (usageKey (usageFromTokens s.usedTokens)) = false := by
            cases h0 : bucketHas bucket0 (usageKey (usageFromTokens s.usedTokens))
            · rfl
            · exact absurd h0 hh
          constructor
          · rw [setBucket_keys hf]
            exact h.1
          · intro pb hpb
            rcases mem_setBucket hpb with h2 | h2
            · exact h.2 pb h2
            · rw [h2]
              obtain ⟨hnd0, hkeys0⟩ := h.2 _ (bucketFind?_mem hf)
              constructor
              · have hnot : usageKey (usageFromTokens s.usedTokens) ∉ bucket0.map Prod.fst := by
                  intro hmem
                  rcases List.mem_map.1 hmem with ⟨e0, he0, hfst⟩
                  exact bucketHas_false hh2 e0 he0 hfst
                simp [List.nodup_append, hnd0, hnot]
              · intro e he
                rcases List.mem_append.1 he with h3 | h3
                · exact hkeys0 e h3
                · have h4 : e = (usageKey (usageFromTokens s.usedTokens),
                      ({ word := joinTokensForDisplay s.usedTokens,
                         score := calculateScore s.usedTokens,
                         usage := usageFromTokens s.usedTokens,
                         length := (String.mk s.path).length } : Cand)) := by
                    simpa using h3
                  rw [h4]

/-- A usage signature recorded by `pushResult` is never a lone digraph tile:
with well-formed token lengths and the lone-digraph guard passed, the usage
cannot be empty singles plus a single multi-letter token. -/
theorem usageFromTokens_not_loneDigraph {ts : List String}
    (hw : ∀ t ∈ ts, t.length = 1 ∨ 2 ≤ t.length)
    (hl : loneDigraph ts = false) :
    ¬∃ tok : String, 1 < tok.length ∧
      usageFromTokens ts = { singleCounts := [], digraphCounts := [(tok, 1)] } := by
  rintro ⟨tok, htok, hu⟩
  cases ts with
  | nil =>
    have h1 : (usageFromTokens ([] : List String)).digraphCounts = [(tok, 1)] := by rw [hu]
    simp [usageFromTokens] at h1
  | cons t1 rest =>
    cases rest with
    | nil =>
      have hl1 : ¬(1 < t1.length) := by
        simpa [loneDigraph] using hl
      have ht1 : t1.length = 1 := by
        rcases hw t1 (List.mem_cons_self _ _) with h | h
        · exact h
        · omega
      rw [usageFromTokens_single ht1] at hu
      have h1 : (t1, (1:Int)) :: ([] : CountMap) = [] := congrArg RackCounts.singleCounts hu
      simp at h1
    | cons t2 rest2 =>
      have htot := usageFromTokens_total (t1 :: t2 :: rest2)
      rw [hu] at htot
      simp [totalRemainingCount] at htot
      omega

/-- Claim C7: `generateWordCandidates` never emits a candidate whose entire
tile usage is a single digraph token; in particular a rack containing only
the digraph `qu` never produces the word `qu` as a candidate, even with `qu`
in the dictionary. -/
theorem claim_C7 :
    (∀ (trie : Trie) (rc : RackCounts) (minLen : Nat) (gate : Option (String → Bool))
       (c : Cand), c ∈ generateWordCandidates trie rc minLen gate →
       ¬∃ tok : String, 1 < tok.length ∧
         c.usage = { singleCounts := [], digraphCounts := [(tok, 1)] }) ∧
    generateWordCandidates (buildTrie ["qu"] 10) (countRack ["qu"] DIGRAPHS) 2 none = [] := by
  constructor
  · intro trie rc minLen gate c hc
    have hinv := gen_state_inv
      (fun st => (∀ t ∈ st.usedTokens, t.length = 1 ∨ 2 ≤ t.length) ∧
        ∀ pb ∈ st.perWord, ∀ e ∈ pb.2,
          ¬∃ tok : String, 1 < tok.length ∧
            e.2.usage = { singleCounts := [], digraphCounts := [(tok, 1)] })
      ?_ ?_ ?_ ?_ ?_ trie.size gate minLen trie
      { singles := rc.singleCounts, digraphs := rc.digraphCounts,
        path := [], usedTokens := [], perWord := [] }
      ⟨by simp, by simp⟩
    · unfold generateWordCandidates at hc
      rw [List.mem_flatten] at hc
      obtain ⟨l, hlmem, hcl⟩ := hc
      rcases List.mem_map.1 hlmem with ⟨pb, hpb, hpbeq⟩
      rw [← hpbeq] at hcl
      rcases List.mem_map.1 hcl with ⟨e, he, hceq⟩
      rw [← hceq]
      exact hinv.2 pb hpb e he
    · intro gate2 st hst
      refine ⟨?_, ?_⟩
      · rw [(pushResult_frame gate2 st).2.2.2]
        exact hst.1
      · intro pb hpb e he
        rcases pushResult_mem gate2 st hpb he with ⟨pb0, h0, _, he0⟩ | ⟨hlone, husage, _⟩
        · exact hst.2 pb0 h0 e he0
        · rw [husage]
          exact usageFromTokens_not_loneDigraph hst.1 hlone
    · intro st L c1 m hdata hst
      refine ⟨?_, hst.2⟩
      intro t ht
      rcases List.mem_append.1 ht with h2 | h2
      · exact hst.1 t h2
      · have h3 : t = L := by simpa using h2
        subst h3
        left
        show t.data.length = 1
        rw [hdata]
        rfl
    · intro st DG a b tl m hdata hst
      refine ⟨?_, hst.2⟩
      intro t ht
      rcases List.mem_append.1 ht with h2 | h2
      · exact hst.1 t h2
      · have h3 : t = DG := by simpa using h2
        subst h3
        right
        show 2 ≤ t.data.length
        rw [hdata]
        simp
    · intro st m hst
      exact ⟨fun t ht => hst.1 t (List.mem_of_mem_dropLast ht), hst.2⟩
    · intro st m hst
      exact ⟨fun t ht => hst.1 t (List.mem_of_mem_dropLast ht), hst.2⟩
  · decide

/-- Witness for C7 at a concrete input: the candidate "qua" generated from
the rack `[qu, q, u, a]` is in the output and is not a lone-digraph usage. -/
theorem claim_C7_witness :
    (({ word := "qua", score := 21,
        usage := { singleCounts := [("q",1),("u",1),("a",1)], digraphCounts := [] },
        length := 3 } : Cand)
      ∈ generateWordCandidates (buildTrie ["qua"] 10)
          (countRack ["qu", "q", "u", "a"] DIGRAPHS) 2 none) ∧
    ¬∃ tok : String, 1 < tok.length ∧
      ({ word := "qua", score := 21,
         usage := { singleCounts := [("q",1),("u",1),("a",1)], digraphCounts := [] },
         length := 3 } : Cand).usage
        = { singleCounts := [], digraphCounts := [(tok, 1)] } :=
  ⟨by decide,
   claim_C7.1 (buildTrie ["qua"] 10) (countRack ["qu", "q", "u", "a"] DIGRAPHS) 2 none
     { word := "qua", score := 21,
       usage := { singleCounts := [("q",1),("u",1),("a",1)], digraphCounts := [] },
       length := 3 }
     (by decide)⟩

/-- Claim C8: candidates are deduplicated per plain word by usage signature —
plain words are pairwise distinct buckets, within a bucket exactly one
candidate is kept per distinct signature (the stored key is the signature of
the stored candidate, and keys are pairwise distinct; the first one found
wins, an exact duplicate is not re-added), the output flattens the buckets,
and two candidates with the same plain letters but different signatures both
appear (concretely: "qua" spelled with singles and with the `qu` digraph),
while the two same-signature spellings of "ququ" are collapsed to the first
one found. -/
theorem claim_C8 :
    (∀ (trie : Trie) (rc : RackCounts) (minLen : Nat) (gate : Option (String → Bool)),
      ((generateWordBuckets trie rc minLen gate).map Prod.fst).Nodup ∧
      ∀ pb ∈ generateWordBuckets trie rc minLen gate,
        (pb.2.map Prod.fst).Nodup ∧ ∀ e ∈ pb.2, e.1 = usageKey e.2.usage) ∧
    (∀ (trie : Trie) (rc : RackCounts) (minLen : Nat) (gate : Option (String → Bool)),
      generateWordCandidates trie rc minLen gate
        = ((generateWordBuckets trie rc minLen gate).map
            (fun b => b.2.map (fun e => e.2))).flatten) ∧
    (generateWordCandidates (buildTrie ["qua"] 10)
        (countRack ["qu", "q", "u", "a"] DIGRAPHS) 2 none
      = [{ word := "qua", score := 21,
           usage := { singleCounts := [("q",1),("u",1),("a",1)], digraphCounts := [] },
           length := 3 },
         { word := "(qu)a", score := 11,
           usage := { singleCounts := [("a",1)], digraphCounts := [("qu",1)] },
           length := 3 }] ∧
     usageKey { singleCounts := [("q",1),("u",1),("a",1)], digraphCounts := [] }
       ≠ usageKey { singleCounts := [("a",1)], digraphCounts := [("qu",1)] }) ∧
    (generateWordCandidates (buildTrie ["ququ"] 10)
        (countRack ["qu", "q", "u"] DIGRAPHS) 4 none
      = [{ word := "qu(qu)", score := 28,
           usage := { singleCounts := [("q",1),("u",1)], digraphCounts := [("qu",1)] },
           length := 4 }]) := by
  refine ⟨?_, fun _ _ _ _ => rfl, ⟨by decide, by decide⟩, by decide⟩
  intro trie rc minLen gate
  have hinv := gen_state_inv
    (fun st => (st.perWord.map Prod.fst).Nodup ∧
      ∀ pb ∈ st.perWord, (pb.2.map Prod.fst).Nodup ∧
        ∀ e ∈ pb.2, e.1 = usageKey e.2.usage)
    (fun gate2 st hst => pushResult_P8 gate2 st hst)
    (fun st L c1 m _ hst => hst)
    (fun st DG a b tl m _ hst => hst)
    (fun st m hst => hst)
    (fun st m hst => hst)
    trie.size gate minLen trie
    { singles := rc.singleCounts, digraphs := rc.digraphCounts,
      path := [], usedTokens := [], perWord := [] }
    ⟨by simp, by simp⟩
  exact hinv

/-- Witness for C8 at a concrete input: the single bucket for "qua" with its
two distinct-signature candidates satisfies the dedup invariants. -/
theorem claim_C8_witness :
    (("qua",
      [("a1q1u1|",
        ({ word := "qua", score := 21,
           usage := { singleCounts := [("q",1),("u",1),("a",1)], digraphCounts := [] },
           length := 3 } : Cand)),
       ("a1|qu1",
        ({ word := "(qu)a", score := 11,
           usage := { singleCounts := [("a",1)], digraphCounts := [("qu",1)] },
           length := 3 } : Cand))])
      ∈ generateWordBuckets (buildTrie ["qua"] 10)
          (countRack ["qu", "q", "u", "a"] DIGRAPHS) 2 none) ∧
    ((["a1q1u1|", "a1|qu1"] : List String).Nodup ∧ True) :=
  ⟨by decide,
   by
    have h := (claim_C8.1 (buildTrie ["qua"] 10)
      (countRack ["qu", "q", "u", "a"] DIGRAPHS) 2 none).2
      ("qua",
       [("a1q1u1|",
         ({ word := "qua", score := 21,
            usage := { singleCounts := [("q",1),("u",1),("a",1)], digraphCounts := [] },
            length := 3 } : Cand)),
        ("a1|qu1",
         ({ word := "(qu)a", score := 11,
            usage := { singleCounts := [("a",1)], digraphCounts := [("qu",1)] },
            length := 3 } : Cand))])
      (by decide)
    exact ⟨h.1, trivial⟩⟩

theorem childStr_nil (b : Bool) (L : String) : (Trie.node [] b).childStr? L = none := by
  unfold Trie.childStr?
  rcases hL : L.data with _ | ⟨a, tl⟩
  · rfl
  · rcases tl with _ | ⟨c2, rest⟩ <;> rfl

theorem genSingleStep_nil (r : Trie → GenState → GenState) (b : Bool)
    (acc : GenState) (e : String × Int) :
    genSingleStep r (Trie.node [] b) acc e = acc := by
  unfold genSingleStep
  split
  · rw [childStr_nil]
  · rfl

theorem genDigraphStep_nil (r : Trie → GenState → GenState) (b : Bool)
    (acc : GenState) (e : String × Int) :
    genDigraphStep r (Trie.node [] b) acc e = acc := by
  unfold genDigraphStep
  split
  · rcases hL : e.1.data with _ | ⟨a, tl⟩
    · rfl
    · rcases tl with _ | ⟨c2, rest⟩ <;> rfl
  · rfl

theorem foldl_genSingleStep_nil (r : Trie → GenState → GenState) (b : Bool) :
    ∀ (l : List (String × Int)) (acc : GenState),
      l.foldl (genSingleStep r (Trie.node [] b)) acc = acc := by
  intro l
  induction l with
  | nil => intro acc; rfl
  | cons e rest ih =>
    intro acc
    rw [List.foldl_cons, genSingleStep_nil]
    exact ih acc

theorem foldl_genDigraphStep_nil (r : Trie → GenState → GenState) (b : Bool) :
    ∀ (l : List (String × Int)) (acc : GenState),
      l.foldl (genDigraphStep r (Trie.node [] b)) acc = acc := by
  intro l
  induction l with
  | nil => intro acc; rfl
  | cons e rest ih =>
    intro acc
    rw [List.foldl_cons, genDigraphStep_nil]
    exact ih acc

/-- The DFS on the empty (never end-of-word) trie changes nothing. -/
theorem genDfs_nil (gate : Option (String → Bool)) (minLen : Nat) :
    ∀ (fuel : Nat) (s : GenState), genDfs gate minLen fuel (Trie.node [] false) s = s := by
  intro fuel
  cases fuel with
  | zero => intro s; rfl
  | succ f =>
    intro s
    show genDfs gate minLen (f + 1) (Trie.node [] false) s = s
    unfold genDfs
    simp only [Trie.isEnd, Bool.false_and, if_false, Bool.false_eq_true]
    rw [foldl_genSingleStep_nil, foldl_genDigraphStep_nil]

/-- The DFS on an empty rack (both count maps empty) with a positive minimum
length changes nothing. -/
theorem genDfs_noTiles (gate : Option (String → Bool)) (minLen : Nat)
    (hmin : 1 ≤ minLen) :
    ∀ (fuel : Nat) (trie : Trie) (s : GenState),
      s.singles = [] → s.digraphs = [] → s.path = [] →
      genDfs gate minLen fuel trie s = s := by
  intro fuel
  cases fuel with
  | zero => intro trie s _ _ _; rfl
  | succ f =>
    intro trie s hs hd hp
    unfold genDfs
    have hc : (trie.isEnd && decide (minLen ≤ s.path.length)) = false := by
      rw [hp]
      have h0 : decide (minLen ≤ ([] : List Char).length) = false := by
        simp only [List.length_nil, decide_eq_false_iff_not]
        omega
      rw [h0, Bool.and_false]
    simp only [hc, if_false, Bool.false_eq_true]
    rw [hs, List.foldl_nil, hd, List.foldl_nil]

/-- Counterexample to claim C5: with discard allowed (`noDiscard = false`) and
an empty rack, `chooseBestPlay` does not return a normal zero-words result
with the (zero) leftover penalty — every selection is skipped as non-viable,
so the returned record is the untouched sentinel with `leftoverValue =
Infinity` and `totalScore = -Infinity`, not the empty rack's remaining value. -/
theorem claim_C5_counterexample :
    chooseBestPlay [] { singleCounts := [], digraphCounts := [] }
        { currentLongest := XInt.top, currentMost := XInt.top, noDiscard := false,
          longestBonus := 10, mostBonus := 10 }
      = packResult initBest ∧
    (packResult initBest).leftoverValue = XInt.top ∧
    (packResult initBest).totalScore = XInt.bot ∧
    (packResult initBest).baseScore = XInt.bot ∧
    XInt.top ≠ XInt.fin (remainingValue [] []) := by decide

/-- Claim C5 (amended): an empty dictionary, or an empty rack with a positive
minimum word length, yields an empty candidate list; on an empty candidate
list, `chooseBestPlay` returns a normal zero-words result — a zero-score
record for an empty rack when `noDiscard = true`, and a zero-words record
carrying the discard-adjusted leftover penalty for a non-empty rack when
`noDiscard = false` — except in the one combination of `noDiscard = false`
with an empty rack, where the sentinel best record is returned unchanged. -/
theorem claim_C5_amended :
    (∀ (d : Nat) (rc : RackCounts) (minLen : Nat) (gate : Option (String → Bool)),
       generateWordCandidates (buildTrie [] d) rc minLen gate = []) ∧
    (∀ (trie : Trie) (minLen : Nat) (gate : Option (String → Bool)), 1 ≤ minLen →
       generateWordCandidates trie (countRack [] DIGRAPHS) minLen gate = []) ∧
    (chooseBestPlay [] { singleCounts := [], digraphCounts := [] }
        { currentLongest := XInt.top, currentMost := XInt.top, noDiscard := true,
          longestBonus := 10, mostBonus := 10 }
      = { words := [], baseScore := XInt.fin 0, leftoverValue := XInt.fin 0,
          bonusLongest := 0, bonusMost := 0, totalScore := XInt.fin 0,
          longestWordLength := 0, wordCount := 0, discardTile := none,
          unusedTiles := [] }) ∧
    (chooseBestPlay [] (countRack ["a", "b"] DIGRAPHS)
        { currentLongest := XInt.top, currentMost := XInt.top, noDiscard := false,
          longestBonus := 10, mostBonus := 10 }
      = { words := [], baseScore := XInt.fin 0, leftoverValue := XInt.fin 2,
          bonusLongest := 0, bonusMost := 0, totalScore := XInt.fin 0,
          longestWordLength := 0, wordCount := 0, discardTile := some "b",
          unusedTiles := ["a"] }) ∧
    (chooseBestPlay [] { singleCounts := [], digraphCounts := [] }
        { currentLongest := XInt.top, currentMost := XInt.top, noDiscard := false,
          longestBonus := 10, mostBonus := 10 }
      = packResult initBest) := by
  refine ⟨?_, ?_, by decide, by decide, by decide⟩
  · intro d rc minLen gate
    show generateWordCandidates (Trie.node [] false) rc minLen gate = []
    unfold generateWordCandidates
    rw [genDfs_nil]
    rfl
  · intro trie minLen gate hmin
    unfold generateWordCandidates
    rw [genDfs_noTiles gate minLen hmin _ trie _ rfl rfl rfl]
    rfl

/-- Witness for C5 at a concrete input: a non-trivial dictionary with an
empty rack produces no candidates. -/
theorem claim_C5_witness :
    1 ≤ 2 ∧
    generateWordCandidates (buildTrie ["cat"] 10) (countRack [] DIGRAPHS) 2 none = [] :=
  ⟨by decide, claim_C5_amended.2.1 (buildTrie ["cat"] 10) 2 none (by decide)⟩

/-- Claim C4: when discard is allowed (`noDiscard = false`) and exactly zero
tiles remain unused, `evalCurrent` leaves the state (in particular the `best`
record) unchanged, and so does the end-of-candidate-list step of the search —
the selection is never recorded, regardless of what its total score would
have been. -/
theorem claim_C4 (p : ChooseParams) (s : CPState) (hnd : p.noDiscard = false)
    (hrem : totalRemainingCount s.remS s.remD = 0) :
    evalCurrent p s = s ∧ cpDfs p [] s = s := by
  have h1 : evalCurrent p s = s := by
    unfold evalCurrent
    rw [hrem, hnd]
    rfl
  refine ⟨h1, ?_⟩
  have h2 : cpDfs p [] s
      = (if XInt.leb
            (XInt.fin (s.cur.baseScore + remainingValue s.remS s.remD
              + p.longestBonus + p.mostBonus))
            s.best.totalScore
         then s else evalCurrent p s) := rfl
  rw [h2]
  split
  · rfl
  · exact h1

/-- Witness for C4 at a concrete input: a selection whose would-be total (50)
strictly exceeds the current best (the `-Infinity` sentinel) is still
skipped when no tile remains and discard is allowed. -/
theorem claim_C4_witness :
    ({ currentLongest := XInt.top, currentMost := XInt.top, noDiscard := false,
       longestBonus := 10, mostBonus := 10 } : ChooseParams).noDiscard = false ∧
    totalRemainingCount [] [] = 0 ∧
    XInt.ltb initBest.totalScore (XInt.fin 50) = true ∧
    (evalCurrent
        { currentLongest := XInt.top, currentMost := XInt.top, noDiscard := false,
          longestBonus := 10, mostBonus := 10 }
        { remS := [], remD := [],
          cur := { baseScore := 50, words := [], longest := 5, count := 1 },
          best := initBest }
      = { remS := [], remD := [],
          cur := { baseScore := 50, words := [], longest := 5, count := 1 },
          best := initBest }) :=
  ⟨rfl, rfl, by decide,
   (claim_C4
     { currentLongest := XInt.top, currentMost := XInt.top, noDiscard := false,
       longestBonus := 10, mostBonus := 10 }
     { remS := [], remD := [],
       cur := { baseScore := 50, words := [], longest := 5, count := 1 },
       best := initBest }
     rfl rfl).1⟩

theorem XInt.leb_refl (a : XInt) : XInt.leb a a = true := by
  cases a <;> simp [XInt.leb, XInt.ltb]

theorem XInt.leb_trans {a b c : XInt} (h1 : XInt.leb a b = true)
    (h2 : XInt.leb b c = true) : XInt.leb a c = true := by
  cases a <;> cases b <;> cases c <;> simp [XInt.leb, XInt.ltb] at * <;> omega

theorem XInt.leb_of_ltb {a b : XInt} (h : XInt.ltb a b = true) :
    XInt.leb a b = true := by
  cases a <;> cases b <;> simp [XInt.leb, XInt.ltb] at * <;> omega

theorem XInt.leb_fin_iff {a b : Int} :
    XInt.leb (XInt.fin a) (XInt.fin b) = true ↔ a ≤ b := by
  simp [XInt.leb, XInt.ltb]

/-- Full characterization of one `bestDiscardInfo` loop: the result is the
accumulator or a positive entry of the map with its card value; it bounds
every positive entry's card value and the accumulator; and from the `-∞`
accumulator a positive entry always produces a found result. -/
theorem discardFold_spec (m : CountMap) : ∀ acc : Option String × XInt,
    (discardFold m acc = acc ∨
      ∃ e, e ∈ m ∧ 0 < e.2 ∧ discardFold m acc = (some e.1, XInt.fin (cardScore e.1))) ∧
    (∀ e, e ∈ m → 0 < e.2 →
      XInt.leb (XInt.fin (cardScore e.1)) (discardFold m acc).2 = true) ∧
    XInt.leb acc.2 (discardFold m acc).2 = true ∧
    (acc.2 = XInt.bot → (∃ e, e ∈ m ∧ 0 < e.2) →
      ∃ e, e ∈ m ∧ 0 < e.2 ∧ discardFold m acc = (some e.1, XInt.fin (cardScore e.1))) := by
  induction m with
  | nil =>
    intro acc
    refine ⟨Or.inl rfl, ?_, XInt.leb_refl _, ?_⟩
    · intro e he
      simp at he
    · intro _ h
      obtain ⟨e, he, _⟩ := h
      simp at he
  | cons hd rest ih =>
    intro acc
    obtain ⟨t, c⟩ := hd
    have hunf : discardFold ((t, c) :: rest) acc
        = discardFold rest
            (if 0 < c then
              (if XInt.ltb acc.2 (XInt.fin (cardScore t)) then
                (some t, XInt.fin (cardScore t)) else acc)
             else acc) := rfl
    by_cases hc : 0 < c
    · by_cases hlt : XInt.ltb acc.2 (XInt.fin (cardScore t)) = true
      · -- the head strictly improves the accumulator
        have hacc2 : (if 0 < c then
              (if XInt.ltb acc.2 (XInt.fin (cardScore t)) then
                (some t, XInt.fin (cardScore t)) else acc)
             else acc) = (some t, XInt.fin (cardScore t)) := by
          rw [if_pos hc, if_pos hlt]
        rw [hunf, hacc2]
        obtain ⟨hres, hbound, hmono, hbot⟩ := ih (some t, XInt.fin (cardScore t))
        refine ⟨?_, ?_, ?_, ?_⟩
        · rcases hres with h | ⟨e, he, hep, heq⟩
          · exact Or.inr ⟨(t, c), List.mem_cons_self _ _, hc, h⟩
          · exact Or.inr ⟨e, List.mem_cons_of_mem _ he, hep, heq⟩
        · intro e he hep
          rcases List.mem_cons.1 he with h | h
          · subst h
            exact hmono
          · exact hbound e h hep
        · exact XInt.leb_trans (XInt.leb_of_ltb hlt) hmono
        · intro _ _
          rcases hres with h | ⟨e, he, hep, heq⟩
          · exact ⟨(t, c), List.mem_cons_self _ _, hc, h⟩
          · exact ⟨e, List.mem_cons_of_mem _ he, hep, heq⟩
      · -- positive head, but not better than the accumulator
        have hacc2 : (if 0 < c then
              (if XInt.ltb acc.2 (XInt.fin (cardScore t)) then
                (some t, XInt.fin (cardScore t)) else acc)
             else acc) = acc := by
          rw [if_pos hc, if_neg hlt]
        rw [hunf, hacc2]
        obtain ⟨hres, hbound, hmono, hbot⟩ := ih acc
        have hlt2 : XInt.ltb acc.2 (XInt.fin (cardScore t)) = false := by
          cases h : XInt.ltb acc.2 (XInt.fin (cardScore t))
          · rfl
          · exact absurd h hlt
        have hle : XInt.leb (XInt.fin (cardScore t)) acc.2 = true := by
          show (!XInt.ltb acc.2 (XInt.fin (cardScore t))) = true
          rw [hlt2]
          rfl
        refine ⟨?_, ?_, hmono, ?_⟩
        · rcases hres with h | ⟨e, he, hep, heq⟩
          · exact Or.inl h
          · exact Or.inr ⟨e, List.mem_cons_of_mem _ he, hep, heq⟩
        · intro e he hep
          rcases List.mem_cons.1 he with h | h
          · subst h
            exact XInt.leb_trans hle hmono
          · exact hbound e h hep
        · intro hb _
          rw [hb] at hle
          exact absurd hle (by simp [XInt.leb, XInt.ltb])
    · -- non-positive head: the accumulator is unchanged
      have hacc2 : (if 0 < c then
            (if XInt.ltb acc.2 (XInt.fin (cardScore t)) then
              (some t, XInt.fin (cardScore t)) else acc)
           else acc) = acc := by
        rw [if_neg hc]
      rw [hunf, hacc2]
      obtain ⟨hres, hbound, hmono, hbot⟩ := ih acc
      refine ⟨?_, ?_, hmono, ?_⟩
      · rcases hres with h | ⟨e, he, hep, heq⟩
        · exact Or.inl h
        · exact Or.inr ⟨e, List.mem_cons_of_mem _ he, hep, heq⟩
      · intro e he hep
        rcases List.mem_cons.1 he with h | h
        · subst h
          exact absurd hep hc
        · exact hbound e h hep
      · intro hb hex
        obtain ⟨e, he, hep⟩ := hex
        rcases List.mem_cons.1 he with h | h
        · subst h
          exact absurd hep hc
        · obtain ⟨e2, he2, hp2, heq2⟩ := hbot hb ⟨e, h, hep⟩
          exact ⟨e2, List.mem_cons_of_mem _ he2, hp2, heq2⟩

/-- When some remaining tile has a positive count, `bestDiscardInfo` returns
a positive-count remaining tile of maximal card value (the first strict
maximum), together with that value. -/
theorem bestDiscardInfo_found (remS remD : CountMap)
    (hpos : ∃ e, e ∈ remS ++ remD ∧ 0 < e.2) :
    ∃ t : String,
      bestDiscardInfo remS remD = (some t, cardScore t) ∧
      (∃ e, e ∈ remS ++ remD ∧ e.1 = t ∧ 0 < e.2) ∧
      (∀ e, e ∈ remS ++ remD → 0 < e.2 → cardScore e.1 ≤ cardScore t) := by
  obtain ⟨hresS, hboundS, hmonoS, hbotS⟩ := discardFold_spec remS (none, XInt.bot)
  obtain ⟨hresD, hboundD, hmonoD, hbotD⟩ :=
    discardFold_spec remD (discardFold remS (none, XInt.bot))
  have hfound : ∃ t : String,
      discardFold remD (discardFold remS (none, XInt.bot))
        = (some t, XInt.fin (cardScore t)) ∧
      ∃ e, e ∈ remS ++ remD ∧ e.1 = t ∧ 0 < e.2 := by
    rcases hresS with hS0 | ⟨e1, he1, hp1, heq1⟩
    · -- the singles pass found nothing: no positive entry in remS
      have hnoS : ¬∃ e, e ∈ remS ∧ 0 < e.2 := by
        intro hex
        obtain ⟨e, he, hp, heq⟩ := hbotS rfl hex
        rw [hS0] at heq
        exact absurd heq (by simp)
      obtain ⟨e, he, hp⟩ := hpos
      have heD : e ∈ remD := by
        rcases List.mem_append.1 he with h | h
        · exact absurd ⟨e, h, hp⟩ hnoS
        · exact h
      have hb2 : (discardFold remS (none, XInt.bot)).2 = XInt.bot := by
        rw [hS0]
      obtain ⟨e2, he2, hp2, heq2⟩ := hbotD hb2 ⟨e, heD, hp⟩
      exact ⟨e2.1, heq2, e2, List.mem_append_right _ he2, rfl, hp2⟩
    · -- the singles pass found a tile; the digraph pass keeps or improves it
      rcases hresD with hD0 | ⟨e2, he2, hp2, heq2⟩
      · rw [hD0, heq1]
        exact ⟨e1.1, rfl, e1, List.mem_append_left _ he1, rfl, hp1⟩
      · exact ⟨e2.1, heq2, e2, List.mem_append_right _ he2, rfl, hp2⟩
  obtain ⟨t, hr, hwit⟩ := hfound
  refine ⟨t, ?_, hwit, ?_⟩
  · show ((discardFold remD (discardFold remS (none, XInt.bot))).1,
      match (discardFold remD (discardFold remS (none, XInt.bot))).2 with
      | XInt.bot => 0
      | XInt.fin v => v
      | XInt.top => 0) = (some t, cardScore t)
    rw [hr]
  · intro e he hp
    have hle : XInt.leb (XInt.fin (cardScore e.1))
        (discardFold remD (discardFold remS (none, XInt.bot))).2 = true := by
      rcases List.mem_append.1 he with h | h
      · exact XInt.leb_trans (hboundS e h hp) hmonoD
      · exact hboundD e h hp
    rw [hr] at hle
    exact XInt.leb_fin_iff.1 hle

/-- Claim C3: at an evaluated leaf, the penalty is the full remaining value
when `noDiscard` is true, and otherwise that value minus the card value of a
maximal positive-count remaining tile, which is reported as the discard tile
and removed from the unused list; each bonus is awarded iff the selection
strictly exceeds the corresponding threshold — the bonus equals the
parameter when strictly above and is zero in every other case (an exact tie,
strictly below, or the default `Infinity` threshold); and the recorded total
is `max(baseScore - penalty, 0)` plus the awarded bonuses. -/
theorem claim_C3 :
    (∀ remS remD : CountMap,
      evalPenalty true remS remD
        = (remainingValue remS remD, none, listRemainingTiles remS remD)) ∧
    (∀ remS remD : CountMap, (∃ e, e ∈ remS ++ remD ∧ 0 < e.2) →
      ∃ t : String,
        bestDiscardInfo remS remD = (some t, cardScore t) ∧
        (∃ e, e ∈ remS ++ remD ∧ e.1 = t ∧ 0 < e.2) ∧
        (∀ e, e ∈ remS ++ remD → 0 < e.2 → cardScore e.1 ≤ cardScore t) ∧
        evalPenalty false remS remD
          = (remainingValue remS remD - cardScore t, some t,
             (listRemainingTiles remS remD).erase t)) ∧
    (∀ (p : ChooseParams) (cur : CurRec) (pen : Int),
      (p.currentLongest = XInt.fin (cur.longest : Int) → (evalTotal p cur pen).1 = 0) ∧
      (p.currentMost = XInt.fin (cur.count : Int) → (evalTotal p cur pen).2.1 = 0)) ∧
    (∀ (p : ChooseParams) (cur : CurRec) (pen : Int),
      (XInt.ltb p.currentLongest (XInt.fin (cur.longest : Int)) = true →
        (evalTotal p cur pen).1 = p.longestBonus) ∧
      (XInt.ltb p.currentMost (XInt.fin (cur.count : Int)) = true →
        (evalTotal p cur pen).2.1 = p.mostBonus)) ∧
    (∀ (p : ChooseParams) (cur : CurRec) (pen : Int),
      (XInt.ltb p.currentLongest (XInt.fin (cur.longest : Int)) = false →
        (evalTotal p cur pen).1 = 0) ∧
      (XInt.ltb p.currentMost (XInt.fin (cur.count : Int)) = false →
        (evalTotal p cur pen).2.1 = 0)) ∧
    (∀ (p : ChooseParams) (s : CPState),
      (evalCurrent p s).best = s.best ∨
      ((evalCurrent p s).best.baseScore = XInt.fin s.cur.baseScore ∧
       (evalCurrent p s).best.leftoverValue
         = XInt.fin (evalPenalty p.noDiscard s.remS s.remD).1 ∧
       (evalCurrent p s).best.discardTile
         = (evalPenalty p.noDiscard s.remS s.remD).2.1 ∧
       (evalCurrent p s).best.unusedTiles
         = (evalPenalty p.noDiscard s.remS s.remD).2.2 ∧
       (evalCurrent p s).best.bonusLongest
         = (evalTotal p s.cur (evalPenalty p.noDiscard s.remS s.remD).1).1 ∧
       (evalCurrent p s).best.bonusMost
         = (evalTotal p s.cur (evalPenalty p.noDiscard s.remS s.remD).1).2.1 ∧
       (evalCurrent p s).best.totalScore
         = XInt.fin (max (s.cur.baseScore - (evalPenalty p.noDiscard s.remS s.remD).1) 0
             + (evalTotal p s.cur (evalPenalty p.noDiscard s.remS s.remD).1).1
             + (evalTotal p s.cur (evalPenalty p.noDiscard s.remS s.remD).1).2.1))) := by
  refine ⟨fun remS remD => rfl, ?_, ?_, ?_, ?_, ?_⟩
  · intro remS remD hpos
    obtain ⟨t, hbd, hwit, hmax⟩ := bestDiscardInfo_found remS remD hpos
    refine ⟨t, hbd, hwit, hmax, ?_⟩
    have hdef : evalPenalty false remS remD
        = (remainingValue remS remD - (bestDiscardInfo remS remD).2,
           (bestDiscardInfo remS remD).1,
           match (bestDiscardInfo remS remD).1 with
           | some bt => (listRemainingTiles remS remD).erase bt
           | none => listRemainingTiles remS remD) := rfl
    rw [hdef, hbd]
  · intro p cur pen
    constructor
    · intro h
      show (if XInt.ltb p.currentLongest (XInt.fin (cur.longest : Int))
            then p.longestBonus else 0) = 0
      rw [h]
      simp [XInt.ltb]
    · intro h
      show (if XInt.ltb p.currentMost (XInt.fin (cur.count : Int))
            then p.mostBonus else 0) = 0
      rw [h]
      simp [XInt.ltb]
  · intro p cur pen
    constructor
    · intro h
      show (if XInt.ltb p.currentLongest (XInt.fin (cur.longest : Int))
            then p.longestBonus else 0) = p.longestBonus
      rw [h]
      rfl
    · intro h
      show (if XInt.ltb p.currentMost (XInt.fin (cur.count : Int))
            then p.mostBonus else 0) = p.mostBonus
      rw [h]
      rfl
  · intro p cur pen
    constructor
    · intro h
      show (if XInt.ltb p.currentLongest (XInt.fin (cur.longest : Int))
            then p.longestBonus else 0) = 0
      rw [h]
      rfl
    · intro h
      show (if XInt.ltb p.currentMost (XInt.fin (cur.count : Int))
            then p.mostBonus else 0) = 0
      rw [h]
      rfl
  · intro p s
    unfold evalCurrent
    dsimp only
    split
    · exact Or.inl rfl
    · split
      · exact Or.inr ⟨rfl, rfl, rfl, rfl, rfl, rfl, rfl⟩
      · exact Or.inl rfl

/-- Witness for C3 at a concrete input: on the remaining tiles `a` (value 2)
and `q` (value 15), the discard pass picks `q` and the penalty drops to 2. -/
theorem claim_C3_witness :
    (∃ e, e ∈ ([("a", 1), ("q", 1)] : CountMap) ++ ([] : CountMap) ∧ 0 < e.2) ∧
    (∃ t : String,
      bestDiscardInfo [("a", 1), ("q", 1)] [] = (some t, cardScore t) ∧
      (∃ e, e ∈ ([("a", 1), ("q", 1)] : CountMap) ++ ([] : CountMap) ∧ e.1 = t ∧ 0 < e.2) ∧
      (∀ e, e ∈ ([("a", 1), ("q", 1)] : CountMap) ++ ([] : CountMap) → 0 < e.2 →
        cardScore e.1 ≤ cardScore t) ∧
      evalPenalty false [("a", 1), ("q", 1)] []
        = (remainingValue [("a", 1), ("q", 1)] [] - cardScore t, some t,
           (listRemainingTiles [("a", 1), ("q", 1)] []).erase t)) :=
  ⟨⟨("a", 1), by decide, by decide⟩,
   claim_C3.2.1 [("a", 1), ("q", 1)] [] ⟨("a", 1), by decide, by decide⟩⟩

/-- Lemma: pairs of `fits`-guarded `apply(usage, 1)` / `apply(usage, -1)`
calls cancel exactly, on both count maps. -/
theorem applyUsage_cancel (u : RackCounts) (remS remD : CountMap)
    (hOK : usageOK u) (hfit : fits u remS remD = true) :
    (applyUsage u (-1) (applyUsage u 1 remS remD).1 (applyUsage u 1 remS remD).2).1 = remS ∧
    (applyUsage u (-1) (applyUsage u 1 remS remD).1 (applyUsage u 1 remS remD).2).2 = remD := by
  obtain ⟨⟨hndS, hndD⟩, hposS, hposD⟩ := hOK
  have hfit2 := hfit
  simp only [fits, Bool.and_eq_true, List.all_eq_true, decide_eq_true_eq] at hfit2
  have hfS : ∀ e ∈ u.singleCounts, hasKey remS e.1 = true := by
    intro e he
    have hle : e.2 ≤ getCount remS e.1 := hfit2.1 e he
    have hpe : 0 < e.2 := hposS e he
    exact hasKey_of_getCount_ne (by omega)
  have hfD : ∀ e ∈ u.digraphCounts, hasKey remD e.1 = true := by
    intro e he
    have hle : e.2 ≤ getCount remD e.1 := hfit2.2 e he
    have hpe : 0 < e.2 := hposD e he
    exact hasKey_of_getCount_ne (by omega)
  constructor
  · exact foldAdjust_cancel (fun e => -(1 * e.2)) (fun e => -((-1) * e.2))
      (fun e => by ring) u.singleCounts remS hndS hfS
  · exact foldAdjust_cancel (fun e => -(1 * e.2)) (fun e => -((-1) * e.2))
      (fun e => by ring) u.digraphCounts remD hndD hfD

/-- `evalCurrent` only replaces the `best` record: the remaining counts and
the `cur` accumulator pass through unchanged. -/
theorem evalCurrent_frame (p : ChooseParams) (s : CPState) :
    (evalCurrent p s).remS = s.remS ∧ (evalCurrent p s).remD = s.remD ∧
    (evalCurrent p s).cur = s.cur := by
  unfold evalCurrent
  dsimp only
  split
  · exact ⟨rfl, rfl, rfl⟩
  · split
    · exact ⟨rfl, rfl, rfl⟩
    · exact ⟨rfl, rfl, rfl⟩

/-- One include/restore round of the selection search, composed with any
continuation `F` that preserves the counts and the accumulator: the
`apply(+1)/recurse/apply(-1)/rollback-cur` pattern restores everything. -/
theorem cp_restore_step (F : CPState → CPState)
    (hF : ∀ s2 : CPState, (F s2).remS = s2.remS ∧ (F s2).remD = s2.remD ∧
      (F s2).cur = s2.cur)
    {w : Cand} {s sRec sPop : CPState}
    (hOK : usageOK w.usage)
    (hfit : fits w.usage s.remS s.remD = true)
    (hPop : sPop = { sRec with remS := (applyUsage w.usage (-1) sRec.remS sRec.remD).1, remD := (applyUsage w.usage (-1) sRec.remS sRec.remD).2, cur := { baseScore := sRec.cur.baseScore - w.score, words := sRec.cur.words.dropLast, longest := s.cur.longest, count := sRec.cur.count - 1 } })
    (h1 : sRec.remS = (applyUsage w.usage 1 s.remS s.remD).1)
    (h2 : sRec.remD = (applyUsage w.usage 1 s.remS s.remD).2)
    (h3 : sRec.cur = { baseScore := s.cur.baseScore + w.score,
                       words := s.cur.words ++ [w],
                       longest := max s.cur.longest w.length,
                       count := s.cur.count + 1 }) :
    (F sPop).remS = s.remS ∧ (F sPop).remD = s.remD ∧ (F sPop).cur = s.cur := by
  have f1 : sPop.remS = s.remS := by
    rw [hPop]
    show (applyUsage w.usage (-1) sRec.remS sRec.remD).1 = s.remS
    rw [h1, h2]
    exact (applyUsage_cancel w.usage s.remS s.remD hOK hfit).1
  have f2 : sPop.remD = s.remD := by
    rw [hPop]
    show (applyUsage w.usage (-1) sRec.remS sRec.remD).2 = s.remD
    rw [h1, h2]
    exact (applyUsage_cancel w.usage s.remS s.remD hOK hfit).2
  have f3 : sPop.cur = s.cur := by
    rw [hPop]
    show ({ baseScore := sRec.cur.baseScore - w.score, words := sRec.cur.words.dropLast,
            longest := s.cur.longest, count := sRec.cur.count - 1 } : CurRec) = s.cur
    rw [h3]
    dsimp only
    rw [add_sub_cancel_right, List.dropLast_concat, Nat.add_sub_cancel]
  obtain ⟨g1, g2, g3⟩ := hF sPop
  exact ⟨g1.trans f1, g2.trans f2, g3.trans f3⟩

/-- Backtracking restoration for the pruned selection search: `cpDfs` returns
the remaining-count maps and the `cur` accumulator exactly as it received
them, for candidates with well-formed usage signatures. -/
theorem cpDfs_restore (p : ChooseParams) :
    ∀ (cands : List Cand) (s : CPState), (∀ w ∈ cands, usageOK w.usage) →
      (cpDfs p cands s).remS = s.remS ∧ (cpDfs p cands s).remD = s.remD ∧
      (cpDfs p cands s).cur = s.cur := by
  intro cands
  induction cands with
  | nil =>
    intro s _
    rw [cpDfs]
    split
    · exact ⟨rfl, rfl, rfl⟩
    · exact evalCurrent_frame p s
  | cons w rest ih =>
    intro s hok
    have hok2 : ∀ x ∈ rest, usageOK x.usage := fun x hx => hok x (List.mem_cons_of_mem _ hx)
    have hokw : usageOK w.usage := hok w (List.mem_cons_self _ _)
    rw [cpDfs]
    dsimp only
    split
    · exact ⟨rfl, rfl, rfl⟩
    · by_cases hfit : fits w.usage s.remS s.remD = true
      · rw [if_pos hfit]
        obtain ⟨r1, r2, r3⟩ := ih
          { remS := (applyUsage w.usage 1 s.remS s.remD).1,
            remD := (applyUsage w.usage 1 s.remS s.remD).2,
            cur := { baseScore := s.cur.baseScore + w.score, words := s.cur.words ++ [w],
                     longest := max s.cur.longest w.length, count := s.cur.count + 1 },
            best := s.best } hok2
        exact cp_restore_step (cpDfs p rest) (fun s2 => ih s2 hok2) hokw hfit rfl r1 r2 r3
      · rw [if_neg hfit]
        exact ih s hok2

/-- Backtracking restoration for the unpruned reference search. -/
theorem cpDfsNoPrune_restore (p : ChooseParams) :
    ∀ (cands : List Cand) (s : CPState), (∀ w ∈ cands, usageOK w.usage) →
      (cpDfsNoPrune p cands s).remS = s.remS ∧ (cpDfsNoPrune p cands s).remD = s.remD ∧
      (cpDfsNoPrune p cands s).cur = s.cur := by
  intro cands
  induction cands with
  | nil =>
    intro s _
    exact evalCurrent_frame p s
  | cons w rest ih =>
    intro s hok
    have hok2 : ∀ x ∈ rest, usageOK x.usage := fun x hx => hok x (List.mem_cons_of_mem _ hx)
    have hokw : usageOK w.usage := hok w (List.mem_cons_self _ _)
    rw [cpDfsNoPrune]
    dsimp only
    by_cases hfit : fits w.usage s.remS s.remD = true
    · rw [if_pos hfit]
      obtain ⟨r1, r2, r3⟩ := ih
        { remS := (applyUsage w.usage 1 s.remS s.remD).1,
          remD := (applyUsage w.usage 1 s.remS s.remD).2,
          cur := { baseScore := s.cur.baseScore + w.score, words := s.cur.words ++ [w],
                   longest := max s.cur.longest w.length, count := s.cur.count + 1 },
          best := s.best } hok2
      exact cp_restore_step (cpDfsNoPrune p rest) (fun s2 => ih s2 hok2) hokw hfit rfl r1 r2 r3
    · rw [if_neg hfit]
      exact ih s hok2

theorem mem_insertCand {x a : Cand} : ∀ {l : List Cand},
    x ∈ insertCand a l ↔ x = a ∨ x ∈ l := by
  intro l
  induction l with
  | nil => simp [insertCand]
  | cons b bs ih =>
    unfold insertCand
    split
    · rw [List.mem_cons, ih, List.mem_cons]
      tauto
    · simp only [List.mem_cons]

theorem mem_sortCands {x : Cand} {l : List Cand} (h : x ∈ sortCands l) : x ∈ l := by
  suffices h2 : ∀ (m : List Cand) (acc : List Cand),
      x ∈ m.foldl (fun acc a => insertCand a acc) acc → x ∈ acc ∨ x ∈ m by
    rcases h2 l [] h with h3 | h3
    · simp at h3
    · exact h3
  intro m
  induction m with
  | nil =>
    intro acc h3
    exact Or.inl h3
  | cons a as ih =>
    intro acc h3
    rw [List.foldl_cons] at h3
    rcases ih (insertCand a acc) h3 with h4 | h4
    · rcases mem_insertCand.1 h4 with h5 | h5
      · exact Or.inr (by simp [h5])
      · exact Or.inl h5
    · exact Or.inr (List.mem_cons_of_mem _ h4)

/-- Claim C10: the count maps handed to the two solvers come back exactly as
they went in.  In this embedding both functions are pure, so the caller's
`rackCounts` is unchanged by construction; the substantive content is that
the in-place mutation both searches perform on their entry copies is fully
balanced — the DFS state returned by the generator holds the original
single and digraph maps (and empty path/token stacks), and the selection
search returns its remaining-count copies equal to the rack maps. -/
theorem claim_C10 :
    (∀ (trie : Trie) (rc : RackCounts) (minLen : Nat) (gate : Option (String → Bool)),
      (genDfs gate minLen trie.size trie
        { singles := rc.singleCounts, digraphs := rc.digraphCounts,
          path := [], usedTokens := [], perWord := [] }).singles = rc.singleCounts ∧
      (genDfs gate minLen trie.size trie
        { singles := rc.singleCounts, digraphs := rc.digraphCounts,
          path := [], usedTokens := [], perWord := [] }).digraphs = rc.digraphCounts ∧
      (genDfs gate minLen trie.size trie
        { singles := rc.singleCounts, digraphs := rc.digraphCounts,
          path := [], usedTokens := [], perWord := [] }).path = [] ∧
      (genDfs gate minLen trie.size trie
        { singles := rc.singleCounts, digraphs := rc.digraphCounts,
          path := [], usedTokens := [], perWord := [] }).usedTokens = []) ∧
    (∀ (p : ChooseParams) (cands : List Cand) (rc : RackCounts),
      (∀ w ∈ cands, usageOK w.usage) →
      (cpDfs p (sortCands cands) (initCPState rc)).remS = rc.singleCounts ∧
      (cpDfs p (sortCands cands) (initCPState rc)).remD = rc.digraphCounts) := by
  constructor
  · intro trie rc minLen gate
    exact gen_restore trie.size gate minLen trie
      { singles := rc.singleCounts, digraphs := rc.digraphCounts,
        path := [], usedTokens := [], perWord := [] }
  · intro p cands rc hok
    have hok2 : ∀ w ∈ sortCands cands, usageOK w.usage :=
      fun w hw => hok w (mem_sortCands hw)
    obtain ⟨h1, h2, _⟩ := cpDfs_restore p (sortCands cands) (initCPState rc) hok2
    exact ⟨h1, h2⟩

/-- Witness for C10 at a concrete input: one candidate using the single `a`
on the rack `{a: 1}`. -/
theorem claim_C10_witness :
    (∀ w ∈ [({ word := "a", score := 2,
               usage := { singleCounts := [("a", 1)], digraphCounts := [] },
               length := 1 } : Cand)], usageOK w.usage) ∧
    ((cpDfs { currentLongest := XInt.top, currentMost := XInt.top, noDiscard := false,
              longestBonus := 10, mostBonus := 10 }
        (sortCands [{ word := "a", score := 2,
                      usage := { singleCounts := [("a", 1)], digraphCounts := [] },
                      length := 1 }])
        (initCPState { singleCounts := [("a", 1)], digraphCounts := [] })).remS
      = ({ singleCounts := [("a", 1)], digraphCounts := [] } : RackCounts).singleCounts ∧
     (cpDfs { currentLongest := XInt.top, currentMost := XInt.top, noDiscard := false,
              longestBonus := 10, mostBonus := 10 }
        (sortCands [{ word := "a", score := 2,
                      usage := { singleCounts := [("a", 1)], digraphCounts := [] },
                      length := 1 }])
        (initCPState { singleCounts := [("a", 1)], digraphCounts := [] })).remD
      = ({ singleCounts := [("a", 1)], digraphCounts := [] } : RackCounts).digraphCounts) := by
  have hok : ∀ w ∈ [({ word := "a", score := 2, usage := { singleCounts := [("a", 1)], digraphCounts := [] }, length := 1 } : Cand)], usageOK w.usage := by
    intro w hw
    simp only [List.mem_singleton] at hw
    subst hw
    unfold usageOK wfCounts keysNodup posCounts
    refine ⟨⟨?_, ?_⟩, ?_, ?_⟩ <;> simp
  exact ⟨hok,
   claim_C10.2
     { currentLongest := XInt.top, currentMost := XInt.top, noDiscard := false,
       longestBonus := 10, mostBonus := 10 }
     [{ word := "a", score := 2,
        usage := { singleCounts := [("a", 1)], digraphCounts := [] }, length := 1 }]
     { singleCounts := [("a", 1)], digraphCounts := [] }
     hok⟩

/-! ## Tile-multiset accounting for the selection search -/

theorem hasKey_iff_mem_keys {m : CountMap} {k : String} :
    hasKey m k = true ↔ k ∈ m.map Prod.fst := by
  induction m with
  | nil => simp [hasKey]
  | cons e rest ih =>
    by_cases he : e.1 = k
    · simp [hasKey, he]
    · simp [hasKey, he, ih, Ne.symm he]

theorem getCount_eq_zero_of_not_mem_keys {m : CountMap} {a : String}
    (h : a ∉ m.map Prod.fst) : getCount m a = 0 :=
  getCount_eq_zero_of_not_hasKey
    (by cases hk : hasKey m a with
        | true => exact absurd (hasKey_iff_mem_keys.1 hk) h
        | false => rfl)

theorem getCount_mem {m : CountMap} {a : String} (h : getCount m a ≠ 0) :
    ∃ e, e ∈ m ∧ e.1 = a ∧ getCount m a = e.2 := by
  induction m with
  | nil => exact absurd rfl h
  | cons e rest ih =>
    by_cases he : e.1 = a
    · refine ⟨e, List.mem_cons_self _ _, he, ?_⟩
      show lookupOr (e :: rest) a 0 = e.2
      unfold lookupOr
      rw [if_pos he]
    · have h2 : getCount rest a ≠ 0 := by
        intro hz
        apply h
        show lookupOr (e :: rest) a 0 = 0
        unfold lookupOr
        rw [if_neg he]
        exact hz
      obtain ⟨e2, he2, hk2, hv2⟩ := ih h2
      refine ⟨e2, List.mem_cons_of_mem _ he2, hk2, ?_⟩
      show lookupOr (e :: rest) a 0 = e2.2
      unfold lookupOr
      rw [if_neg he]
      exact hv2

theorem getCount_nonneg {m : CountMap} (h : ∀ e ∈ m, 0 ≤ e.2) (a : String) :
    0 ≤ getCount m a := by
  induction m with
  | nil => exact le_refl 0
  | cons e rest ih =>
    show 0 ≤ lookupOr (e :: rest) a 0
    unfold lookupOr
    by_cases he : e.1 = a
    · rw [if_pos he]
      exact h e (List.mem_cons_self _ _)
    · rw [if_neg he]
      exact ih (fun x hx => h x (List.mem_cons_of_mem _ hx))

theorem keys_adjust (m : CountMap) (k : String) (d : Int) :
    (adjust m k d).map Prod.fst = m.map Prod.fst ∨
    (adjust m k d).map Prod.fst = m.map Prod.fst ++ [k] ∧ k ∉ m.map Prod.fst := by
  induction m with
  | nil =>
    right
    exact ⟨rfl, by simp⟩
  | cons e rest ih =>
    unfold adjust
    by_cases he : e.1 = k
    · left
      rw [if_pos he]
      rfl
    · rw [if_neg he]
      rcases ih with h | ⟨h1, h2⟩
      · left
        show e.1 :: (adjust rest k d).map Prod.fst = e.1 :: rest.map Prod.fst
        rw [h]
      · right
        constructor
        · show e.1 :: (adjust rest k d).map Prod.fst = e.1 :: rest.map Prod.fst ++ [k]
          rw [h1]
          rfl
        · simp only [List.map_cons, List.mem_cons]
          rintro (h3 | h3)
          · exact he (h3.symm)
          · exact h2 h3

theorem keysNodup_adjust {m : CountMap} (k : String) (d : Int)
    (h : keysNodup m) : keysNodup (adjust m k d) := by
  rcases keys_adjust m k d with h1 | ⟨h1, h2⟩
  · show ((adjust m k d).map Prod.fst).Nodup
    rw [h1]
    exact h
  · show ((adjust m k d).map Prod.fst).Nodup
    rw [h1]
    simp only [List.nodup_append, List.nodup_cons]
    exact ⟨h, by simp, by simpa using h2⟩

theorem keysNodup_foldAdjust (f : String × Int → Int) (es : List (String × Int)) :
    ∀ m : CountMap, keysNodup m →
      keysNodup (es.foldl (fun acc e => adjust acc e.1 (f e)) m) := by
  induction es with
  | nil => intro m h; exact h
  | cons e rest ih =>
    intro m h
    rw [List.foldl_cons]
    exact ih _ (keysNodup_adjust e.1 (f e) h)

/-- Multiset counting of the tiles listed from a key-unique count map:
each key occurs `max(count, 0)` times. -/
theorem count_tilesOf {m : CountMap} (hnd : keysNodup m) (a : String) :
    (msOf m).count a = (getCount m a).toNat := by
  induction m with
  | nil => rfl
  | cons e rest ih =>
    have hnd1 : (e.1 :: rest.map Prod.fst).Nodup := hnd
    have hnd2 : keysNodup rest := (List.nodup_cons.1 hnd1).2
    have hhead : e.1 ∉ rest.map Prod.fst := (List.nodup_cons.1 hnd1).1
    have hcount : (msOf (e :: rest)).count a
        = (List.replicate e.2.toNat e.1).count a + (msOf rest).count a := by
      show ((List.replicate e.2.toNat e.1 ++ tilesOf rest : List String) : Multiset String).count a = _
      rw [← Multiset.coe_add, Multiset.count_add, Multiset.coe_count]
      rfl
    rw [hcount, ih hnd2]
    by_cases he : e.1 = a
    · have hnotin : a ∉ rest.map Prod.fst := by
        rw [← he]
        exact hhead
      rw [getCount_eq_zero_of_not_mem_keys hnotin]
      have hc : getCount (e :: rest) a = e.2 := by
        show (if e.1 = a then e.2 else lookupOr rest a 0) = e.2
        rw [if_pos he]
      rw [hc]
      simp [List.count_replicate, he]
    · have hc : getCount (e :: rest) a = getCount rest a := by
        show (if e.1 = a then e.2 else lookupOr rest a 0) = lookupOr rest a 0
        rw [if_neg he]
      rw [hc]
      simp [List.count_replicate, he]

/-- Pointwise effect of one `apply(u, 1)` fold on a count map: each key drops
by the usage's count for that key (keys of the usage snapshot are unique). -/
theorem getCount_applyFold (es : List (String × Int)) :
    ∀ (m : CountMap) (a : String), keysNodup es →
      getCount (es.foldl (fun acc e => adjust acc e.1 (-(1 * e.2))) m) a
        = getCount m a - getCount es a := by
  induction es with
  | nil =>
    intro m a _
    show getCount m a = getCount m a - 0
    omega
  | cons e rest ih =>
    intro m a hnd
    have hnd1 : (e.1 :: rest.map Prod.fst).Nodup := hnd
    have hnd2 : keysNodup rest := (List.nodup_cons.1 hnd1).2
    have hhead : e.1 ∉ rest.map Prod.fst := (List.nodup_cons.1 hnd1).1
    rw [List.foldl_cons, ih (adjust m e.1 (-(1 * e.2))) a hnd2, getCount_adjust]
    by_cases he : e.1 = a
    · have hz : getCount rest a = 0 :=
        getCount_eq_zero_of_not_mem_keys (by rw [← he]; exact hhead)
      have hc : getCount (e :: rest) a = e.2 := by
        show (if e.1 = a then e.2 else lookupOr rest a 0) = e.2
        rw [if_pos he]
      rw [hc, hz, if_pos he.symm]
      ring
    · have hc : getCount (e :: rest) a = getCount rest a := by
        show (if e.1 = a then e.2 else lookupOr rest a 0) = lookupOr rest a 0
        rw [if_neg he]
      rw [hc, if_neg (fun h => he h.symm)]
      ring

/-- Under the `fits` bound and nonnegative remaining counts, the usage's
per-key count is sandwiched between `0` and the remaining count. -/
theorem getCount_usage_bounds (es : List (String × Int)) (m : CountMap)
    (hnn : ∀ a, 0 ≤ getCount m a) (hpos : ∀ e ∈ es, 0 < e.2)
    (hfit : ∀ e ∈ es, e.2 ≤ getCount m e.1) (a : String) :
    0 ≤ getCount es a ∧ getCount es a ≤ getCount m a := by
  by_cases hz : getCount es a = 0
  · rw [hz]
    exact ⟨le_refl 0, hnn a⟩
  · obtain ⟨e, he, hk, hv⟩ := getCount_mem hz
    rw [hv]
    constructor
    · exact le_of_lt (hpos e he)
    · have := hfit e he
      rw [hk] at this
      exact this

/-- Multiset form of one `apply(u, 1)` fold: the tiles removed from the map
are exactly the usage's tiles. -/
theorem msOf_applyFold (es : List (String × Int)) (m : CountMap)
    (hndm : keysNodup m) (hndes : keysNodup es)
    (hnn : ∀ a, 0 ≤ getCount m a) (hpos : ∀ e ∈ es, 0 < e.2)
    (hfit : ∀ e ∈ es, e.2 ≤ getCount m e.1) :
    msOf (es.foldl (fun acc e => adjust acc e.1 (-(1 * e.2))) m) + msOf es = msOf m := by
  ext a
  rw [Multiset.count_add]
  rw [count_tilesOf (keysNodup_foldAdjust (fun e => -(1 * e.2)) es m hndm) a]
  rw [count_tilesOf hndes a, count_tilesOf hndm a]
  rw [getCount_applyFold es m a hndes]
  obtain ⟨h1, h2⟩ := getCount_usage_bounds es m hnn hpos hfit a
  omega

/-- A map entry with a positive count contributes its key to the listed
tiles. -/
theorem mem_tilesOf {m : CountMap} {e : String × Int} (he : e ∈ m) (hp : 0 < e.2) :
    e.1 ∈ tilesOf m := by
  induction m with
  | nil => simp at he
  | cons x rest ih =>
    show e.1 ∈ List.replicate x.2.toNat x.1 ++ tilesOf rest
    rcases List.mem_cons.1 he with h | h
    · subst h
      refine List.mem_append_left _ ?_
      rw [List.mem_replicate]
      constructor
      · omega
      · rfl
    · exact List.mem_append_right _ (ih h)

/-- When `bestDiscardInfo` reports a tile, that tile is a positive-count
entry of the remaining maps. -/
theorem bestDiscard_some {remS remD : CountMap} {t : String}
    (h : (bestDiscardInfo remS remD).1 = some t) :
    ∃ e, e ∈ remS ++ remD ∧ e.1 = t ∧ 0 < e.2 := by
  obtain ⟨hresS, _, _, _⟩ := discardFold_spec remS (none, XInt.bot)
  obtain ⟨hresD, _, _, _⟩ :=
    discardFold_spec remD (discardFold remS (none, XInt.bot))
  have hr : (discardFold remD (discardFold remS (none, XInt.bot))).1 = some t := h
  rcases hresD with hD | ⟨e, he, hp, heq⟩
  · rw [hD] at hr
    rcases hresS with hS | ⟨e, he, hp, heq⟩
    · rw [hS] at hr
      exact absurd hr (by simp)
    · rw [heq] at hr
      simp only [Option.some.injEq] at hr
      exact ⟨e, List.mem_append_left _ he, hr, hp⟩
  · rw [heq] at hr
    simp only [Option.some.injEq] at hr
    exact ⟨e, List.mem_append_right _ he, hr, hp⟩

theorem wordsMS_append (ws : List Cand) (w : Cand) :
    wordsMS (ws ++ [w]) = wordsMS ws + usageMS w.usage := by
  unfold wordsMS
  rw [List.map_append, List.sum_append]
  simp

/-- The discard tile (if any) plus the reported unused tiles of an evaluated
leaf are exactly the remaining tiles. -/
theorem evalPenalty_partition (noDiscard : Bool) (remS remD : CountMap) :
    discardMS (evalPenalty noDiscard remS remD).2.1
      + (((evalPenalty noDiscard remS remD).2.2 : List String) : Multiset String)
      = msOf remS + msOf remD := by
  unfold evalPenalty
  dsimp only
  split
  · show (0 : Multiset String)
        + ((tilesOf remS ++ tilesOf remD : List String) : Multiset String)
      = msOf remS + msOf remD
    rw [zero_add, ← Multiset.coe_add]
    rfl
  · cases hbd : (bestDiscardInfo remS remD).1 with
    | none =>
      show (0 : Multiset String)
          + ((tilesOf remS ++ tilesOf remD : List String) : Multiset String)
        = msOf remS + msOf remD
      rw [zero_add, ← Multiset.coe_add]
      rfl
    | some t =>
      show ({t} : Multiset String)
          + (((listRemainingTiles remS remD).erase t : List String) : Multiset String)
        = msOf remS + msOf remD
      obtain ⟨e, he, hk, hp⟩ := bestDiscard_some hbd
      have ht : t ∈ listRemainingTiles remS remD := by
        rcases List.mem_append.1 he with h | h
        · exact List.mem_append_left _ (hk ▸ mem_tilesOf h hp)
        · exact List.mem_append_right _ (hk ▸ mem_tilesOf h hp)
      have hperm : (listRemainingTiles remS remD).Perm
          (t :: (listRemainingTiles remS remD).erase t) := List.perm_cons_erase ht
      have hcoe : ((listRemainingTiles remS remD : List String) : Multiset String)
          = (((t :: (listRemainingTiles remS remD).erase t) : List String) : Multiset String) :=
        Multiset.coe_eq_coe.2 hperm
      rw [Multiset.singleton_add]
      show (((t :: (listRemainingTiles remS remD).erase t) : List String) : Multiset String)
        = msOf remS + msOf remD
      rw [← hcoe]
      show ((tilesOf remS ++ tilesOf remD : List String) : Multiset String)
        = msOf remS + msOf remD
      rw [← Multiset.coe_add]
      rfl

/-- `evalCurrent` preserves the conservation invariant: when it records the
current selection, the discard/unused fields it stores partition the
remaining tiles. -/
theorem evalCurrent_inv (p : ChooseParams) (s : CPState) (R : Multiset String)
    (h : searchInv R s) : searchInv R (evalCurrent p s) := by
  obtain ⟨h1, h2, h3, h4, h5, h6⟩ := h
  unfold evalCurrent
  dsimp only
  split
  · exact ⟨h1, h2, h3, h4, h5, h6⟩
  · split
    · refine ⟨h1, h2, h3, h4, h5, Or.inr ⟨s.cur.words, rfl, ?_⟩⟩
      show wordsMS s.cur.words
          + discardMS (evalPenalty p.noDiscard s.remS s.remD).2.1
          + (((evalPenalty p.noDiscard s.remS s.remD).2.2 : List String) : Multiset String) = R
      rw [add_assoc, evalPenalty_partition p.noDiscard s.remS s.remD, ← add_assoc]
      exact h5
    · exact ⟨h1, h2, h3, h4, h5, h6⟩

/-- Including a fitting candidate preserves the conservation invariant: the
tiles its usage removes from the remaining maps reappear in the chosen-word
multiset. -/
theorem searchInv_apply (R : Multiset String) {w : Cand} {s : CPState}
    (hOK : usageOK w.usage) (hfit : fits w.usage s.remS s.remD = true)
    (hs : searchInv R s) :
    searchInv R
      { remS := (applyUsage w.usage 1 s.remS s.remD).1,
        remD := (applyUsage w.usage 1 s.remS s.remD).2,
        cur := { baseScore := s.cur.baseScore + w.score,
                 words := s.cur.words ++ [w],
                 longest := max s.cur.longest w.length,
                 count := s.cur.count + 1 },
        best := s.best } := by
  obtain ⟨h1, h2, h3, h4, h5, h6⟩ := hs
  obtain ⟨⟨hndS, hndD⟩, hposS, hposD⟩ := hOK
  simp only [fits, Bool.and_eq_true, List.all_eq_true, decide_eq_true_eq] at hfit
  have heqS : (applyUsage w.usage 1 s.remS s.remD).1
      = w.usage.singleCounts.foldl (fun m e => adjust m e.1 (-(1 * e.2))) s.remS := rfl
  have heqD : (applyUsage w.usage 1 s.remS s.remD).2
      = w.usage.digraphCounts.foldl (fun m e => adjust m e.1 (-(1 * e.2))) s.remD := rfl
  refine ⟨?_, ?_, ?_, ?_, ?_, h6⟩
  · show keysNodup (applyUsage w.usage 1 s.remS s.remD).1
    rw [heqS]
    exact keysNodup_foldAdjust (fun e => -(1 * e.2)) w.usage.singleCounts s.remS h1
  · show keysNodup (applyUsage w.usage 1 s.remS s.remD).2
    rw [heqD]
    exact keysNodup_foldAdjust (fun e => -(1 * e.2)) w.usage.digraphCounts s.remD h2
  · intro a
    show 0 ≤ getCount (applyUsage w.usage 1 s.remS s.remD).1 a
    rw [heqS, getCount_applyFold w.usage.singleCounts s.remS a hndS]
    obtain ⟨hb1, hb2⟩ := getCount_usage_bounds w.usage.singleCounts s.remS h3 hposS hfit.1 a
    omega
  · intro a
    show 0 ≤ getCount (applyUsage w.usage 1 s.remS s.remD).2 a
    rw [heqD, getCount_applyFold w.usage.digraphCounts s.remD a hndD]
    obtain ⟨hb1, hb2⟩ := getCount_usage_bounds w.usage.digraphCounts s.remD h4 hposD hfit.2 a
    omega
  · show wordsMS (s.cur.words ++ [w]) + msOf (applyUsage w.usage 1 s.remS s.remD).1
        + msOf (applyUsage w.usage 1 s.remS s.remD).2 = R
    rw [wordsMS_append]
    have hA : msOf (applyUsage w.usage 1 s.remS s.remD).1 + msOf w.usage.singleCounts
        = msOf s.remS := by
      rw [heqS]
      exact msOf_applyFold w.usage.singleCounts s.remS h1 hndS h3 hposS hfit.1
    have hB : msOf (applyUsage w.usage 1 s.remS s.remD).2 + msOf w.usage.digraphCounts
        = msOf s.remD := by
      rw [heqD]
      exact msOf_applyFold w.usage.digraphCounts s.remD h2 hndD h4 hposD hfit.2
    have hU : usageMS w.usage = msOf w.usage.singleCounts + msOf w.usage.digraphCounts := rfl
    rw [← h5, ← hA, ← hB, hU]
    abel

/-- One include/restore round of the selection search preserves the
conservation invariant, for any continuation `F` that preserves it. -/
theorem cp_inv_step (R : Multiset String) (F : CPState → CPState)
    (hF : ∀ s2 : CPState, searchInv R s2 → searchInv R (F s2))
    {w : Cand} {s sRec sPop : CPState}
    (hOK : usageOK w.usage)
    (hfit : fits w.usage s.remS s.remD = true)
    (hPop : sPop = { sRec with remS := (applyUsage w.usage (-1) sRec.remS sRec.remD).1, remD := (applyUsage w.usage (-1) sRec.remS sRec.remD).2, cur := { baseScore := sRec.cur.baseScore - w.score, words := sRec.cur.words.dropLast, longest := s.cur.longest, count := sRec.cur.count - 1 } })
    (h1 : sRec.remS = (applyUsage w.usage 1 s.remS s.remD).1)
    (h2 : sRec.remD = (applyUsage w.usage 1 s.remS s.remD).2)
    (h3 : sRec.cur = { baseScore := s.cur.baseScore + w.score,
                       words := s.cur.words ++ [w],
                       longest := max s.cur.longest w.length,
                       count := s.cur.count + 1 })
    (hrec : searchInv R sRec)
    (hs : searchInv R s) :
    searchInv R (F sPop) := by
  apply hF
  have f1 : sPop.remS = s.remS := by
    rw [hPop]
    show (applyUsage w.usage (-1) sRec.remS sRec.remD).1 = s.remS
    rw [h1, h2]
    exact (applyUsage_cancel w.usage s.remS s.remD hOK hfit).1
  have f2 : sPop.remD = s.remD := by
    rw [hPop]
    show (applyUsage w.usage (-1) sRec.remS sRec.remD).2 = s.remD
    rw [h1, h2]
    exact (applyUsage_cancel w.usage s.remS s.remD hOK hfit).2
  have fw : sPop.cur.words = s.cur.words := by
    rw [hPop]
    show sRec.cur.words.dropLast = s.cur.words
    rw [h3]
    exact List.dropLast_concat
  obtain ⟨g1, g2, g3, g4, g5, g6⟩ := hs
  obtain ⟨k1, k2, k3, k4, k5, k6⟩ := hrec
  have fbest : sPop.best = sRec.best := by rw [hPop]
  refine ⟨?_, ?_, ?_, ?_, ?_, ?_⟩
  · rw [f1]; exact g1
  · rw [f2]; exact g2
  · rw [f1]; exact g3
  · rw [f2]; exact g4
  · rw [fw, f1, f2]
    exact g5
  · rw [fbest]
    exact k6

/-- The pruned selection search preserves the conservation invariant. -/
theorem cpDfs_searchInv (p : ChooseParams) (R : Multiset String) :
    ∀ (cands : List Cand) (s : CPState), (∀ w ∈ cands, usageOK w.usage) →
      searchInv R s → searchInv R (cpDfs p cands s) := by
  intro cands
  induction cands with
  | nil =>
    intro s _ h
    rw [cpDfs]
    split
    · exact h
    · exact evalCurrent_inv p s R h
  | cons w rest ih =>
    intro s hok h
    have hok2 : ∀ x ∈ rest, usageOK x.usage := fun x hx => hok x (List.mem_cons_of_mem _ hx)
    have hokw : usageOK w.usage := hok w (List.mem_cons_self _ _)
    rw [cpDfs]
    dsimp only
    split
    · exact h
    · by_cases hfit : fits w.usage s.remS s.remD = true
      · rw [if_pos hfit]
        have hIn : searchInv R
            { remS := (applyUsage w.usage 1 s.remS s.remD).1,
              remD := (applyUsage w.usage 1 s.remS s.remD).2,
              cur := { baseScore := s.cur.baseScore + w.score, words := s.cur.words ++ [w],
                       longest := max s.cur.longest w.length, count := s.cur.count + 1 },
              best := s.best } := searchInv_apply R hokw hfit h
        have hrec := ih
          { remS := (applyUsage w.usage 1 s.remS s.remD).1,
            remD := (applyUsage w.usage 1 s.remS s.remD).2,
            cur := { baseScore := s.cur.baseScore + w.score, words := s.cur.words ++ [w],
                     longest := max s.cur.longest w.length, count := s.cur.count + 1 },
            best := s.best } hok2 hIn
        obtain ⟨r1, r2, r3⟩ := cpDfs_restore p rest
          { remS := (applyUsage w.usage 1 s.remS s.remD).1,
            remD := (applyUsage w.usage 1 s.remS s.remD).2,
            cur := { baseScore := s.cur.baseScore + w.score, words := s.cur.words ++ [w],
                     longest := max s.cur.longest w.length, count := s.cur.count + 1 },
            best := s.best } hok2
        exact cp_inv_step R (cpDfs p rest) (fun s2 => ih s2 hok2) hokw hfit rfl r1 r2 r3 hrec h
      · rw [if_neg hfit]
        exact ih s hok2 h

/-- Counterexample to claim C2 as stated: nothing in `chooseBestPlay` forbids
a candidate whose usage map carries a negative count; such a candidate passes
`fits`, and "applying" it adds a tile to the remaining maps.  On the rack
`{a: 1}` the candidate below is recorded as a play, yet the usages of the
chosen words plus the discard plus the reported unused tiles count the tile
`a` twice while the rack holds it once — the partition fails. -/
theorem claim_C2_counterexample :
    fits ({ word := "x", score := 5,
            usage := { singleCounts := [("a", -1)], digraphCounts := [] },
            length := 1 } : Cand).usage [("a", 1)] [] = true ∧
    chooseBestPlay
        [{ word := "x", score := 5,
           usage := { singleCounts := [("a", -1)], digraphCounts := [] }, length := 1 }]
        { singleCounts := [("a", 1)], digraphCounts := [] }
        { currentLongest := XInt.top, currentMost := XInt.top, noDiscard := true,
          longestBonus := 0, mostBonus := 0 }
      = { words := [("x", 5)], baseScore := XInt.fin 5, leftoverValue := XInt.fin 4,
          bonusLongest := 0, bonusMost := 0, totalScore := XInt.fin 1,
          longestWordLength := 1, wordCount := 1, discardTile := none,
          unusedTiles := ["a", "a"] } ∧
    Multiset.count "a"
        (wordsMS [{ word := "x", score := 5,
                    usage := { singleCounts := [("a", -1)], digraphCounts := [] },
                    length := 1 }]
          + discardMS none + ((["a", "a"] : List String) : Multiset String)) = 2 ∧
    Multiset.count "a"
        (rackMS { singleCounts := [("a", 1)], digraphCounts := [] }) = 1 := by
  refine ⟨by decide, by decide, by decide, by decide⟩

/-- Claim C2 (amended): for candidates with well-formed positive usage maps
and a well-formed nonnegative rack, any recorded best play partitions the
rack — the multiset sum of the chosen words' usages, the discard tile (if
any) and the reported unused tiles equals the rack multiset exactly, so no
token is invented, lost, or consumed by two words; and the `fits` guard
keeps every remaining count nonnegative when a candidate is applied. -/
theorem claim_C2_amended :
    (∀ (p : ChooseParams) (cands : List Cand) (rc : RackCounts),
      wfCounts rc → nonnegCounts rc.singleCounts → nonnegCounts rc.digraphCounts →
      (∀ w ∈ cands, usageOK w.usage) →
      chooseBestPlay cands rc p = packResult initBest ∨
      ∃ S : List Cand,
        (chooseBestPlay cands rc p).words = S.map (fun w => (w.word, w.score)) ∧
        wordsMS S + discardMS (chooseBestPlay cands rc p).discardTile
          + (((chooseBestPlay cands rc p).unusedTiles : List String) : Multiset String)
          = rackMS rc) ∧
    (∀ (u : RackCounts) (remS remD : CountMap),
      usageOK u → fits u remS remD = true →
      (∀ a, 0 ≤ getCount remS a) → (∀ a, 0 ≤ getCount remD a) →
      (∀ a, 0 ≤ getCount (applyUsage u 1 remS remD).1 a) ∧
      (∀ a, 0 ≤ getCount (applyUsage u 1 remS remD).2 a)) := by
  constructor
  · intro p cands rc hwf hnnS hnnD hok
    have hok2 : ∀ w ∈ sortCands cands, usageOK w.usage :=
      fun w hw => hok w (mem_sortCands hw)
    have hinit : searchInv (rackMS rc) (initCPState rc) := by
      refine ⟨hwf.1, hwf.2, getCount_nonneg hnnS, getCount_nonneg hnnD, ?_, Or.inl rfl⟩
      show wordsMS [] + msOf rc.singleCounts + msOf rc.digraphCounts = rackMS rc
      simp [wordsMS, rackMS]
    have hfin := cpDfs_searchInv p (rackMS rc) (sortCands cands) (initCPState rc) hok2 hinit
    rcases hfin.2.2.2.2.2 with hbest | ⟨S, hw, hpart⟩
    · left
      show packResult (cpDfs p (sortCands cands) (initCPState rc)).best = packResult initBest
      rw [hbest]
    · right
      exact ⟨S, hw, hpart⟩
  · intro u remS remD hOK hfit hnnS hnnD
    obtain ⟨⟨hndS, hndD⟩, hposS, hposD⟩ := hOK
    simp only [fits, Bool.and_eq_true, List.all_eq_true, decide_eq_true_eq] at hfit
    have heqS : (applyUsage u 1 remS remD).1
        = u.singleCounts.foldl (fun m e => adjust m e.1 (-(1 * e.2))) remS := rfl
    have heqD : (applyUsage u 1 remS remD).2
        = u.digraphCounts.foldl (fun m e => adjust m e.1 (-(1 * e.2))) remD := rfl
    constructor
    · intro a
      rw [heqS, getCount_applyFold u.singleCounts remS a hndS]
      obtain ⟨hb1, hb2⟩ := getCount_usage_bounds u.singleCounts remS hnnS hposS hfit.1 a
      omega
    · intro a
      rw [heqD, getCount_applyFold u.digraphCounts remD a hndD]
      obtain ⟨hb1, hb2⟩ := getCount_usage_bounds u.digraphCounts remD hnnD hposD hfit.2 a
      omega

/-- Witness for C2 at a concrete input: the single candidate `a` on the rack
`{a: 1}` yields a recorded play, and the partition conclusion holds. -/
theorem claim_C2_witness :
    (chooseBestPlay
        [{ word := "a", score := 2,
           usage := { singleCounts := [("a", 1)], digraphCounts := [] }, length := 1 }]
        { singleCounts := [("a", 1)], digraphCounts := [] }
        { currentLongest := XInt.top, currentMost := XInt.top, noDiscard := true,
          longestBonus := 10, mostBonus := 10 }
      = packResult initBest) ∨
    ∃ S : List Cand,
      (chooseBestPlay
          [{ word := "a", score := 2,
             usage := { singleCounts := [("a", 1)], digraphCounts := [] }, length := 1 }]
          { singleCounts := [("a", 1)], digraphCounts := [] }
          { currentLongest := XInt.top, currentMost := XInt.top, noDiscard := true,
            longestBonus := 10, mostBonus := 10 }).words
        = S.map (fun w => (w.word, w.score)) ∧
      wordsMS S
        + discardMS (chooseBestPlay
            [{ word := "a", score := 2,
               usage := { singleCounts := [("a", 1)], digraphCounts := [] }, length := 1 }]
            { singleCounts := [("a", 1)], digraphCounts := [] }
            { currentLongest := XInt.top, currentMost := XInt.top, noDiscard := true,
              longestBonus := 10, mostBonus := 10 }).discardTile
        + (((chooseBestPlay
            [{ word := "a", score := 2,
               usage := { singleCounts := [("a", 1)], digraphCounts := [] }, length := 1 }]
            { singleCounts := [("a", 1)], digraphCounts := [] }
            { currentLongest := XInt.top, currentMost := XInt.top, noDiscard := true,
              longestBonus := 10, mostBonus := 10 }).unusedTiles : List String) : Multiset String)
        = rackMS { singleCounts := [("a", 1)], digraphCounts := [] } := by
  have hok : ∀ w ∈ [({ word := "a", score := 2, usage := { singleCounts := [("a", 1)], digraphCounts := [] }, length := 1 } : Cand)], usageOK w.usage := by
    intro w hw
    simp only [List.mem_singleton] at hw
    subst hw
    unfold usageOK wfCounts keysNodup posCounts
    refine ⟨⟨?_, ?_⟩, ?_, ?_⟩ <;> simp
  exact claim_C2_amended.1
    { currentLongest := XInt.top, currentMost := XInt.top, noDiscard := true,
      longestBonus := 10, mostBonus := 10 }
    [{ word := "a", score := 2,
       usage := { singleCounts := [("a", 1)], digraphCounts := [] }, length := 1 }]
    { singleCounts := [("a", 1)], digraphCounts := [] }
    (by unfold wfCounts keysNodup; exact ⟨by simp, by simp⟩)
    (by intro e he; simp only [List.mem_singleton] at he; subst he; decide)
    (by intro e he; simp at he)
    hok

/-! ## Admissibility of the upper-bound pruning -/

theorem lookupOr_nonneg {m : CountMap} {dflt : Int} (hm : ∀ e ∈ m, 0 ≤ e.2)
    (hd : 0 ≤ dflt) (k : String) : 0 ≤ lookupOr m k dflt := by
  induction m with
  | nil => exact hd
  | cons e rest ih =>
    show 0 ≤ (if e.1 = k then e.2 else lookupOr rest k dflt)
    split
    · exact hm e (List.mem_cons_self _ _)
    · exact ih (fun x hx => hm x (List.mem_cons_of_mem _ hx))

theorem cardScore_nonneg (t : String) : 0 ≤ cardScore t :=
  lookupOr_nonneg (by decide) (le_refl 0) t

theorem getCount_of_mem_nodup {m : CountMap} (hnd : keysNodup m) {e : String × Int}
    (he : e ∈ m) : getCount m e.1 = e.2 := by
  induction m with
  | nil => simp at he
  | cons x rest ih =>
    have hnd1 : (x.1 :: rest.map Prod.fst).Nodup := hnd
    have hnd2 : keysNodup rest := (List.nodup_cons.1 hnd1).2
    have hhead : x.1 ∉ rest.map Prod.fst := (List.nodup_cons.1 hnd1).1
    rcases List.mem_cons.1 he with h | h
    · subst h
      show (if e.1 = e.1 then e.2 else lookupOr rest e.1 0) = e.2
      rw [if_pos rfl]
    · have hne : x.1 ≠ e.1 := by
        intro hc
        exact hhead (hc ▸ List.mem_map.2 ⟨e, h, rfl⟩)
      show (if x.1 = e.1 then x.2 else lookupOr rest e.1 0) = e.2
      rw [if_neg hne]
      exact ih hnd2 h

theorem sumVal_nonneg {m : CountMap} (hnd : keysNodup m)
    (hnn : ∀ a, 0 ≤ getCount m a) :
    0 ≤ (m.map (fun e => cardScore e.1 * e.2)).sum := by
  apply List.sum_nonneg
  intro x hx
  obtain ⟨e, he, hxe⟩ := List.mem_map.1 hx
  rw [← hxe]
  have hv : 0 ≤ e.2 := by
    have := getCount_of_mem_nodup hnd he
    have := hnn e.1
    omega
  exact mul_nonneg (cardScore_nonneg e.1) hv

theorem sumVal_single_le {m : CountMap} (hnd : keysNodup m)
    (hnn : ∀ a, 0 ≤ getCount m a) {e : String × Int} (he : e ∈ m) (hp : 0 < e.2) :
    cardScore e.1 ≤ (m.map (fun e => cardScore e.1 * e.2)).sum := by
  have hterm : cardScore e.1 * e.2 ∈ m.map (fun e => cardScore e.1 * e.2) :=
    List.mem_map.2 ⟨e, he, rfl⟩
  have hle : cardScore e.1 * e.2 ≤ (m.map (fun e => cardScore e.1 * e.2)).sum := by
    apply List.single_le_sum ?_ _ hterm
    intro x hx
    obtain ⟨e2, he2, hxe⟩ := List.mem_map.1 hx
    rw [← hxe]
    have hv : 0 ≤ e2.2 := by
      have := getCount_of_mem_nodup hnd he2
      have := hnn e2.1
      omega
    exact mul_nonneg (cardScore_nonneg e2.1) hv
  have hone : cardScore e.1 * 1 ≤ cardScore e.1 * e.2 :=
    mul_le_mul_of_nonneg_left (by omega) (cardScore_nonneg e.1)
  omega

/-- The leaf penalty is nonnegative: the full remaining value is a sum of
nonnegative terms, and a discard tile's value never exceeds it. -/
theorem evalPenalty_nonneg (nd : Bool) {remS remD : CountMap}
    (hndS : keysNodup remS) (hndD : keysNodup remD)
    (hnnS : ∀ a, 0 ≤ getCount remS a) (hnnD : ∀ a, 0 ≤ getCount remD a) :
    0 ≤ (evalPenalty nd remS remD).1 := by
  have hS := sumVal_nonneg hndS hnnS
  have hD := sumVal_nonneg hndD hnnD
  unfold evalPenalty
  dsimp only
  split
  · show 0 ≤ remainingValue remS remD
    unfold remainingValue
    omega
  · show 0 ≤ remainingValue remS remD - (bestDiscardInfo remS remD).2
    obtain ⟨hresS, _, _, _⟩ := discardFold_spec remS (none, XInt.bot)
    obtain ⟨hresD, _, _, _⟩ :=
      discardFold_spec remD (discardFold remS (none, XInt.bot))
    have hcase : (bestDiscardInfo remS remD).2 = 0 ∨
        ∃ e, e ∈ remS ++ remD ∧ 0 < e.2 ∧
          (bestDiscardInfo remS remD).2 = cardScore e.1 := by
      rcases hresD with hD0 | ⟨e, he, hp, heq⟩
      · rcases hresS with hS0 | ⟨e, he, hp, heq⟩
        · left
          show (match (discardFold remD (discardFold remS (none, XInt.bot))).2 with
                | XInt.bot => (0 : Int) | XInt.fin v => v | XInt.top => 0) = (0 : Int)
          rw [hD0, hS0]
        · right
          refine ⟨e, List.mem_append_left _ he, hp, ?_⟩
          show (match (discardFold remD (discardFold remS (none, XInt.bot))).2 with
                | XInt.bot => (0 : Int) | XInt.fin v => v | XInt.top => 0) = cardScore e.1
          rw [hD0, heq]
      · right
        refine ⟨e, List.mem_append_right _ he, hp, ?_⟩
        show (match (discardFold remD (discardFold remS (none, XInt.bot))).2 with
              | XInt.bot => (0 : Int) | XInt.fin v => v | XInt.top => 0) = cardScore e.1
        rw [heq]
    rcases hcase with h0 | ⟨e, he, hp, heq⟩
    · rw [h0]
      show 0 ≤ remainingValue remS remD - 0
      unfold remainingValue
      omega
    · rw [heq]
      rcases List.mem_append.1 he with h | h
      · have := sumVal_single_le hndS hnnS h hp
        unfold remainingValue
        omega
      · have := sumVal_single_le hndD hnnD h hp
        unfold remainingValue
        omega

/-- The leaf total is at most the accumulated base score plus both bonus
parameters, whenever the penalty, the base and the bonuses are nonnegative. -/
theorem evalTotal_le (p : ChooseParams) (cur : CurRec) (pen : Int)
    (hpen : 0 ≤ pen) (hbase : 0 ≤ cur.baseScore)
    (hlb : 0 ≤ p.longestBonus) (hmb : 0 ≤ p.mostBonus) :
    (evalTotal p cur pen).2.2 ≤ cur.baseScore + p.longestBonus + p.mostBonus := by
  unfold evalTotal
  dsimp only
  split <;> split <;> omega

theorem XInt.leb_fin_mono {a b : Int} {c : XInt} (hab : a ≤ b)
    (h : XInt.leb (XInt.fin b) c = true) : XInt.leb (XInt.fin a) c = true := by
  cases c <;> simp [XInt.leb, XInt.ltb] at * <;> omega

theorem XInt.ltb_false_of_leb_fin {b : Int} {c : XInt} {t : Int}
    (h : XInt.leb (XInt.fin b) c = true) (htb : t ≤ b) :
    XInt.ltb c (XInt.fin t) = false := by
  cases c <;> simp [XInt.leb, XInt.ltb] at * <;> omega

/-- When the upper bound at the current node is already no better than the
best total, the leaf evaluation never replaces the best record. -/
theorem evalCurrent_noop (p : ChooseParams) (s : CPState)
    (hinv : boundInv s)
    (hleb : XInt.leb
        (XInt.fin (s.cur.baseScore + remainingValue s.remS s.remD
          + p.longestBonus + p.mostBonus))
        s.best.totalScore = true)
    (hlb : 0 ≤ p.longestBonus) (hmb : 0 ≤ p.mostBonus) :
    evalCurrent p s = s := by
  obtain ⟨h1, h2, h3, h4, h5⟩ := hinv
  have hpen : 0 ≤ (evalPenalty p.noDiscard s.remS s.remD).1 :=
    evalPenalty_nonneg p.noDiscard h1 h2 h3 h4
  have hrv : 0 ≤ remainingValue s.remS s.remD := by
    have hS := sumVal_nonneg h1 h3
    have hD := sumVal_nonneg h2 h4
    unfold remainingValue
    omega
  have htot : (evalTotal p s.cur (evalPenalty p.noDiscard s.remS s.remD).1).2.2
      ≤ s.cur.baseScore + remainingValue s.remS s.remD + p.longestBonus + p.mostBonus := by
    have := evalTotal_le p s.cur (evalPenalty p.noDiscard s.remS s.remD).1 hpen h5 hlb hmb
    omega
  have hlt : XInt.ltb s.best.totalScore
      (XInt.fin (evalTotal p s.cur (evalPenalty p.noDiscard s.remS s.remD).1).2.2) = false :=
    XInt.ltb_false_of_leb_fin hleb htot
  unfold evalCurrent
  dsimp only
  split
  · rfl
  · split
    · next hcond =>
        rw [hlt] at hcond
        exact absurd hcond (by simp)
    · rfl

theorem CPState.ext4 {a b : CPState} (h1 : a.remS = b.remS) (h2 : a.remD = b.remD)
    (h3 : a.cur = b.cur) (h4 : a.best = b.best) : a = b := by
  cases a
  cases b
  dsimp only at h1 h2 h3 h4
  subst h1
  subst h2
  subst h3
  subst h4
  rfl

theorem sumVal_adjust (m : CountMap) (k : String) (d : Int) :
    ((adjust m k d).map (fun e => cardScore e.1 * e.2)).sum
      = (m.map (fun e => cardScore e.1 * e.2)).sum + cardScore k * d := by
  induction m with
  | nil => simp [adjust]
  | cons e rest ih =>
    unfold adjust
    by_cases he : e.1 = k
    · rw [if_pos he]
      simp only [List.map_cons, List.sum_cons]
      rw [he]
      ring
    · rw [if_neg he]
      simp only [List.map_cons, List.sum_cons]
      rw [ih]
      ring

theorem sumVal_applyFold (es : List (String × Int)) :
    ∀ m : CountMap,
      ((es.foldl (fun acc e => adjust acc e.1 (-(1 * e.2))) m).map
        (fun e => cardScore e.1 * e.2)).sum
      = (m.map (fun e => cardScore e.1 * e.2)).sum
        - (es.map (fun e => cardScore e.1 * e.2)).sum := by
  induction es with
  | nil => intro m; simp
  | cons e rest ih =>
    intro m
    rw [List.foldl_cons, ih, sumVal_adjust]
    simp only [List.map_cons, List.sum_cons]
    ring

/-- Value conservation of `apply(u, 1)`: the remaining value drops by exactly
the usage's value. -/
theorem remVal_apply (u : RackCounts) (remS remD : CountMap) :
    remainingValue (applyUsage u 1 remS remD).1 (applyUsage u 1 remS remD).2
      = remainingValue remS remD - usageValue u := by
  have heqS : (applyUsage u 1 remS remD).1
      = u.singleCounts.foldl (fun m e => adjust m e.1 (-(1 * e.2))) remS := rfl
  have heqD : (applyUsage u 1 remS remD).2
      = u.digraphCounts.foldl (fun m e => adjust m e.1 (-(1 * e.2))) remD := rfl
  unfold remainingValue usageValue remainingValue
  rw [heqS, heqD, sumVal_applyFold, sumVal_applyFold]
  ring

/-- Including a fitting candidate with a well-formed usage preserves the
admissibility invariant. -/
theorem boundInv_apply {w : Cand} {s : CPState} (hok : candOK w)
    (hfit : fits w.usage s.remS s.remD = true) (h : boundInv s) :
    boundInv
      { remS := (applyUsage w.usage 1 s.remS s.remD).1,
        remD := (applyUsage w.usage 1 s.remS s.remD).2,
        cur := { baseScore := s.cur.baseScore + w.score,
                 words := s.cur.words ++ [w],
                 longest := max s.cur.longest w.length,
                 count := s.cur.count + 1 },
        best := s.best } := by
  obtain ⟨h1, h2, h3, h4, h5⟩ := h
  obtain ⟨⟨⟨hndS, hndD⟩, hposS, hposD⟩, hsc, _⟩ := hok
  simp only [fits, Bool.and_eq_true, List.all_eq_true, decide_eq_true_eq] at hfit
  have heqS : (applyUsage w.usage 1 s.remS s.remD).1
      = w.usage.singleCounts.foldl (fun m e => adjust m e.1 (-(1 * e.2))) s.remS := rfl
  have heqD : (applyUsage w.usage 1 s.remS s.remD).2
      = w.usage.digraphCounts.foldl (fun m e => adjust m e.1 (-(1 * e.2))) s.remD := rfl
  refine ⟨?_, ?_, ?_, ?_, ?_⟩
  · show keysNodup (applyUsage w.usage 1 s.remS s.remD).1
    rw [heqS]
    exact keysNodup_foldAdjust (fun e => -(1 * e.2)) w.usage.singleCounts s.remS h1
  · show keysNodup (applyUsage w.usage 1 s.remS s.remD).2
    rw [heqD]
    exact keysNodup_foldAdjust (fun e => -(1 * e.2)) w.usage.digraphCounts s.remD h2
  · intro a
    show 0 ≤ getCount (applyUsage w.usage 1 s.remS s.remD).1 a
    rw [heqS, getCount_applyFold w.usage.singleCounts s.remS a hndS]
    obtain ⟨hb1, hb2⟩ := getCount_usage_bounds w.usage.singleCounts s.remS h3 hposS hfit.1 a
    omega
  · intro a
    show 0 ≤ getCount (applyUsage w.usage 1 s.remS s.remD).2 a
    rw [heqD, getCount_applyFold w.usage.digraphCounts s.remD a hndD]
    obtain ⟨hb1, hb2⟩ := getCount_usage_bounds w.usage.digraphCounts s.remD h4 hposD hfit.2 a
    omega
  · show 0 ≤ s.cur.baseScore + w.score
    omega

/-- One include/restore round of the unpruned search at a node whose bound
is dominated: if the continuation leaves `s` unchanged, the whole round
returns `s`. -/
theorem cp_noop_step (F : CPState → CPState)
    {w : Cand} {s sRec sPop : CPState}
    (hFs : F s = s)
    (hOK : usageOK w.usage)
    (hfit : fits w.usage s.remS s.remD = true)
    (hPop : sPop = { sRec with remS := (applyUsage w.usage (-1) sRec.remS sRec.remD).1, remD := (applyUsage w.usage (-1) sRec.remS sRec.remD).2, cur := { baseScore := sRec.cur.baseScore - w.score, words := sRec.cur.words.dropLast, longest := s.cur.longest, count := sRec.cur.count - 1 } })
    (h1 : sRec.remS = (applyUsage w.usage 1 s.remS s.remD).1)
    (h2 : sRec.remD = (applyUsage w.usage 1 s.remS s.remD).2)
    (h3 : sRec.cur = { baseScore := s.cur.baseScore + w.score,
                       words := s.cur.words ++ [w],
                       longest := max s.cur.longest w.length,
                       count := s.cur.count + 1 })
    (h4 : sRec.best = s.best) :
    F sPop = s := by
  have f1 : sPop.remS = s.remS := by
    rw [hPop]
    show (applyUsage w.usage (-1) sRec.remS sRec.remD).1 = s.remS
    rw [h1, h2]
    exact (applyUsage_cancel w.usage s.remS s.remD hOK hfit).1
  have f2 : sPop.remD = s.remD := by
    rw [hPop]
    show (applyUsage w.usage (-1) sRec.remS sRec.remD).2 = s.remD
    rw [h1, h2]
    exact (applyUsage_cancel w.usage s.remS s.remD hOK hfit).2
  have f3 : sPop.cur = s.cur := by
    rw [hPop]
    show ({ baseScore := sRec.cur.baseScore - w.score, words := sRec.cur.words.dropLast,
            longest := s.cur.longest, count := sRec.cur.count - 1 } : CurRec) = s.cur
    rw [h3]
    dsimp only
    rw [add_sub_cancel_right, List.dropLast_concat, Nat.add_sub_cancel]
  have f4 : sPop.best = s.best := by
    rw [hPop]
    exact h4
  have hsp : sPop = s := CPState.ext4 f1 f2 f3 f4
  rw [hsp]
  exact hFs

/-- Admissibility: when the node's upper bound is already no better than the
best total, the entire unpruned subtree search changes nothing — every leaf
below the node evaluates to a total at most the bound. -/
theorem cpDfsNoPrune_noop (p : ChooseParams) (hlb : 0 ≤ p.longestBonus)
    (hmb : 0 ≤ p.mostBonus) :
    ∀ (cands : List Cand) (s : CPState), (∀ w ∈ cands, candOK w) → boundInv s →
      XInt.leb
        (XInt.fin (s.cur.baseScore + remainingValue s.remS s.remD
          + p.longestBonus + p.mostBonus))
        s.best.totalScore = true →
      cpDfsNoPrune p cands s = s := by
  intro cands
  induction cands with
  | nil =>
    intro s _ hinv hleb
    exact evalCurrent_noop p s hinv hleb hlb hmb
  | cons w rest ih =>
    intro s hok hinv hleb
    have hok2 : ∀ x ∈ rest, candOK x := fun x hx => hok x (List.mem_cons_of_mem _ hx)
    have hokw : candOK w := hok w (List.mem_cons_self _ _)
    rw [cpDfsNoPrune]
    dsimp only
    by_cases hfit : fits w.usage s.remS s.remD = true
    · rw [if_pos hfit]
      have hInInv : boundInv
          { remS := (applyUsage w.usage 1 s.remS s.remD).1,
            remD := (applyUsage w.usage 1 s.remS s.remD).2,
            cur := { baseScore := s.cur.baseScore + w.score, words := s.cur.words ++ [w],
                     longest := max s.cur.longest w.length, count := s.cur.count + 1 },
            best := s.best } := boundInv_apply hokw hfit hinv
      have hubIn : s.cur.baseScore + w.score
          + remainingValue (applyUsage w.usage 1 s.remS s.remD).1
              (applyUsage w.usage 1 s.remS s.remD).2
          + p.longestBonus + p.mostBonus
          ≤ s.cur.baseScore + remainingValue s.remS s.remD
            + p.longestBonus + p.mostBonus := by
        rw [remVal_apply]
        have hsv : w.score ≤ usageValue w.usage := hokw.2.2
        omega
      have hlebIn : XInt.leb
          (XInt.fin (s.cur.baseScore + w.score
            + remainingValue (applyUsage w.usage 1 s.remS s.remD).1
                (applyUsage w.usage 1 s.remS s.remD).2
            + p.longestBonus + p.mostBonus))
          s.best.totalScore = true :=
        XInt.leb_fin_mono hubIn hleb
      have hinner : cpDfsNoPrune p rest
          { remS := (applyUsage w.usage 1 s.remS s.remD).1,
            remD := (applyUsage w.usage 1 s.remS s.remD).2,
            cur := { baseScore := s.cur.baseScore + w.score, words := s.cur.words ++ [w],
                     longest := max s.cur.longest w.length, count := s.cur.count + 1 },
            best := s.best }
          = { remS := (applyUsage w.usage 1 s.remS s.remD).1,
              remD := (applyUsage w.usage 1 s.remS s.remD).2,
              cur := { baseScore := s.cur.baseScore + w.score, words := s.cur.words ++ [w],
                       longest := max s.cur.longest w.length, count := s.cur.count + 1 },
              best := s.best } := ih _ hok2 hInInv hlebIn
      have h1 : (cpDfsNoPrune p rest
          { remS := (applyUsage w.usage 1 s.remS s.remD).1,
            remD := (applyUsage w.usage 1 s.remS s.remD).2,
            cur := { baseScore := s.cur.baseScore + w.score, words := s.cur.words ++ [w],
                     longest := max s.cur.longest w.length, count := s.cur.count + 1 },
            best := s.best }).remS = (applyUsage w.usage 1 s.remS s.remD).1 := by
        rw [hinner]
      have h2 : (cpDfsNoPrune p rest
          { remS := (applyUsage w.usage 1 s.remS s.remD).1,
            remD := (applyUsage w.usage 1 s.remS s.remD).2,
            cur := { baseScore := s.cur.baseScore + w.score, words := s.cur.words ++ [w],
                     longest := max s.cur.longest w.length, count := s.cur.count + 1 },
            best := s.best }).remD = (applyUsage w.usage 1 s.remS s.remD).2 := by
        rw [hinner]
      have h3 : (cpDfsNoPrune p rest
          { remS := (applyUsage w.usage 1 s.remS s.remD).1,
            remD := (applyUsage w.usage 1 s.remS s.remD).2,
            cur := { baseScore := s.cur.baseScore + w.score, words := s.cur.words ++ [w],
                     longest := max s.cur.longest w.length, count := s.cur.count + 1 },
            best := s.best }).cur
          = { baseScore := s.cur.baseScore + w.score, words := s.cur.words ++ [w],
              longest := max s.cur.longest w.length, count := s.cur.count + 1 } := by
        rw [hinner]
      have h4 : (cpDfsNoPrune p rest
          { remS := (applyUsage w.usage 1 s.remS s.remD).1,
            remD := (applyUsage w.usage 1 s.remS s.remD).2,
            cur := { baseScore := s.cur.baseScore + w.score, words := s.cur.words ++ [w],
                     longest := max s.cur.longest w.length, count := s.cur.count + 1 },
            best := s.best }).best = s.best := by
        rw [hinner]
      exact cp_noop_step (cpDfsNoPrune p rest) (ih s hok2 hinv hleb) hokw.1 hfit
        rfl h1 h2 h3 h4
    · rw [if_neg hfit]
      exact ih s hok2 hinv hleb

/-- The popped state after an include/restore round satisfies the
admissibility invariant whenever the pre-include state does. -/
theorem cp_binv_step {w : Cand} {s sRec sPop : CPState}
    (hOK : usageOK w.usage)
    (hfit : fits w.usage s.remS s.remD = true)
    (hPop : sPop = { sRec with remS := (applyUsage w.usage (-1) sRec.remS sRec.remD).1, remD := (applyUsage w.usage (-1) sRec.remS sRec.remD).2, cur := { baseScore := sRec.cur.baseScore - w.score, words := sRec.cur.words.dropLast, longest := s.cur.longest, count := sRec.cur.count - 1 } })
    (h1 : sRec.remS = (applyUsage w.usage 1 s.remS s.remD).1)
    (h2 : sRec.remD = (applyUsage w.usage 1 s.remS s.remD).2)
    (h3 : sRec.cur = { baseScore := s.cur.baseScore + w.score,
                       words := s.cur.words ++ [w],
                       longest := max s.cur.longest w.length,
                       count := s.cur.count + 1 })
    (hs : boundInv s) : boundInv sPop := by
  have f1 : sPop.remS = s.remS := by
    rw [hPop]
    show (applyUsage w.usage (-1) sRec.remS sRec.remD).1 = s.remS
    rw [h1, h2]
    exact (applyUsage_cancel w.usage s.remS s.remD hOK hfit).1
  have f2 : sPop.remD = s.remD := by
    rw [hPop]
    show (applyUsage w.usage (-1) sRec.remS sRec.remD).2 = s.remD
    rw [h1, h2]
    exact (applyUsage_cancel w.usage s.remS s.remD hOK hfit).2
  have f3 : sPop.cur = s.cur := by
    rw [hPop]
    show ({ baseScore := sRec.cur.baseScore - w.score, words := sRec.cur.words.dropLast,
            longest := s.cur.longest, count := sRec.cur.count - 1 } : CurRec) = s.cur
    rw [h3]
    dsimp only
    rw [add_sub_cancel_right, List.dropLast_concat, Nat.add_sub_cancel]
  obtain ⟨g1, g2, g3, g4, g5⟩ := hs
  refine ⟨?_, ?_, ?_, ?_, ?_⟩
  · rw [f1]; exact g1
  · rw [f2]; exact g2
  · rw [f1]; exact g3
  · rw [f2]; exact g4
  · rw [f3]; exact g5

/-- The pruned and the unpruned selection searches coincide for candidates
whose scores respect the tile values, with nonnegative bonus parameters and
a well-formed nonnegative state: the upper bound is admissible. -/
theorem cpDfs_eq_noPrune (p : ChooseParams) (hlb : 0 ≤ p.longestBonus)
    (hmb : 0 ≤ p.mostBonus) :
    ∀ (cands : List Cand) (s : CPState), (∀ w ∈ cands, candOK w) → boundInv s →
      cpDfs p cands s = cpDfsNoPrune p cands s := by
  intro cands
  induction cands with
  | nil =>
    intro s _ hinv
    rw [cpDfs]
    split
    · next hleb =>
        exact (cpDfsNoPrune_noop p hlb hmb [] s
          (fun x hx => absurd hx (List.not_mem_nil x)) hinv hleb).symm
    · rfl
  | cons w rest ih =>
    intro s hok hinv
    have hok2 : ∀ x ∈ rest, candOK x := fun x hx => hok x (List.mem_cons_of_mem _ hx)
    have hokw : candOK w := hok w (List.mem_cons_self _ _)
    have hokU : ∀ x ∈ rest, usageOK x.usage := fun x hx => (hok2 x hx).1
    rw [cpDfs]
    dsimp only
    split
    · next hleb =>
        exact (cpDfsNoPrune_noop p hlb hmb (w :: rest) s hok hinv hleb).symm
    · rw [cpDfsNoPrune]
      dsimp only
      by_cases hfit : fits w.usage s.remS s.remD = true
      · rw [if_pos hfit, if_pos hfit]
        have hInInv : boundInv
            { remS := (applyUsage w.usage 1 s.remS s.remD).1,
              remD := (applyUsage w.usage 1 s.remS s.remD).2,
              cur := { baseScore := s.cur.baseScore + w.score, words := s.cur.words ++ [w],
                       longest := max s.cur.longest w.length, count := s.cur.count + 1 },
              best := s.best } := boundInv_apply hokw hfit hinv
        have hinner : cpDfs p rest
            { remS := (applyUsage w.usage 1 s.remS s.remD).1,
              remD := (applyUsage w.usage 1 s.remS s.remD).2,
              cur := { baseScore := s.cur.baseScore + w.score, words := s.cur.words ++ [w],
                       longest := max s.cur.longest w.length, count := s.cur.count + 1 },
              best := s.best }
            = cpDfsNoPrune p rest
            { remS := (applyUsage w.usage 1 s.remS s.remD).1,
              remD := (applyUsage w.usage 1 s.remS s.remD).2,
              cur := { baseScore := s.cur.baseScore + w.score, words := s.cur.words ++ [w],
                       longest := max s.cur.longest w.length, count := s.cur.count + 1 },
              best := s.best } := ih _ hok2 hInInv
        rw [hinner]
        obtain ⟨r1, r2, r3⟩ := cpDfsNoPrune_restore p rest
          { remS := (applyUsage w.usage 1 s.remS s.remD).1,
            remD := (applyUsage w.usage 1 s.remS s.remD).2,
            cur := { baseScore := s.cur.baseScore + w.score, words := s.cur.words ++ [w],
                     longest := max s.cur.longest w.length, count := s.cur.count + 1 },
            best := s.best } hokU
        exact ih _ hok2 (cp_binv_step hokw.1 hfit rfl r1 r2 r3 hinv)
      · rw [if_neg hfit, if_neg hfit]
        exact ih s hok2 hinv

/-- Counterexample to claim C1 as stated: for arbitrary candidate lists the
upper bound is not admissible.  The tile `zz` has no card value
(`cardScores["zz"] || 0 = 0`), so `remainingValue` contributes nothing for
it, while a candidate using it may carry any score.  After the search
records the low-scoring candidate (sorted first by score-per-letter 4 > 100/26),
the bound `0 + 0 + 0 + 0 = 0 ≤ 4` prunes the subtree containing the
100-point candidate: the pruned search returns 4 where the exhaustive
reference returns 100. -/
theorem claim_C1_counterexample :
    cardScore "zz" = 0 ∧
    (chooseBestPlay
        [{ word := "a", score := 4,
           usage := { singleCounts := [], digraphCounts := [("zz", 1)] }, length := 1 },
         { word := "c", score := 100,
           usage := { singleCounts := [], digraphCounts := [("zz", 1)] }, length := 26 }]
        { singleCounts := [], digraphCounts := [("zz", 1)] }
        { currentLongest := XInt.top, currentMost := XInt.top, noDiscard := true,
          longestBonus := 0, mostBonus := 0 }).totalScore = XInt.fin 4 ∧
    (chooseBestPlayRef
        [{ word := "a", score := 4,
           usage := { singleCounts := [], digraphCounts := [("zz", 1)] }, length := 1 },
         { word := "c", score := 100,
           usage := { singleCounts := [], digraphCounts := [("zz", 1)] }, length := 26 }]
        { singleCounts := [], digraphCounts := [("zz", 1)] }
        { currentLongest := XInt.top, currentMost := XInt.top, noDiscard := true,
          longestBonus := 0, mostBonus := 0 }).totalScore = XInt.fin 100 ∧
    XInt.fin (4 : Int) ≠ XInt.fin 100 := by
  refine ⟨by decide, by decide, by decide, by decide⟩

/-- Claim C1 (amended): for candidates whose scores respect their tiles'
card values (`score ≤ usageValue`, with well-formed positive usage maps),
a well-formed nonnegative rack and nonnegative bonus parameters, the pruned
search returns exactly the result of the exhaustive include/exclude
reference search — under these hypotheses the upper bound is admissible and
pruning never discards a strictly better completion. -/
theorem claim_C1_amended (p : ChooseParams) (cands : List Cand) (rc : RackCounts)
    (hlb : 0 ≤ p.longestBonus) (hmb : 0 ≤ p.mostBonus)
    (hwf : wfCounts rc) (hnnS : nonnegCounts rc.singleCounts)
    (hnnD : nonnegCounts rc.digraphCounts)
    (hok : ∀ w ∈ cands, candOK w) :
    chooseBestPlay cands rc p = chooseBestPlayRef cands rc p := by
  have hok2 : ∀ w ∈ sortCands cands, candOK w :=
    fun w hw => hok w (mem_sortCands hw)
  have hinit : boundInv (initCPState rc) := by
    refine ⟨hwf.1, hwf.2, getCount_nonneg hnnS, getCount_nonneg hnnD, le_refl 0⟩
  show packResult (cpDfs p (sortCands cands) (initCPState rc)).best
    = packResult (cpDfsNoPrune p (sortCands cands) (initCPState rc)).best
  rw [cpDfs_eq_noPrune p hlb hmb (sortCands cands) (initCPState rc) hok2 hinit]

/-- Witness for C1 at a concrete input: one value-respecting candidate on
the rack `{a: 1}`; the pruned and exhaustive searches agree. -/
theorem claim_C1_witness :
    chooseBestPlay
        [{ word := "a", score := 2,
           usage := { singleCounts := [("a", 1)], digraphCounts := [] }, length := 1 }]
        { singleCounts := [("a", 1)], digraphCounts := [] }
        { currentLongest := XInt.top, currentMost := XInt.top, noDiscard := false,
          longestBonus := 10, mostBonus := 10 }
      = chooseBestPlayRef
        [{ word := "a", score := 2,
           usage := { singleCounts := [("a", 1)], digraphCounts := [] }, length := 1 }]
        { singleCounts := [("a", 1)], digraphCounts := [] }
        { currentLongest := XInt.top, currentMost := XInt.top, noDiscard := false,
          longestBonus := 10, mostBonus := 10 } := by
  have hok : ∀ w ∈ [({ word := "a", score := 2, usage := { singleCounts := [("a", 1)], digraphCounts := [] }, length := 1 } : Cand)], candOK w := by
    intro w hw
    simp only [List.mem_singleton] at hw
    subst hw
    refine ⟨?_, by decide, ?_⟩
    · unfold usageOK wfCounts keysNodup posCounts
      refine ⟨⟨?_, ?_⟩, ?_, ?_⟩ <;> simp
    · show (2 : Int) ≤ usageValue { singleCounts := [("a", 1)], digraphCounts := [] }
      decide
  exact claim_C1_amended
    { currentLongest := XInt.top, currentMost := XInt.top, noDiscard := false,
      longestBonus := 10, mostBonus := 10 }
    [{ word := "a", score := 2,
       usage := { singleCounts := [("a", 1)], digraphCounts := [] }, length := 1 }]
    { singleCounts := [("a", 1)], digraphCounts := [] }
    (by decide) (by decide)
    (by unfold wfCounts keysNodup; exact ⟨by simp, by simp⟩)
    (by intro e he; simp only [List.mem_singleton] at he; subst he; decide)
    (by intro e he; simp at he)
    hok
